import Mathlib

/-!
# Cache hierarchy simulator (oc-lab1, variants 4.1, 4.2 and 4.3)

A shallow embedding of the three cache simulators of the repository:

* `V41` : `4.1/L1Cache.c`, a direct-mapped L1 in front of DRAM;
* `V42` : `4.2/L2Cache.c`, a direct-mapped L1 and a direct-mapped L2;
* `V43` : `4.3/L2Cache.c`, a direct-mapped L1 and a set-associative L2 with
  time stamps.

The C globals (`DRAM`, `time`, the cache) become fields of an explicit state
that every function takes and returns.  `exit(-1)` is the `none` of `Option`.
Byte buffers (`uint8_t *`) are functions from byte offsets to byte values, and
`uint32_t` arithmetic is carried out on `Nat` with an explicit `% 2^32`.
-/

namespace OCLab

/-! ## Constants of the absent header `Cache.h` -/

/-- Modelled from the spec: `WORD_SIZE` of the absent header `Cache.h`; the
word is the four-byte unit copied by `read` and `write`. -/
def WORD_SIZE : Nat := 4

/-- Modelled from the spec: `BLOCK_SIZE` of the absent header `Cache.h`; the
spec and the comments of `accessL1` give 64 bytes per block. -/
def BLOCK_SIZE : Nat := 64

/-- Modelled from the spec: `L1_SIZE` of the absent header `Cache.h`; the spec
and the comments of `accessL1` give 256 lines of one block each. -/
def L1_SIZE : Nat := 256 * BLOCK_SIZE

/-- Modelled from the spec: the remaining constants of the absent header
`Cache.h`, taken as parameters: the capacity of the backing store, the fixed
cost of each kind of access, and the number of lines of one set of the
set-associative L2 of variant 4.3 (the source calls it `NUMSETS`). -/
structure Config where
  DRAM_SIZE : Nat
  DRAM_READ_TIME : Nat
  DRAM_WRITE_TIME : Nat
  L2_READ_TIME : Nat
  L2_WRITE_TIME : Nat
  L1_READ_TIME : Nat
  L1_WRITE_TIME : Nat
  NUMSETS : Nat

/-- A concrete configuration on which the model is evaluated: a store of 1024
blocks, a two-way L2, and costs 100/50 (DRAM), 10/5 (L2), 1/1 (L1). -/
def labConfig : Config where
  DRAM_SIZE := 1024 * BLOCK_SIZE
  DRAM_READ_TIME := 100
  DRAM_WRITE_TIME := 50
  L2_READ_TIME := 10
  L2_WRITE_TIME := 5
  L1_READ_TIME := 1
  L1_WRITE_TIME := 1
  NUMSETS := 2

/-- The two values of the `mode` argument, `MODE_READ` and `MODE_WRITE` of the
absent header, taken to be distinct. -/
inductive Mode where
  | MODE_READ
  | MODE_WRITE
deriving DecidableEq

/-- A byte buffer: the byte stored at each offset. -/
abbrev Buf := Nat → Nat

/-- The C library call `memcpy(dst + dOff, src + sOff, n)`. -/
def memcpy (dst : Buf) (dOff : Nat) (src : Buf) (sOff n : Nat) : Buf :=
  fun i => if dOff ≤ i ∧ i < dOff + n then src (sOff + (i - dOff)) else dst i

/-- The C library call `memset(dst + dOff, v, n)`. -/
def memset (dst : Buf) (dOff v n : Nat) : Buf :=
  fun i => if dOff ≤ i ∧ i < dOff + n then v else dst i

/-- The loop `for (int i = 0; i < n; i++) body`. -/
def forLoop {σ : Type} (n : Nat) (body : Nat → σ → σ) (s : σ) : σ :=
  (List.range n).foldl (fun acc i => body i acc) s

/-- The assignment to one element of an array. -/
def setAt {α : Type} (arr : Nat → α) (i : Nat) (v : α) : Nat → α :=
  fun j => if j = i then v else arr j

/-- Reduction of a value to `uint32_t`. -/
def u32 (n : Nat) : Nat := n % 2 ^ 32

/-! ## The backing store and the time accumulator -/

/-- The globals `DRAM` and `time`, together with two ghost fields: a log that
records each completed `accessDRAM` call (its mode and address), oldest first,
and the flag `dramOverrun`, set once a block copy of `accessDRAM` has run past
the end of the array `DRAM`.  Such a copy is undefined behaviour in C: from
then on the other fields have no counterpart in the source. -/
structure Store where
  DRAM : Buf
  time : Nat
  dramLog : List (Mode × Nat)
  dramOverrun : Bool := false

/-- The function `resetTime`. -/
def resetTime (m : Store) : Store := { m with time := 0 }

/-- The function `getTime`. -/
def getTime (m : Store) : Nat := m.time

/-- Whether the `memcpy` of `BLOCK_SIZE` bytes at `address` runs past the end
of the array `DRAM`. -/
def copyOverruns (cfg : Config) (address : Nat) : Bool :=
  decide (cfg.DRAM_SIZE < address + BLOCK_SIZE)

/-- The function `accessDRAM`, the same in the three variants; `none` is
`exit(-1)`.  The result holds the new store and the `data` buffer.  The bound
`DRAM_SIZE - WORD_SIZE + 1` uses the truncated subtraction of `Nat`, which is
the C value whenever `DRAM_SIZE` is at least `WORD_SIZE`.  The guard is on
`WORD_SIZE` and the copy moves `BLOCK_SIZE` bytes: when the guard passes and
the block does not fit, the source runs past the end of `DRAM`, which is
undefined behaviour; the model records it in `dramOverrun`, and the bytes it
then reads or writes at offsets from `DRAM_SIZE` on are not those of the
source. -/
def accessDRAM (cfg : Config) (m : Store) (address : Nat) (data : Buf) (mode : Mode) :
    Option (Store × Buf) :=
  if address ≥ cfg.DRAM_SIZE - WORD_SIZE + 1 then none
  else
    match mode with
    | Mode.MODE_READ =>
      some ({ m with time := u32 (m.time + cfg.DRAM_READ_TIME),
                     dramLog := m.dramLog ++ [(Mode.MODE_READ, address)],
                     dramOverrun := m.dramOverrun || copyOverruns cfg address },
            memcpy data 0 m.DRAM address BLOCK_SIZE)
    | Mode.MODE_WRITE =>
      some ({ m with DRAM := memcpy m.DRAM address data 0 BLOCK_SIZE,
                     time := u32 (m.time + cfg.DRAM_WRITE_TIME),
                     dramLog := m.dramLog ++ [(Mode.MODE_WRITE, address)],
                     dramOverrun := m.dramOverrun || copyOverruns cfg address },
            data)

/-- The struct `CacheLine` of variants 4.1 and 4.2. -/
structure CacheLine where
  Valid : Nat
  Dirty : Nat
  Tag : Nat
  Block : Buf

/-- The body of the start-up loops: one line is invalidated and zeroed. -/
def clearLine (l : CacheLine) : CacheLine :=
  { Valid := 0, Dirty := 0, Tag := 0, Block := memset l.Block 0 0 BLOCK_SIZE }

/-- The L1 index of an address: `(address >> 6) & 0xFF`. -/
def l1Index (address : Nat) : Nat := (address >>> 6) &&& 0xFF

/-- The block offset of an address: `address & 0x3F`. -/
def l1Offset (address : Nat) : Nat := address &&& 0x3F

/-- The L1 tag of an address: `address >> 14`. -/
def l1Tag (address : Nat) : Nat := address >>> 14

/-- The L1 write-back address `(Line->Tag << 14) + (index << 6)`, in
`uint32_t`. -/
def l1MemAddress (tag index : Nat) : Nat := u32 (u32 (tag <<< 14) + u32 (index <<< 6))

/-- The uninitialised local array `TempBlock`, here all zero. -/
def TempBlock0 : Buf := fun _ => 0

/-! ## Variant 4.1: a single direct-mapped level -/

namespace V41

/-- The globals of `4.1/L1Cache.c`: the store and `L1Cache`. -/
structure State where
  mem : Store
  init : Nat
  lines : Nat → CacheLine

/-- The function `initCache`. -/
def initCache (s : State) : State := { s with init := 0 }

/-- The block `if (L1Cache.init == 0)` at the head of `accessL1`. -/
def lazyInit (s : State) : State :=
  if s.init = 0 then
    { s with init := 1,
             lines := forLoop (L1_SIZE / BLOCK_SIZE)
               (fun i ls => setAt ls i (clearLine (ls i))) s.lines }
  else s

/-- The miss test `!Line->Valid || Line->Tag != tag`. -/
def isMiss (Line : CacheLine) (tag : Nat) : Bool :=
  Line.Valid = 0 ∨ Line.Tag ≠ tag

/-- The miss branch of `accessL1`: the block is fetched from DRAM, a dirty
victim is written back, and the line is refilled. -/
def fill (cfg : Config) (s : State) (address : Nat) : Option State :=
  let index := l1Index address
  let offset := l1Offset address
  let tag := l1Tag address
  let Line := s.lines index
  if isMiss Line tag then
    (accessDRAM cfg s.mem (address - offset) TempBlock0 Mode.MODE_READ).bind fun r1 =>
    (if Line.Valid ≠ 0 ∧ Line.Dirty ≠ 0 then
        (accessDRAM cfg r1.1 (l1MemAddress Line.Tag index) Line.Block Mode.MODE_WRITE).map
          Prod.fst
      else some r1.1).bind fun m2 =>
    some { s with mem := m2,
                  lines := setAt s.lines index
                    { Valid := 1, Tag := tag, Dirty := 0,
                      Block := memcpy Line.Block 0 r1.2 0 BLOCK_SIZE } }
  else some s

/-- The two final blocks of `accessL1`: the word is copied out of or into the
line and the L1 cost is added. -/
def service (cfg : Config) (s : State) (address : Nat) (data : Buf) (mode : Mode) :
    State × Buf :=
  let index := l1Index address
  let offset := l1Offset address
  let Line := s.lines index
  match mode with
  | Mode.MODE_READ =>
    ({ s with mem := { s.mem with time := u32 (s.mem.time + cfg.L1_READ_TIME) } },
     memcpy data 0 Line.Block offset WORD_SIZE)
  | Mode.MODE_WRITE =>
    ({ s with mem := { s.mem with time := u32 (s.mem.time + cfg.L1_WRITE_TIME) },
              lines := setAt s.lines index
                { Line with Block := memcpy Line.Block offset data 0 WORD_SIZE, Dirty := 1 } },
     data)

/-- The function `accessL1` of `4.1/L1Cache.c`. -/
def accessL1 (cfg : Config) (s : State) (address : Nat) (data : Buf) (mode : Mode) :
    Option (State × Buf) :=
  (fill cfg (lazyInit s) address).map fun s1 => service cfg s1 address data mode

/-- The function `read`. -/
def read (cfg : Config) (s : State) (address : Nat) (data : Buf) : Option (State × Buf) :=
  accessL1 cfg s address data Mode.MODE_READ

/-- The function `write`. -/
def write (cfg : Config) (s : State) (address : Nat) (data : Buf) : Option (State × Buf) :=
  accessL1 cfg s address data Mode.MODE_WRITE

end V41

/-! ## Variant 4.2: two direct-mapped levels -/

/-- Modelled from the spec: `L2_SIZE` of the absent header `Cache.h` of variant
4.2; the comments of `accessL2` give 512 lines of one block each. -/
def L2_SIZE : Nat := 512 * BLOCK_SIZE

namespace V42

/-- The L2 index of an address: `(address >> 6) & 0x1FF`. -/
def l2Index (address : Nat) : Nat := (address >>> 6) &&& 0x1FF

/-- The L2 tag of an address: `address >> 15`. -/
def l2Tag (address : Nat) : Nat := address >>> 15

/-- The L2 write-back address `(Line->Tag << 15) + (index << 6)`, in
`uint32_t`. -/
def l2MemAddress (tag index : Nat) : Nat := u32 (u32 (tag <<< 15) + u32 (index <<< 6))

/-- The globals of `4.2/L2Cache.c`: the store and `cache`. -/
structure State where
  mem : Store
  init : Nat
  l1 : Nat → CacheLine
  l2 : Nat → CacheLine

/-- The function `initCache`. -/
def initCache (s : State) : State := { s with init := 0 }

/-- The block `if (cache.init == 0)` at the head of `accessL1`. -/
def lazyInit (s : State) : State :=
  if s.init = 0 then
    { s with init := 1,
             l1 := forLoop (L1_SIZE / BLOCK_SIZE)
               (fun i ls => setAt ls i (clearLine (ls i))) s.l1,
             l2 := forLoop (L2_SIZE / BLOCK_SIZE)
               (fun i ls => setAt ls i (clearLine (ls i))) s.l2 }
  else s

/-- The miss test `!Line->Valid || Line->Tag != tag`. -/
def isMiss (Line : CacheLine) (tag : Nat) : Bool :=
  Line.Valid = 0 ∨ Line.Tag ≠ tag

/-- The miss branch of `accessL2`. -/
def fillL2 (cfg : Config) (s : State) (address : Nat) : Option State :=
  let index := l2Index address
  let tag := l2Tag address
  let Line := s.l2 index
  if isMiss Line tag then
    (accessDRAM cfg s.mem address TempBlock0 Mode.MODE_READ).bind fun r1 =>
    (if Line.Valid ≠ 0 ∧ Line.Dirty ≠ 0 then
        (accessDRAM cfg r1.1 (l2MemAddress Line.Tag index) Line.Block Mode.MODE_WRITE).map
          Prod.fst
      else some r1.1).bind fun m2 =>
    some { s with mem := m2,
                  l2 := setAt s.l2 index
                    { Valid := 1, Tag := tag, Dirty := 0,
                      Block := memcpy Line.Block 0 r1.2 0 BLOCK_SIZE } }
  else some s

/-- The two final blocks of `accessL2`: the whole block is copied out of or
into the line and the L2 cost is added. -/
def serviceL2 (cfg : Config) (s : State) (address : Nat) (data : Buf) (mode : Mode) :
    State × Buf :=
  let index := l2Index address
  let Line := s.l2 index
  match mode with
  | Mode.MODE_READ =>
    ({ s with mem := { s.mem with time := u32 (s.mem.time + cfg.L2_READ_TIME) } },
     memcpy data 0 Line.Block 0 BLOCK_SIZE)
  | Mode.MODE_WRITE =>
    ({ s with mem := { s.mem with time := u32 (s.mem.time + cfg.L2_WRITE_TIME) },
              l2 := setAt s.l2 index
                { Line with Block := memcpy Line.Block 0 data 0 BLOCK_SIZE, Dirty := 1 } },
     data)

/-- The function `accessL2` of `4.2/L2Cache.c`. -/
def accessL2 (cfg : Config) (s : State) (address : Nat) (data : Buf) (mode : Mode) :
    Option (State × Buf) :=
  (fillL2 cfg s address).map fun s1 => serviceL2 cfg s1 address data mode

/-- The miss branch of `accessL1`: the block is fetched from L2, a dirty
victim is written back to L2, and the line is refilled. -/
def fillL1 (cfg : Config) (s : State) (address : Nat) : Option State :=
  let index := l1Index address
  let offset := l1Offset address
  let tag := l1Tag address
  if isMiss (s.l1 index) tag then
    (accessL2 cfg s (address - offset) TempBlock0 Mode.MODE_READ).bind fun r1 =>
    (if (r1.1.l1 index).Valid ≠ 0 ∧ (r1.1.l1 index).Dirty ≠ 0 then
        (accessL2 cfg r1.1 (l1MemAddress (r1.1.l1 index).Tag index) (r1.1.l1 index).Block
          Mode.MODE_WRITE).map Prod.fst
      else some r1.1).bind fun s2 =>
    some { s2 with l1 := setAt s2.l1 index
                    { Valid := 1, Tag := tag, Dirty := 0,
                      Block := memcpy (s2.l1 index).Block 0 r1.2 0 BLOCK_SIZE } }
  else some s

/-- The two final blocks of `accessL1`. -/
def serviceL1 (cfg : Config) (s : State) (address : Nat) (data : Buf) (mode : Mode) :
    State × Buf :=
  let index := l1Index address
  let offset := l1Offset address
  let Line := s.l1 index
  match mode with
  | Mode.MODE_READ =>
    ({ s with mem := { s.mem with time := u32 (s.mem.time + cfg.L1_READ_TIME) } },
     memcpy data 0 Line.Block offset WORD_SIZE)
  | Mode.MODE_WRITE =>
    ({ s with mem := { s.mem with time := u32 (s.mem.time + cfg.L1_WRITE_TIME) },
              l1 := setAt s.l1 index
                { Line with Block := memcpy Line.Block offset data 0 WORD_SIZE, Dirty := 1 } },
     data)

/-- The function `accessL1` of `4.2/L2Cache.c`. -/
def accessL1 (cfg : Config) (s : State) (address : Nat) (data : Buf) (mode : Mode) :
    Option (State × Buf) :=
  (fillL1 cfg (lazyInit s) address).map fun s1 => serviceL1 cfg s1 address data mode

/-- The function `read`. -/
def read (cfg : Config) (s : State) (address : Nat) (data : Buf) : Option (State × Buf) :=
  accessL1 cfg s address data Mode.MODE_READ

/-- The function `write`. -/
def write (cfg : Config) (s : State) (address : Nat) (data : Buf) : Option (State × Buf) :=
  accessL1 cfg s address data Mode.MODE_WRITE

end V42

/-! ## Variant 4.3: a direct-mapped L1 and a set-associative L2 -/

namespace V43

/-- Modelled from the spec: the struct `CacheLine` of the absent header
`4.3/L2Cache.h`: the line of variant 4.2 with the recency stamp `Time`. -/
structure CacheLine where
  Valid : Nat
  Dirty : Nat
  Tag : Nat
  Time : Nat
  Block : Buf

/-- The body of the start-up loops: one line is invalidated and zeroed. -/
def clearLine (l : CacheLine) : CacheLine :=
  { Valid := 0, Dirty := 0, Tag := 0, Time := 0, Block := memset l.Block 0 0 BLOCK_SIZE }

/-- Modelled from the spec: `L2_SIZE` of the absent header of variant 4.3; the
comments of `accessL2` give `L2_SIZE/BLOCK_SIZE/NUMSETS` = 256 sets. -/
def L2_SIZE (cfg : Config) : Nat := 256 * cfg.NUMSETS * BLOCK_SIZE

/-- Modelled from the spec: the absent declaration of `cache.l2`, a sequence of
256 sets of `NUMSETS` lines each.  The lines are stored one after the other, so
`cache.l2.sets[a].lines[b]` is the line in position `a * NUMSETS + b`. -/
def l2Slot (cfg : Config) (a b : Nat) : Nat := a * cfg.NUMSETS + b

/-- The L2 index of an address: `(address >> 6) & 0xFF`. -/
def l2Index (address : Nat) : Nat := (address >>> 6) &&& 0xFF

/-- The L2 tag of an address: `address >> 14`. -/
def l2Tag (address : Nat) : Nat := address >>> 14

/-- The L2 write-back address `(Line->Tag << 14) + (index << 6)`, in
`uint32_t`. -/
def l2MemAddress (tag index : Nat) : Nat := u32 (u32 (tag <<< 14) + u32 (index <<< 6))

/-- The globals of `4.3/L2Cache.c`: the store and `cache`; `l2` holds the lines
of all the sets in storage order, the positions from `L2_SIZE/BLOCK_SIZE` on
standing for whatever memory follows `cache.l2`.  The ghost flag `l2Overrun` is
set once a store has been made past the last line of `cache.l2`.  Such a store
is undefined behaviour in C (it overwrites other globals or faults): from then
on the other fields have no counterpart in the source. -/
structure State where
  mem : Store
  init : Nat
  l1 : Nat → CacheLine
  l2 : Nat → CacheLine
  l2Overrun : Bool := false

/-- The function `initCache`. -/
def initCache (s : State) : State := { s with init := 0 }

/-- Whether the second loop nest of the start-up block stores past the last
line of `cache.l2`: the same loops as in `lazyInit`, testing each position
`cache.l2.sets[j].lines[i]` against the `L2_SIZE/BLOCK_SIZE` lines of the
array. -/
def initOverrun (cfg : Config) : Bool :=
  forLoop (L2_SIZE cfg / BLOCK_SIZE)
    (fun i b => forLoop cfg.NUMSETS
      (fun j b => b || decide (L2_SIZE cfg / BLOCK_SIZE ≤ l2Slot cfg j i)) b)
    false

/-- The block `if (cache.init == 0)` at the head of `accessL1`.  The second
loop nest visits `cache.l2.sets[j].lines[i]` for `i < L2_SIZE/BLOCK_SIZE` and
`j < NUMSETS`, as the source does: the transpose of the `sets[index].lines[i]`
with `i < NUMSETS` of `accessL2`.  With `NUMSETS` at least 2 it therefore
stores past the last line of `cache.l2`, which `l2Overrun` records. -/
def lazyInit (cfg : Config) (s : State) : State :=
  if s.init = 0 then
    { s with init := 1,
             l1 := forLoop (L1_SIZE / BLOCK_SIZE)
               (fun i ls => setAt ls i (clearLine (ls i))) s.l1,
             l2 := forLoop (L2_SIZE cfg / BLOCK_SIZE)
               (fun i ls => forLoop cfg.NUMSETS
                 (fun j ls => setAt ls (l2Slot cfg j i) (clearLine (ls (l2Slot cfg j i)))) ls)
               s.l2,
             l2Overrun := s.l2Overrun || initOverrun cfg }
  else s

/-- The miss test `!Line->Valid || Line->Tag != tag`. -/
def isMiss (Line : CacheLine) (tag : Nat) : Bool :=
  Line.Valid = 0 ∨ Line.Tag ≠ tag

/-- The selection loop of `accessL2`, with `n` iterations left, loop counter
`i`, `way` the position `Line` points to and `lowestSetTime`; `set` gives the
lines of the target set. -/
def scanSet (set : Nat → CacheLine) (tag : Nat) : Nat → Nat → Nat → Nat → Nat
  | 0, _, way, _ => way
  | n + 1, i, way, lowestSetTime =>
    if (set 0).Tag = tag then i
    else
      if (set i).Time ≤ lowestSetTime then scanSet set tag n (i + 1) i (set i).Time
      else scanSet set tag n (i + 1) way lowestSetTime

/-- The line `accessL2` works on: `Line` starts at line 0 of the set and the
loop runs `NUMSETS` times. -/
def selectLine (cfg : Config) (set : Nat → CacheLine) (tag : Nat) : Nat :=
  scanSet set tag cfg.NUMSETS 0 0 (set 0).Time

/-- The position in `cache.l2` of the line `accessL2` works on. -/
def l2Target (cfg : Config) (s : State) (address : Nat) : Nat :=
  l2Slot cfg (l2Index address)
    (selectLine cfg (fun i => s.l2 (l2Slot cfg (l2Index address) i)) (l2Tag address))

/-- The miss branch of `accessL2` on the selected line, at position `p`. -/
def fillL2 (cfg : Config) (s : State) (address : Nat) (p : Nat) : Option State :=
  let index := l2Index address
  let tag := l2Tag address
  let Line := s.l2 p
  if isMiss Line tag then
    (accessDRAM cfg s.mem address TempBlock0 Mode.MODE_READ).bind fun r1 =>
    (if Line.Valid ≠ 0 ∧ Line.Dirty ≠ 0 then
        (accessDRAM cfg r1.1 (l2MemAddress Line.Tag index) Line.Block Mode.MODE_WRITE).map
          Prod.fst
      else some r1.1).bind fun m2 =>
    some { s with mem := m2,
                  l2 := setAt s.l2 p
                    { Valid := 1, Tag := tag, Dirty := 0, Time := m2.time,
                      Block := memcpy Line.Block 0 r1.2 0 BLOCK_SIZE } }
  else some s

/-- The two final blocks of `accessL2` on the selected line, at position
`p`. -/
def serviceL2 (cfg : Config) (s : State) (p : Nat) (data : Buf) (mode : Mode) :
    State × Buf :=
  let Line := s.l2 p
  match mode with
  | Mode.MODE_READ =>
    ({ s with mem := { s.mem with time := u32 (s.mem.time + cfg.L2_READ_TIME) },
              l2 := setAt s.l2 p { Line with Time := s.mem.time } },
     memcpy data 0 Line.Block 0 BLOCK_SIZE)
  | Mode.MODE_WRITE =>
    ({ s with mem := { s.mem with time := u32 (s.mem.time + cfg.L2_WRITE_TIME) },
              l2 := setAt s.l2 p
                { Line with Block := memcpy Line.Block 0 data 0 BLOCK_SIZE,
                            Time := s.mem.time, Dirty := 1 } },
     data)

/-- The function `accessL2` of `4.3/L2Cache.c`. -/
def accessL2 (cfg : Config) (s : State) (address : Nat) (data : Buf) (mode : Mode) :
    Option (State × Buf) :=
  (fillL2 cfg s address (l2Target cfg s address)).map fun s1 =>
    serviceL2 cfg s1 (l2Target cfg s address) data mode

/-- The miss branch of `accessL1`. -/
def fillL1 (cfg : Config) (s : State) (address : Nat) : Option State :=
  let index := l1Index address
  let offset := l1Offset address
  let tag := l1Tag address
  if isMiss (s.l1 index) tag then
    (accessL2 cfg s (address - offset) TempBlock0 Mode.MODE_READ).bind fun r1 =>
    (if (r1.1.l1 index).Valid ≠ 0 ∧ (r1.1.l1 index).Dirty ≠ 0 then
        (accessL2 cfg r1.1 (l1MemAddress (r1.1.l1 index).Tag index) (r1.1.l1 index).Block
          Mode.MODE_WRITE).map Prod.fst
      else some r1.1).bind fun s2 =>
    some { s2 with l1 := setAt s2.l1 index
                    { s2.l1 index with
                      Valid := 1, Tag := tag, Dirty := 0,
                      Block := memcpy (s2.l1 index).Block 0 r1.2 0 BLOCK_SIZE } }
  else some s

/-- The two final blocks of `accessL1`. -/
def serviceL1 (cfg : Config) (s : State) (address : Nat) (data : Buf) (mode : Mode) :
    State × Buf :=
  let index := l1Index address
  let offset := l1Offset address
  let Line := s.l1 index
  match mode with
  | Mode.MODE_READ =>
    ({ s with mem := { s.mem with time := u32 (s.mem.time + cfg.L1_READ_TIME) } },
     memcpy data 0 Line.Block offset WORD_SIZE)
  | Mode.MODE_WRITE =>
    ({ s with mem := { s.mem with time := u32 (s.mem.time + cfg.L1_WRITE_TIME) },
              l1 := setAt s.l1 index
                { Line with Block := memcpy Line.Block offset data 0 WORD_SIZE, Dirty := 1 } },
     data)

/-- The function `accessL1` of `4.3/L2Cache.c`. -/
def accessL1 (cfg : Config) (s : State) (address : Nat) (data : Buf) (mode : Mode) :
    Option (State × Buf) :=
  (fillL1 cfg (lazyInit cfg s) address).map fun s1 => serviceL1 cfg s1 address data mode

/-- The function `read`. -/
def read (cfg : Config) (s : State) (address : Nat) (data : Buf) : Option (State × Buf) :=
  accessL1 cfg s address data Mode.MODE_READ

/-- The function `write`. -/
def write (cfg : Config) (s : State) (address : Nat) (data : Buf) : Option (State × Buf) :=
  accessL1 cfg s address data Mode.MODE_WRITE

end V43

/-! ## States at program start and sample buffers -/

/-- A line of a zero-initialised global of variants 4.1 and 4.2. -/
def zeroLine : CacheLine := { Valid := 0, Dirty := 0, Tag := 0, Block := fun _ => 0 }

/-- A line of the zero-initialised global of variant 4.3. -/
def V43.zeroLine : V43.CacheLine :=
  { Valid := 0, Dirty := 0, Tag := 0, Time := 0, Block := fun _ => 0 }

/-- The store at program start with the given DRAM contents. -/
def startStore (dram : Buf) : Store := { DRAM := dram, time := 0, dramLog := [] }

/-- The globals of variant 4.1 at program start, over the given DRAM. -/
def V41.startState (dram : Buf) : V41.State :=
  { mem := startStore dram, init := 0, lines := fun _ => zeroLine }

/-- The globals of variant 4.2 at program start, over the given DRAM. -/
def V42.startState (dram : Buf) : V42.State :=
  { mem := startStore dram, init := 0, l1 := fun _ => zeroLine, l2 := fun _ => zeroLine }

/-- The globals of variant 4.3 at program start, over the given DRAM. -/
def V43.startState (dram : Buf) : V43.State :=
  { mem := startStore dram, init := 0, l1 := fun _ => V43.zeroLine,
    l2 := fun _ => V43.zeroLine }

/-- The zero-initialised DRAM of program start. -/
def zeroDRAM : Buf := fun _ => 0

/-- The four bytes of a 32-bit value, least significant first. -/
def wordBytes (v : Nat) : Buf := fun k => v / 256 ^ k % 256

/-- The state of variant 4.1 at program start with the accumulator at the
largest 32-bit value. -/
def V41.fullTimeState : V41.State :=
  { mem := { DRAM := zeroDRAM, time := 2 ^ 32 - 1, dramLog := [] }, init := 0,
    lines := fun _ => zeroLine }

/-- The cost the final block of `accessL1` adds to `time`. -/
def V41.l1Cost (cfg : Config) (mode : Mode) : Nat :=
  match mode with
  | Mode.MODE_READ => cfg.L1_READ_TIME
  | Mode.MODE_WRITE => cfg.L1_WRITE_TIME

/-- The cost one `accessL1` call of variant 4.1 adds to `time`, read off the
path the call takes: the DRAM read of a miss, the DRAM write of a valid and
dirty victim, and the L1 cost of the mode. -/
def V41.callCost (cfg : Config) (s : V41.State) (address : Nat) (mode : Mode) : Nat :=
  let Line := (V41.lazyInit s).lines (l1Index address)
  (if V41.isMiss Line (l1Tag address) then
      cfg.DRAM_READ_TIME + (if Line.Valid ≠ 0 ∧ Line.Dirty ≠ 0 then cfg.DRAM_WRITE_TIME else 0)
    else 0) + V41.l1Cost cfg mode

/-! ## Predicates and runs used by the later claims -/

/-- The globals at the moment `accessDRAM` is left, by `exit(-1)` or by
return: the bounds check comes first and leaves them as they are. -/
def accessDRAMGlobals (cfg : Config) (m : Store) (address : Nat) (data : Buf) (mode : Mode) :
    Store :=
  if address ≥ cfg.DRAM_SIZE - WORD_SIZE + 1 then m
  else
    match mode with
    | Mode.MODE_READ =>
      { m with time := u32 (m.time + cfg.DRAM_READ_TIME),
               dramLog := m.dramLog ++ [(Mode.MODE_READ, address)],
               dramOverrun := m.dramOverrun || copyOverruns cfg address }
    | Mode.MODE_WRITE =>
      { m with DRAM := memcpy m.DRAM address data 0 BLOCK_SIZE,
               time := u32 (m.time + cfg.DRAM_WRITE_TIME),
               dramLog := m.dramLog ++ [(Mode.MODE_WRITE, address)],
               dramOverrun := m.dramOverrun || copyOverruns cfg address }

/-- The invariant `dirty ⇒ valid` on the first `n` lines of a level (variants
4.1 and 4.2). -/
def dirtyValidLines (n : Nat) (ls : Nat → CacheLine) : Prop :=
  ∀ i, i < n → (ls i).Dirty ≠ 0 → (ls i).Valid ≠ 0

/-- The invariant `dirty ⇒ valid` on the lines of `L1Cache` (variant 4.1). -/
def V41.dirtyValid (s : V41.State) : Prop :=
  dirtyValidLines (L1_SIZE / BLOCK_SIZE) s.lines

/-- The invariant `dirty ⇒ valid` on the lines of both levels (variant 4.2). -/
def V42.dirtyValid (s : V42.State) : Prop :=
  dirtyValidLines (L1_SIZE / BLOCK_SIZE) s.l1 ∧ dirtyValidLines (L2_SIZE / BLOCK_SIZE) s.l2

/-- The invariant `dirty ⇒ valid` on the first `n` lines of a level (variant
4.3). -/
def V43.dirtyValidLines (n : Nat) (ls : Nat → V43.CacheLine) : Prop :=
  ∀ i, i < n → (ls i).Dirty ≠ 0 → (ls i).Valid ≠ 0

/-- The invariant `dirty ⇒ valid` on the lines of both levels (variant 4.3). -/
def V43.dirtyValid (cfg : Config) (s : V43.State) : Prop :=
  V43.dirtyValidLines (L1_SIZE / BLOCK_SIZE) s.l1 ∧
  V43.dirtyValidLines (V43.L2_SIZE cfg / BLOCK_SIZE) s.l2

/-- The states of variant 4.1 the driver can reach: program start (`init` and
every line zero, any DRAM contents and time), then completed reads and writes
on word-aligned addresses, `initCache()` and `resetTime()`. -/
inductive V41.Reachable (cfg : Config) : V41.State → Prop where
  | start (m : Store) : V41.Reachable cfg { mem := m, init := 0, lines := fun _ => zeroLine }
  | access (s : V41.State) (A : Nat) (data : Buf) (mode : Mode) (r : V41.State × Buf) :
      V41.Reachable cfg s → A % WORD_SIZE = 0 → V41.accessL1 cfg s A data mode = some r →
      V41.Reachable cfg r.1
  | initCache (s : V41.State) : V41.Reachable cfg s → V41.Reachable cfg (V41.initCache s)
  | resetTime (s : V41.State) :
      V41.Reachable cfg s → V41.Reachable cfg { s with mem := resetTime s.mem }

/-- The states of variant 4.2 the driver can reach. -/
inductive V42.Reachable (cfg : Config) : V42.State → Prop where
  | start (m : Store) :
      V42.Reachable cfg { mem := m, init := 0, l1 := fun _ => zeroLine, l2 := fun _ => zeroLine }
  | access (s : V42.State) (A : Nat) (data : Buf) (mode : Mode) (r : V42.State × Buf) :
      V42.Reachable cfg s → A % WORD_SIZE = 0 → V42.accessL1 cfg s A data mode = some r →
      V42.Reachable cfg r.1
  | initCache (s : V42.State) : V42.Reachable cfg s → V42.Reachable cfg (V42.initCache s)
  | resetTime (s : V42.State) :
      V42.Reachable cfg s → V42.Reachable cfg { s with mem := resetTime s.mem }

/-- The states of variant 4.3 the driver can reach. -/
inductive V43.Reachable (cfg : Config) : V43.State → Prop where
  | start (m : Store) :
      V43.Reachable cfg
        { mem := m, init := 0, l1 := fun _ => V43.zeroLine, l2 := fun _ => V43.zeroLine }
  | access (s : V43.State) (A : Nat) (data : Buf) (mode : Mode) (r : V43.State × Buf) :
      V43.Reachable cfg s → A % WORD_SIZE = 0 → V43.accessL1 cfg s A data mode = some r →
      V43.Reachable cfg r.1
  | initCache (s : V43.State) : V43.Reachable cfg s → V43.Reachable cfg (V43.initCache s)
  | resetTime (s : V43.State) :
      V43.Reachable cfg s → V43.Reachable cfg { s with mem := resetTime s.mem }

/-- The cost the final block of `accessL2` of variant 4.3 adds to `time`. -/
def V43.l2Cost (cfg : Config) (mode : Mode) : Nat :=
  match mode with
  | Mode.MODE_READ => cfg.L2_READ_TIME
  | Mode.MODE_WRITE => cfg.L2_WRITE_TIME

/-- Subtraction of `uint32_t` values. -/
def u32sub (a b : Nat) : Nat := u32 (a + 2 ^ 32 - u32 b)

/-- A logged `accessDRAM` call whose address is block-aligned and whose block
`[address, address + BLOCK_SIZE)` lies inside the DRAM array. -/
def blockInside (cfg : Config) (e : Mode × Nat) : Prop :=
  e.2 % BLOCK_SIZE = 0 ∧ e.2 + BLOCK_SIZE ≤ cfg.DRAM_SIZE

/-- The log of the second store is the log of the first followed by calls
that all satisfy `blockInside`. -/
def logExtends (cfg : Config) (m m' : Store) : Prop :=
  ∃ new, m'.dramLog = m.dramLog ++ new ∧ ∀ e, e ∈ new → blockInside cfg e

/-- A call of the driver: `read(address, buffer)` or `write(address, data)`. -/
inductive Op where
  | read (address : Nat)
  | write (address : Nat) (data : Buf)

/-- The address of a call. -/
def Op.address : Op → Nat
  | Op.read a => a
  | Op.write a _ => a

/-- A call on a word-aligned, in-range 32-bit address. -/
def validOp (cfg : Config) (op : Op) : Prop :=
  op.address % WORD_SIZE = 0 ∧ op.address < 2 ^ 32 ∧ op.address + WORD_SIZE ≤ cfg.DRAM_SIZE

/-- The word a read leaves in the first `WORD_SIZE` bytes of the buffer. -/
def wordOf (b : Buf) : List Nat := (List.range WORD_SIZE).map b

/-- A sequence of driver calls on variant 4.1, each read into a zeroed buffer;
the result holds the final globals and the words the reads returned, in
order. -/
def V41.run (cfg : Config) : V41.State → List Op → Option (V41.State × List (List Nat))
  | s, [] => some (s, [])
  | s, Op.read a :: ops =>
    (V41.read cfg s a zeroDRAM).bind fun r =>
      (V41.run cfg r.1 ops).map fun q => (q.1, wordOf r.2 :: q.2)
  | s, Op.write a d :: ops =>
    (V41.write cfg s a d).bind fun r => V41.run cfg r.1 ops

/-- The words the reads of a sequence of calls return on a flat byte memory
without a cache: a write stores its word at the address, a read returns the
word at the address. -/
def flatRun : Buf → List Op → List (List Nat)
  | _, [] => []
  | mem, Op.read a :: ops => wordOf (fun k => mem (a + k)) :: flatRun mem ops
  | mem, Op.write a d :: ops => flatRun (memcpy mem a d 0 WORD_SIZE) ops

/-- The memory a state of variant 4.1 stands for: the byte of a cached block
comes from its line, any other byte from DRAM. -/
def V41.absMem (s : V41.State) : Buf :=
  fun a =>
    if (s.lines (l1Index a)).Valid ≠ 0 ∧ (s.lines (l1Index a)).Tag = l1Tag a then
      (s.lines (l1Index a)).Block (l1Offset a)
    else s.mem.DRAM a

/-- Every valid line of variant 4.1 holds the block of an in-range 32-bit
address, and a clean line agrees with DRAM. -/
def V41.Coherent (cfg : Config) (s : V41.State) : Prop :=
  ∀ i, i < 256 → (s.lines i).Valid ≠ 0 →
    (s.lines i).Tag < 2 ^ 18 ∧
    (s.lines i).Tag * 16384 + i * 64 + WORD_SIZE ≤ cfg.DRAM_SIZE ∧
    ((s.lines i).Dirty = 0 →
      ∀ k, k < 64 → (s.lines i).Block k = s.mem.DRAM ((s.lines i).Tag * 16384 + i * 64 + k))

namespace V41

/-- The state of variant 4.1 is initialised, coherent, and stands for the flat
memory `mem`. -/
def Sim (cfg : Config) (s : State) (mem : Buf) : Prop :=
  s.init ≠ 0 ∧ Coherent cfg s ∧ ∀ a, absMem s a = mem a

end V41

/-! ## Basic facts about buffers, loops and address fields -/

theorem setAt_same {α : Type} (arr : Nat → α) (i : Nat) (v : α) : setAt arr i v i = v := by
  simp [setAt]

theorem setAt_other {α : Type} (arr : Nat → α) (i j : Nat) (v : α) (h : j ≠ i) :
    setAt arr i v j = arr j := by
  simp [setAt, h]

theorem memcpy_inside (dst : Buf) (dOff : Nat) (src : Buf) (sOff n k : Nat) (h : k < n) :
    memcpy dst dOff src sOff n (dOff + k) = src (sOff + k) := by
  simp [memcpy, h]

theorem memcpy_outside (dst : Buf) (dOff : Nat) (src : Buf) (sOff n i : Nat)
    (h : i < dOff ∨ dOff + n ≤ i) : memcpy dst dOff src sOff n i = dst i := by
  have : ¬ (dOff ≤ i ∧ i < dOff + n) := by omega
  simp [memcpy, this]

theorem l1Index_eq (a : Nat) : l1Index a = a / 64 % 256 := by
  have h : (0xFF : Nat) = 2 ^ 8 - 1 := by norm_num
  rw [l1Index, h, Nat.and_pow_two_sub_one_eq_mod, Nat.shiftRight_eq_div_pow]

theorem l1Offset_eq (a : Nat) : l1Offset a = a % 64 := by
  have h : (0x3F : Nat) = 2 ^ 6 - 1 := by norm_num
  rw [l1Offset, h, Nat.and_pow_two_sub_one_eq_mod]

theorem l1Tag_eq (a : Nat) : l1Tag a = a / 16384 := by
  rw [l1Tag, Nat.shiftRight_eq_div_pow]

theorem l1MemAddress_eq (t i : Nat) :
    l1MemAddress t i = (t * 16384 % 4294967296 + i * 64 % 4294967296) % 4294967296 := by
  simp [l1MemAddress, u32, Nat.shiftLeft_eq]

theorem V42.l2Index_eq_v42 (a : Nat) : V42.l2Index a = a / 64 % 512 := by
  have h : (0x1FF : Nat) = 2 ^ 9 - 1 := by norm_num
  rw [V42.l2Index, h, Nat.and_pow_two_sub_one_eq_mod, Nat.shiftRight_eq_div_pow]

theorem V42.l2Tag_eq_v42 (a : Nat) : V42.l2Tag a = a / 32768 := by
  rw [V42.l2Tag, Nat.shiftRight_eq_div_pow]

theorem V42.l2MemAddress_eq_v42 (t i : Nat) :
    V42.l2MemAddress t i = (t * 32768 % 4294967296 + i * 64 % 4294967296) % 4294967296 := by
  simp [V42.l2MemAddress, u32, Nat.shiftLeft_eq]

theorem V43.l2Index_eq_v43 (a : Nat) : V43.l2Index a = a / 64 % 256 := by
  have h : (0xFF : Nat) = 2 ^ 8 - 1 := by norm_num
  rw [V43.l2Index, h, Nat.and_pow_two_sub_one_eq_mod, Nat.shiftRight_eq_div_pow]

theorem V43.l2Tag_eq_v43 (a : Nat) : V43.l2Tag a = a / 16384 := by
  rw [V43.l2Tag, Nat.shiftRight_eq_div_pow]

theorem V43.l2MemAddress_eq_v43 (t i : Nat) :
    V43.l2MemAddress t i = (t * 16384 % 4294967296 + i * 64 % 4294967296) % 4294967296 := by
  simp [V43.l2MemAddress, u32, Nat.shiftLeft_eq]

/-- The write-back address rebuilt from the L1 fields of an address is the base
of its block. -/
theorem l1MemAddress_fields (a : Nat) (h : a < 2 ^ 32) :
    l1MemAddress (l1Tag a) (l1Index a) = a - a % 64 := by
  rw [l1MemAddress_eq, l1Tag_eq, l1Index_eq]
  omega

/-! ## Write followed by read of the same address -/

namespace V41

theorem lazyInit_init_ne_v41 (s : State) : (lazyInit s).init ≠ 0 := by
  unfold lazyInit
  split <;> simp_all

theorem lazyInit_of_init_ne_v41 (s : State) (h : s.init ≠ 0) : lazyInit s = s := by
  simp [lazyInit, h]

theorem fill_of_hit_v41 (cfg : Config) (s : State) (a : Nat)
    (h : isMiss (s.lines (l1Index a)) (l1Tag a) = false) : fill cfg s a = some s := by
  simp [fill, h]

theorem fill_post_v41 (cfg : Config) (s s1 : State) (a : Nat) (h : fill cfg s a = some s1) :
    s1.init = s.init ∧ isMiss (s1.lines (l1Index a)) (l1Tag a) = false := by
  unfold fill at h
  by_cases hm : isMiss (s.lines (l1Index a)) (l1Tag a) = true
  · simp only [hm, if_true, Option.bind_eq_some] at h
    obtain ⟨r1, -, m2, -, h3⟩ := h
    cases h3
    simp [isMiss, setAt]
  · simp only [hm] at h
    cases h
    simpa using hm

/-- After a completed `write`, the line of the address holds the word and a
`read` of the same address is a hit that returns it. -/
theorem write_then_read_v41 (cfg : Config) (s : State) (A : Nat) (V buf : Buf)
    (r : State × Buf) (hw : write cfg s A V = some r) :
    ∃ r2, read cfg r.1 A buf = some r2 ∧ ∀ k, k < WORD_SIZE → r2.2 k = V k := by
  unfold write accessL1 at hw
  rw [Option.map_eq_some'] at hw
  obtain ⟨s1, hf, hr⟩ := hw
  obtain ⟨hi, hm⟩ := fill_post_v41 cfg _ _ _ hf
  have hi1 : s1.init ≠ 0 := hi ▸ lazyInit_init_ne_v41 s
  subst hr
  have hinit : (service cfg s1 A V Mode.MODE_WRITE).1.init ≠ 0 := by simpa [service] using hi1
  have hhit : isMiss ((service cfg s1 A V Mode.MODE_WRITE).1.lines (l1Index A)) (l1Tag A)
      = false := by
    simpa [service, setAt, isMiss] using hm
  have hrd : read cfg (service cfg s1 A V Mode.MODE_WRITE).1 A buf
      = some (service cfg (service cfg s1 A V Mode.MODE_WRITE).1 A buf Mode.MODE_READ) := by
    unfold read accessL1
    rw [lazyInit_of_init_ne_v41 _ hinit, fill_of_hit_v41 _ _ _ hhit]
    rfl
  refine ⟨_, hrd, ?_⟩
  intro k hk
  simp only [service, setAt_same]
  have := memcpy_inside buf 0 (memcpy (s1.lines (l1Index A)).Block (l1Offset A) V 0 WORD_SIZE)
    (l1Offset A) WORD_SIZE k hk
  simp only [Nat.zero_add] at this
  rw [this, memcpy_inside _ _ _ _ _ _ hk, Nat.zero_add]

end V41

namespace V42

theorem lazyInit_init_ne_v42 (s : State) : (lazyInit s).init ≠ 0 := by
  unfold lazyInit
  split <;> simp_all

theorem lazyInit_of_init_ne_v42 (s : State) (h : s.init ≠ 0) : lazyInit s = s := by
  simp [lazyInit, h]

theorem fillL2_frame_v42 (cfg : Config) (s s1 : State) (a : Nat) (h : fillL2 cfg s a = some s1) :
    s1.init = s.init ∧ s1.l1 = s.l1 := by
  unfold fillL2 at h
  by_cases hm : isMiss (s.l2 (l2Index a)) (l2Tag a) = true
  · simp only [hm, if_true, Option.bind_eq_some] at h
    obtain ⟨r1, -, m2, -, h3⟩ := h
    cases h3
    exact ⟨rfl, rfl⟩
  · simp only [hm] at h
    cases h
    exact ⟨rfl, rfl⟩

theorem serviceL2_frame_v42 (cfg : Config) (s : State) (a : Nat) (d : Buf) (m : Mode) :
    (serviceL2 cfg s a d m).1.init = s.init ∧ (serviceL2 cfg s a d m).1.l1 = s.l1 := by
  cases m <;> exact ⟨rfl, rfl⟩

theorem accessL2_frame_v42 (cfg : Config) (s : State) (a : Nat) (d : Buf) (m : Mode)
    (r : State × Buf) (h : accessL2 cfg s a d m = some r) :
    r.1.init = s.init ∧ r.1.l1 = s.l1 := by
  unfold accessL2 at h
  rw [Option.map_eq_some'] at h
  obtain ⟨s1, hf, hr⟩ := h
  subst hr
  obtain ⟨h1, h2⟩ := fillL2_frame_v42 cfg _ _ _ hf
  obtain ⟨h3, h4⟩ := serviceL2_frame_v42 cfg s1 a d m
  exact ⟨h3.trans h1, h4.trans h2⟩

theorem fillL1_of_hit_v42 (cfg : Config) (s : State) (a : Nat)
    (h : isMiss (s.l1 (l1Index a)) (l1Tag a) = false) : fillL1 cfg s a = some s := by
  simp [fillL1, h]

theorem fillL1_post_v42 (cfg : Config) (s s1 : State) (a : Nat) (h : fillL1 cfg s a = some s1) :
    s1.init = s.init ∧ isMiss (s1.l1 (l1Index a)) (l1Tag a) = false := by
  unfold fillL1 at h
  by_cases hm : isMiss (s.l1 (l1Index a)) (l1Tag a) = true
  · simp only [hm, if_true, Option.bind_eq_some] at h
    obtain ⟨r1, h1, s2, h2, h3⟩ := h
    cases h3
    have e1 := (accessL2_frame_v42 cfg _ _ _ _ _ h1).1
    have e2 : s2.init = r1.1.init := by
      split at h2
      · rw [Option.map_eq_some'] at h2
        obtain ⟨r2, h2, rfl⟩ := h2
        exact (accessL2_frame_v42 cfg _ _ _ _ _ h2).1
      · cases h2
        rfl
    exact ⟨e2.trans e1, by simp [isMiss, setAt]⟩
  · simp only [hm] at h
    cases h
    exact ⟨rfl, by simpa using hm⟩

/-- After a completed `write`, a `read` of the same address is an L1 hit that
returns the word. -/
theorem write_then_read_v42 (cfg : Config) (s : State) (A : Nat) (V buf : Buf)
    (r : State × Buf) (hw : write cfg s A V = some r) :
    ∃ r2, read cfg r.1 A buf = some r2 ∧ ∀ k, k < WORD_SIZE → r2.2 k = V k := by
  unfold write accessL1 at hw
  rw [Option.map_eq_some'] at hw
  obtain ⟨s1, hf, hr⟩ := hw
  obtain ⟨hi, hm⟩ := fillL1_post_v42 cfg _ _ _ hf
  have hi1 : s1.init ≠ 0 := hi ▸ lazyInit_init_ne_v42 s
  subst hr
  have hinit : (serviceL1 cfg s1 A V Mode.MODE_WRITE).1.init ≠ 0 := by
    simpa [serviceL1] using hi1
  have hhit : isMiss ((serviceL1 cfg s1 A V Mode.MODE_WRITE).1.l1 (l1Index A)) (l1Tag A)
      = false := by
    simpa [serviceL1, setAt, isMiss] using hm
  have hrd : read cfg (serviceL1 cfg s1 A V Mode.MODE_WRITE).1 A buf
      = some (serviceL1 cfg (serviceL1 cfg s1 A V Mode.MODE_WRITE).1 A buf Mode.MODE_READ) := by
    unfold read accessL1
    rw [lazyInit_of_init_ne_v42 _ hinit, fillL1_of_hit_v42 _ _ _ hhit]
    rfl
  refine ⟨_, hrd, ?_⟩
  intro k hk
  simp only [serviceL1, setAt_same]
  have := memcpy_inside buf 0 (memcpy (s1.l1 (l1Index A)).Block (l1Offset A) V 0 WORD_SIZE)
    (l1Offset A) WORD_SIZE k hk
  simp only [Nat.zero_add] at this
  rw [this, memcpy_inside _ _ _ _ _ _ hk, Nat.zero_add]

end V42

namespace V43

theorem lazyInit_init_ne_v43 (cfg : Config) (s : State) : (lazyInit cfg s).init ≠ 0 := by
  unfold lazyInit
  split <;> simp_all

theorem lazyInit_of_init_ne_v43 (cfg : Config) (s : State) (h : s.init ≠ 0) :
    lazyInit cfg s = s := by
  simp [lazyInit, h]

theorem fillL2_frame_v43 (cfg : Config) (s s1 : State) (a p : Nat)
    (h : fillL2 cfg s a p = some s1) : s1.init = s.init ∧ s1.l1 = s.l1 := by
  unfold fillL2 at h
  by_cases hm : isMiss (s.l2 p) (l2Tag a) = true
  · simp only [hm, if_true, Option.bind_eq_some] at h
    obtain ⟨r1, -, m2, -, h3⟩ := h
    cases h3
    exact ⟨rfl, rfl⟩
  · simp only [hm] at h
    cases h
    exact ⟨rfl, rfl⟩

theorem serviceL2_frame_v43 (cfg : Config) (s : State) (p : Nat) (d : Buf) (m : Mode) :
    (serviceL2 cfg s p d m).1.init = s.init ∧ (serviceL2 cfg s p d m).1.l1 = s.l1 := by
  cases m <;> exact ⟨rfl, rfl⟩

theorem accessL2_frame_v43 (cfg : Config) (s : State) (a : Nat) (d : Buf) (m : Mode)
    (r : State × Buf) (h : accessL2 cfg s a d m = some r) :
    r.1.init = s.init ∧ r.1.l1 = s.l1 := by
  unfold accessL2 at h
  rw [Option.map_eq_some'] at h
  obtain ⟨s1, hf, hr⟩ := h
  subst hr
  obtain ⟨h1, h2⟩ := fillL2_frame_v43 cfg _ _ _ _ hf
  obtain ⟨h3, h4⟩ := serviceL2_frame_v43 cfg s1 (l2Target cfg s a) d m
  exact ⟨h3.trans h1, h4.trans h2⟩

theorem fillL1_of_hit_v43 (cfg : Config) (s : State) (a : Nat)
    (h : isMiss (s.l1 (l1Index a)) (l1Tag a) = false) : fillL1 cfg s a = some s := by
  simp [fillL1, h]

theorem fillL1_post_v43 (cfg : Config) (s s1 : State) (a : Nat) (h : fillL1 cfg s a = some s1) :
    s1.init = s.init ∧ isMiss (s1.l1 (l1Index a)) (l1Tag a) = false := by
  unfold fillL1 at h
  by_cases hm : isMiss (s.l1 (l1Index a)) (l1Tag a) = true
  · simp only [hm, if_true, Option.bind_eq_some] at h
    obtain ⟨r1, h1, s2, h2, h3⟩ := h
    cases h3
    have e1 := (accessL2_frame_v43 cfg _ _ _ _ _ h1).1
    have e2 : s2.init = r1.1.init := by
      split at h2
      · rw [Option.map_eq_some'] at h2
        obtain ⟨r2, h2, rfl⟩ := h2
        exact (accessL2_frame_v43 cfg _ _ _ _ _ h2).1
      · cases h2
        rfl
    exact ⟨e2.trans e1, by simp [isMiss, setAt]⟩
  · simp only [hm] at h
    cases h
    exact ⟨rfl, by simpa using hm⟩

/-- After a completed `write`, a `read` of the same address is an L1 hit that
returns the word. -/
theorem write_then_read_v43 (cfg : Config) (s : State) (A : Nat) (V buf : Buf)
    (r : State × Buf) (hw : write cfg s A V = some r) :
    ∃ r2, read cfg r.1 A buf = some r2 ∧ ∀ k, k < WORD_SIZE → r2.2 k = V k := by
  unfold write accessL1 at hw
  rw [Option.map_eq_some'] at hw
  obtain ⟨s1, hf, hr⟩ := hw
  obtain ⟨hi, hm⟩ := fillL1_post_v43 cfg _ _ _ hf
  have hi1 : s1.init ≠ 0 := hi ▸ lazyInit_init_ne_v43 cfg s
  subst hr
  have hinit : (serviceL1 cfg s1 A V Mode.MODE_WRITE).1.init ≠ 0 := by
    simpa [serviceL1] using hi1
  have hhit : isMiss ((serviceL1 cfg s1 A V Mode.MODE_WRITE).1.l1 (l1Index A)) (l1Tag A)
      = false := by
    simpa [serviceL1, setAt, isMiss] using hm
  have hrd : read cfg (serviceL1 cfg s1 A V Mode.MODE_WRITE).1 A buf
      = some (serviceL1 cfg (serviceL1 cfg s1 A V Mode.MODE_WRITE).1 A buf Mode.MODE_READ) := by
    unfold read accessL1
    rw [lazyInit_of_init_ne_v43 _ _ hinit, fillL1_of_hit_v43 _ _ _ hhit]
    rfl
  refine ⟨_, hrd, ?_⟩
  intro k hk
  simp only [serviceL1, setAt_same]
  have := memcpy_inside buf 0 (memcpy (s1.l1 (l1Index A)).Block (l1Offset A) V 0 WORD_SIZE)
    (l1Offset A) WORD_SIZE k hk
  simp only [Nat.zero_add] at this
  rw [this, memcpy_inside _ _ _ _ _ _ hk, Nat.zero_add]

end V43

/-! ## The backing store -/

theorem accessDRAM_read_eq (cfg : Config) (m : Store) (a : Nat) (d : Buf)
    (h : a < cfg.DRAM_SIZE - WORD_SIZE + 1) :
    accessDRAM cfg m a d Mode.MODE_READ =
      some ({ m with time := u32 (m.time + cfg.DRAM_READ_TIME),
                     dramLog := m.dramLog ++ [(Mode.MODE_READ, a)],
                     dramOverrun := m.dramOverrun || copyOverruns cfg a },
            memcpy d 0 m.DRAM a BLOCK_SIZE) := by
  have : ¬ (a ≥ cfg.DRAM_SIZE - WORD_SIZE + 1) := by omega
  simp [accessDRAM, this]

theorem accessDRAM_write_eq (cfg : Config) (m : Store) (a : Nat) (d : Buf)
    (h : a < cfg.DRAM_SIZE - WORD_SIZE + 1) :
    accessDRAM cfg m a d Mode.MODE_WRITE =
      some ({ m with DRAM := memcpy m.DRAM a d 0 BLOCK_SIZE,
                     time := u32 (m.time + cfg.DRAM_WRITE_TIME),
                     dramLog := m.dramLog ++ [(Mode.MODE_WRITE, a)],
                     dramOverrun := m.dramOverrun || copyOverruns cfg a },
            d) := by
  have : ¬ (a ≥ cfg.DRAM_SIZE - WORD_SIZE + 1) := by omega
  simp [accessDRAM, this]

/-- The base of the block of an in-range address passes the bounds check of
`accessDRAM`. -/
theorem base_in_range (cfg : Config) (A : Nat) (h : A + WORD_SIZE ≤ cfg.DRAM_SIZE) :
    A - l1Offset A < cfg.DRAM_SIZE - WORD_SIZE + 1 := by
  rw [l1Offset_eq]
  simp only [WORD_SIZE] at *
  omega

theorem aligned_offset (A k : Nat) (hA : A % WORD_SIZE = 0) (hk : k < WORD_SIZE) :
    l1Offset A + k < BLOCK_SIZE := by
  rw [l1Offset_eq]
  simp only [WORD_SIZE, BLOCK_SIZE] at *
  omega

namespace V41

theorem isMiss_false_v41 (l : CacheLine) (t : Nat) :
    isMiss l t = false ↔ l.Valid ≠ 0 ∧ l.Tag = t := by
  simp [isMiss]

theorem isMiss_true_v41 (l : CacheLine) (t : Nat) :
    isMiss l t = true ↔ l.Valid = 0 ∨ l.Tag ≠ t := by
  simp [isMiss]

/-- The state after a completed `write`: the cache is initialised and the line
of the address is valid, dirty, carries the tag of the address and holds the
word at its offset. -/
theorem write_post_v41 (cfg : Config) (s : State) (A : Nat) (V : Buf) (r : State × Buf)
    (hw : write cfg s A V = some r) :
    r.1.init ≠ 0 ∧ (r.1.lines (l1Index A)).Valid ≠ 0 ∧ (r.1.lines (l1Index A)).Tag = l1Tag A ∧
    (r.1.lines (l1Index A)).Dirty = 1 ∧
    ∀ k, k < WORD_SIZE → (r.1.lines (l1Index A)).Block (l1Offset A + k) = V k := by
  unfold write accessL1 at hw
  rw [Option.map_eq_some'] at hw
  obtain ⟨s1, hf, hr⟩ := hw
  obtain ⟨hi, hm⟩ := fill_post_v41 cfg _ _ _ hf
  have hi1 : s1.init ≠ 0 := hi ▸ lazyInit_init_ne_v41 s
  rw [isMiss_false_v41] at hm
  subst hr
  refine ⟨by simpa [service] using hi1, by simpa [service, setAt] using hm.1,
    by simpa [service, setAt] using hm.2, by simp [service, setAt], ?_⟩
  intro k hk
  simp only [service, setAt_same]
  rw [memcpy_inside _ _ _ _ _ _ hk, Nat.zero_add]

/-- An access to an address of the same index and another tag, right after a
completed `write`, writes the block of the first address back to DRAM. -/
theorem evict_after_write_v41 (cfg : Config) (s : State) (A A' : Nat) (V data : Buf)
    (mode : Mode) (r1 : State × Buf)
    (hA : A % WORD_SIZE = 0) (h32 : A < 2 ^ 32)
    (hidx : l1Index A' = l1Index A) (htag : l1Tag A' ≠ l1Tag A)
    (hr : A + WORD_SIZE ≤ cfg.DRAM_SIZE) (hr' : A' + WORD_SIZE ≤ cfg.DRAM_SIZE)
    (hw : write cfg s A V = some r1) :
    ∃ r2, accessL1 cfg r1.1 A' data mode = some r2 ∧
      ∀ k, k < WORD_SIZE → r2.1.mem.DRAM ((A - A % BLOCK_SIZE) + l1Offset A + k) = V k := by
  obtain ⟨hi, hv, ht, hd, hb⟩ := write_post_v41 cfg s A V r1 hw
  have hmiss : isMiss (r1.1.lines (l1Index A')) (l1Tag A') = true := by
    rw [isMiss_true_v41, hidx, ht]
    exact Or.inr (Ne.symm htag)
  have hwb : l1MemAddress (r1.1.lines (l1Index A)).Tag (l1Index A) = A - l1Offset A := by
    rw [ht, l1MemAddress_fields A h32, l1Offset_eq]
  have hfill : fill cfg r1.1 A' = some
      { r1.1 with
        mem := { r1.1.mem with
                 DRAM := memcpy r1.1.mem.DRAM (A - l1Offset A) (r1.1.lines (l1Index A)).Block
                   0 BLOCK_SIZE,
                 time := u32 (u32 (r1.1.mem.time + cfg.DRAM_READ_TIME) + cfg.DRAM_WRITE_TIME),
                 dramLog := r1.1.mem.dramLog ++ [(Mode.MODE_READ, A' - l1Offset A')] ++
                   [(Mode.MODE_WRITE, A - l1Offset A)],
                 dramOverrun := (r1.1.mem.dramOverrun || copyOverruns cfg (A' - l1Offset A')) ||
                   copyOverruns cfg (A - l1Offset A) },
        lines := setAt r1.1.lines (l1Index A)
          { Valid := 1, Tag := l1Tag A', Dirty := 0,
            Block := memcpy (r1.1.lines (l1Index A)).Block 0
              (memcpy TempBlock0 0 r1.1.mem.DRAM (A' - l1Offset A') BLOCK_SIZE) 0 BLOCK_SIZE } } := by
    unfold fill
    simp only [hmiss, if_true]
    rw [accessDRAM_read_eq cfg _ _ _ (base_in_range cfg A' hr')]
    simp only [Option.some_bind, hidx, hwb]
    rw [accessDRAM_write_eq cfg _ _ _ (base_in_range cfg A hr)]
    simp [hv, hd]
  refine ⟨_, by unfold accessL1; rw [lazyInit_of_init_ne_v41 _ hi, hfill]; rfl, ?_⟩
  intro k hk
  have hoff := aligned_offset A k hA hk
  have e : A - A % BLOCK_SIZE + l1Offset A + k = (A - l1Offset A) + (l1Offset A + k) := by
    rw [l1Offset_eq]
    simp only [BLOCK_SIZE]
    omega
  have hsv : ∀ (t : State), (service cfg t A' data mode).1.mem.DRAM = t.mem.DRAM := by
    intro t
    cases mode <;> rfl
  simp only [Option.map_some', hsv]
  rw [e, memcpy_inside _ _ _ _ _ _ hoff, Nat.zero_add]
  exact hb k hk

end V41

/-! ## The second level of variant 4.2 -/

theorem base_lt (A : Nat) (h : A < 2 ^ 32) : A - l1Offset A < 2 ^ 32 := by
  omega

theorem base_mod (A : Nat) : (A - l1Offset A) % 64 = 0 := by
  rw [l1Offset_eq]
  omega

namespace V42

theorem isMiss_false_v42 (l : CacheLine) (t : Nat) :
    isMiss l t = false ↔ l.Valid ≠ 0 ∧ l.Tag = t := by
  simp [isMiss]

theorem isMiss_true_v42 (l : CacheLine) (t : Nat) :
    isMiss l t = true ↔ l.Valid = 0 ∨ l.Tag ≠ t := by
  simp [isMiss]

theorem l2MemAddress_fields_v42 (a : Nat) (h : a < 2 ^ 32) :
    l2MemAddress (l2Tag a) (l2Index a) = a - a % 64 := by
  rw [l2MemAddress_eq_v42, l2Tag_eq_v42, l2Index_eq_v42]
  omega

theorem fillL2_of_hit_v42 (cfg : Config) (s : State) (a : Nat)
    (h : isMiss (s.l2 (l2Index a)) (l2Tag a) = false) : fillL2 cfg s a = some s := by
  simp [fillL2, h]

theorem accessL2_of_hit_v42 (cfg : Config) (s : State) (a : Nat) (d : Buf) (m : Mode)
    (h : isMiss (s.l2 (l2Index a)) (l2Tag a) = false) :
    accessL2 cfg s a d m = some (serviceL2 cfg s a d m) := by
  simp [accessL2, fillL2_of_hit_v42 cfg s a h]

/-- What a completed miss branch of `accessL2` leaves behind. -/
theorem fillL2_post_v42 (cfg : Config) (s s1 : State) (a : Nat) (h : fillL2 cfg s a = some s1) :
    isMiss (s1.l2 (l2Index a)) (l2Tag a) = false ∧
    ∀ j, j ≠ l2Index a → s1.l2 j = s.l2 j := by
  unfold fillL2 at h
  by_cases hm : isMiss (s.l2 (l2Index a)) (l2Tag a) = true
  · simp only [hm, if_true, Option.bind_eq_some] at h
    obtain ⟨r1, -, m2, -, h3⟩ := h
    cases h3
    exact ⟨by simp [isMiss, setAt], fun j hj => setAt_other _ _ _ _ hj⟩
  · simp only [hm] at h
    cases h
    exact ⟨by simpa using hm, fun _ _ => rfl⟩

/-- What a completed `accessL2` leaves behind: the line of the address holds
its block, the other L2 lines are untouched, a write stores the data in the
line and marks it dirty, a read returns the block of the line. -/
theorem accessL2_post_v42 (cfg : Config) (s : State) (a : Nat) (d : Buf) (m : Mode)
    (r : State × Buf) (h : accessL2 cfg s a d m = some r) :
    (r.1.l2 (l2Index a)).Valid ≠ 0 ∧ (r.1.l2 (l2Index a)).Tag = l2Tag a ∧
    (∀ j, j ≠ l2Index a → r.1.l2 j = s.l2 j) ∧
    (m = Mode.MODE_WRITE → (r.1.l2 (l2Index a)).Dirty = 1 ∧
      ∀ k, k < BLOCK_SIZE → (r.1.l2 (l2Index a)).Block k = d k) ∧
    (m = Mode.MODE_READ → ∀ k, k < BLOCK_SIZE → r.2 k = (r.1.l2 (l2Index a)).Block k) := by
  unfold accessL2 at h
  rw [Option.map_eq_some'] at h
  obtain ⟨s1, hf, hr⟩ := h
  subst hr
  obtain ⟨hm, hfr⟩ := fillL2_post_v42 cfg _ _ _ hf
  rw [isMiss_false_v42] at hm
  cases m
  · refine ⟨hm.1, hm.2, hfr, ?_, ?_⟩
    · intro h
      cases h
    · intro _ k hk
      have := memcpy_inside d 0 (s1.l2 (l2Index a)).Block 0 BLOCK_SIZE k hk
      simpa [serviceL2] using this
  · refine ⟨by simpa [serviceL2, setAt] using hm.1, by simpa [serviceL2, setAt] using hm.2,
      ?_, ?_, ?_⟩
    · intro j hj
      simp only [serviceL2]
      rw [setAt_other _ _ _ _ hj]
      exact hfr j hj
    · intro _
      refine ⟨by simp [serviceL2, setAt], fun k hk => ?_⟩
      have := memcpy_inside (s1.l2 (l2Index a)).Block 0 d 0 BLOCK_SIZE k hk
      simpa [serviceL2, setAt] using this
    · intro h
      cases h

/-- An `accessL2` completes when its address passes the bounds check and the
address of a dirty victim does too. -/
theorem accessL2_complete_v42 (cfg : Config) (s : State) (a : Nat) (d : Buf) (m : Mode)
    (ha : a < cfg.DRAM_SIZE - WORD_SIZE + 1)
    (hv : isMiss (s.l2 (l2Index a)) (l2Tag a) = true → (s.l2 (l2Index a)).Valid ≠ 0 →
      (s.l2 (l2Index a)).Dirty ≠ 0 →
      l2MemAddress (s.l2 (l2Index a)).Tag (l2Index a) < cfg.DRAM_SIZE - WORD_SIZE + 1) :
    ∃ r, accessL2 cfg s a d m = some r := by
  unfold accessL2 fillL2
  by_cases hm : isMiss (s.l2 (l2Index a)) (l2Tag a) = true
  · simp only [hm, if_true]
    rw [accessDRAM_read_eq cfg _ _ _ ha]
    simp only [Option.some_bind]
    by_cases hd : (s.l2 (l2Index a)).Valid ≠ 0 ∧ (s.l2 (l2Index a)).Dirty ≠ 0
    · rw [if_pos hd, accessDRAM_write_eq cfg _ _ _ (hv hm hd.1 hd.2)]
      exact ⟨_, rfl⟩
    · rw [if_neg hd]
      exact ⟨_, rfl⟩
  · simp only [hm]
    exact ⟨_, rfl⟩

/-- The miss branch of `accessL1` when the victim is valid and dirty. -/
theorem fillL1_miss_dirty_v42 (cfg : Config) (s : State) (a : Nat)
    (hm : isMiss (s.l1 (l1Index a)) (l1Tag a) = true)
    (hv : (s.l1 (l1Index a)).Valid ≠ 0) (hd : (s.l1 (l1Index a)).Dirty ≠ 0) :
    fillL1 cfg s a =
      (accessL2 cfg s (a - l1Offset a) TempBlock0 Mode.MODE_READ).bind fun r1 =>
      (accessL2 cfg r1.1 (l1MemAddress (s.l1 (l1Index a)).Tag (l1Index a))
        (s.l1 (l1Index a)).Block Mode.MODE_WRITE).bind fun r2 =>
      some { r2.1 with
             l1 := setAt s.l1 (l1Index a)
               { Valid := 1, Tag := l1Tag a, Dirty := 0,
                 Block := memcpy (s.l1 (l1Index a)).Block 0 r1.2 0 BLOCK_SIZE } } := by
  unfold fillL1
  simp only [hm, if_true]
  cases h1 : accessL2 cfg s (a - l1Offset a) TempBlock0 Mode.MODE_READ with
  | none => rfl
  | some r1 =>
    have e1 := (accessL2_frame_v42 cfg _ _ _ _ _ h1).2
    simp only [Option.some_bind, e1, hv, hd, ne_eq, not_false_eq_true, and_self, if_true]
    cases h2 : accessL2 cfg r1.1 (l1MemAddress (s.l1 (l1Index a)).Tag (l1Index a))
        (s.l1 (l1Index a)).Block Mode.MODE_WRITE with
    | none => rfl
    | some r2 =>
      have e2 := (accessL2_frame_v42 cfg _ _ _ _ _ h2).2
      simp only [Option.map_some', Option.some_bind, e2, e1]

end V42

namespace V42

theorem write_post_v42 (cfg : Config) (s : State) (A : Nat) (V : Buf) (r : State × Buf)
    (hw : write cfg s A V = some r) :
    r.1.init ≠ 0 ∧ (r.1.l1 (l1Index A)).Valid ≠ 0 ∧ (r.1.l1 (l1Index A)).Tag = l1Tag A ∧
    (r.1.l1 (l1Index A)).Dirty = 1 ∧
    ∀ k, k < WORD_SIZE → (r.1.l1 (l1Index A)).Block (l1Offset A + k) = V k := by
  unfold write accessL1 at hw
  rw [Option.map_eq_some'] at hw
  obtain ⟨s1, hf, hr⟩ := hw
  obtain ⟨hi, hm⟩ := fillL1_post_v42 cfg _ _ _ hf
  have hi1 : s1.init ≠ 0 := hi ▸ lazyInit_init_ne_v42 s
  rw [isMiss_false_v42] at hm
  subst hr
  refine ⟨by simpa [serviceL1] using hi1, by simpa [serviceL1, setAt] using hm.1,
    by simpa [serviceL1, setAt] using hm.2, by simp [serviceL1, setAt], ?_⟩
  intro k hk
  simp only [serviceL1, setAt_same]
  rw [memcpy_inside _ _ _ _ _ _ hk, Nat.zero_add]

/-- The spec's scenario in variant 4.2: a word written at `A` survives a write
to an address of the same L1 index and another tag, and is read back. -/
theorem write_write_read_v42 (cfg : Config) (s : State) (A A' : Nat) (V V' buf : Buf)
    (r1 r2 : State × Buf)
    (hA : A % WORD_SIZE = 0) (h32 : A < 2 ^ 32) (h32' : A' < 2 ^ 32)
    (hidx : l1Index A' = l1Index A) (htag : l1Tag A' ≠ l1Tag A)
    (hr : A + WORD_SIZE ≤ cfg.DRAM_SIZE) (hr' : A' + WORD_SIZE ≤ cfg.DRAM_SIZE)
    (hw1 : write cfg s A V = some r1) (hw2 : write cfg r1.1 A' V' = some r2) :
    ∃ r3, read cfg r2.1 A buf = some r3 ∧ ∀ k, k < WORD_SIZE → r3.2 k = V k := by
  obtain ⟨hi1, hv1, ht1, hd1, hb1⟩ := write_post_v42 cfg s A V r1 hw1
  obtain ⟨hi2, hv2, ht2, hd2, -⟩ := write_post_v42 cfg r1.1 A' V' r2 hw2
  -- the second write: an L1 miss with a dirty victim
  have hm1 : isMiss (r1.1.l1 (l1Index A')) (l1Tag A') = true := by
    rw [isMiss_true_v42, hidx, ht1]
    exact Or.inr (Ne.symm htag)
  have hwbA : l1MemAddress (r1.1.l1 (l1Index A')).Tag (l1Index A') = A - l1Offset A := by
    rw [hidx, ht1, l1MemAddress_fields A h32, l1Offset_eq]
  unfold write accessL1 at hw2
  rw [lazyInit_of_init_ne_v42 _ hi1, Option.map_eq_some'] at hw2
  obtain ⟨t, hf, hr2⟩ := hw2
  rw [fillL1_miss_dirty_v42 cfg r1.1 A' hm1 (hidx ▸ hv1) (by rw [hidx, hd1]; decide),
    hwbA] at hf
  simp only [Option.bind_eq_some] at hf
  obtain ⟨q1, hq1, q2, hq2, ht⟩ := hf
  obtain ⟨p1v, p1t, -, -, -⟩ := accessL2_post_v42 cfg _ _ _ _ _ hq1
  obtain ⟨p2v, p2t, p2o, p2w, -⟩ := accessL2_post_v42 cfg _ _ _ _ _ hq2
  obtain ⟨p2d, p2b⟩ := p2w rfl
  have hl2 : r2.1.l2 = q2.1.l2 := by
    rw [← hr2]
    cases ht
    rfl
  -- the read: an L1 miss with a dirty victim, and an L2 hit
  have hm2 : isMiss (r2.1.l1 (l1Index A)) (l1Tag A) = true := by
    rw [isMiss_true_v42, ← hidx, ht2]
    exact Or.inr htag
  have hwbA' : l1MemAddress (r2.1.l1 (l1Index A)).Tag (l1Index A) = A' - l1Offset A' := by
    rw [← hidx, ht2, l1MemAddress_fields A' h32', l1Offset_eq]
  have hhit : isMiss (r2.1.l2 (l2Index (A - l1Offset A))) (l2Tag (A - l1Offset A)) = false := by
    rw [isMiss_false_v42, hl2]
    exact ⟨p2v, p2t⟩
  have hu1 := accessL2_of_hit_v42 cfg r2.1 (A - l1Offset A) TempBlock0 Mode.MODE_READ hhit
  have hu1l2 : (serviceL2 cfg r2.1 (A - l1Offset A) TempBlock0 Mode.MODE_READ).1.l2 = q2.1.l2 :=
    hl2
  obtain ⟨u2, hu2⟩ := accessL2_complete_v42 cfg
    (serviceL2 cfg r2.1 (A - l1Offset A) TempBlock0 Mode.MODE_READ).1 (A' - l1Offset A')
    (r2.1.l1 (l1Index A)).Block Mode.MODE_WRITE (base_in_range cfg A' hr') (by
      rw [hu1l2]
      intro hmiss _ _
      by_cases hj : l2Index (A' - l1Offset A') = l2Index (A - l1Offset A)
      · rw [hj, p2t, l2MemAddress_fields_v42 _ (base_lt A h32), base_mod A]
        exact base_in_range cfg A hr
      · rw [p2o _ hj, isMiss_true_v42] at hmiss
        rcases hmiss with h | h
        · exact absurd h p1v
        · exact absurd p1t h)
  refine ⟨_, by
    unfold read accessL1
    rw [lazyInit_of_init_ne_v42 _ hi2,
      fillL1_miss_dirty_v42 cfg r2.1 A hm2 (hidx ▸ hv2) (by rw [← hidx, hd2]; decide),
      hwbA', hu1, Option.some_bind, hu2]
    rfl, ?_⟩
  intro k hk
  have hoff := aligned_offset A k hA hk
  simp only [Option.some_bind, Option.map_some', serviceL1, setAt_same]
  have e1 := memcpy_inside buf 0
    (memcpy (r2.1.l1 (l1Index A)).Block 0
      (serviceL2 cfg r2.1 (A - l1Offset A) TempBlock0 Mode.MODE_READ).2 0 BLOCK_SIZE)
    (l1Offset A) WORD_SIZE k hk
  simp only [Nat.zero_add] at e1
  rw [e1]
  have e2 := memcpy_inside (r2.1.l1 (l1Index A)).Block 0
    (serviceL2 cfg r2.1 (A - l1Offset A) TempBlock0 Mode.MODE_READ).2 0 BLOCK_SIZE
    (l1Offset A + k) hoff
  simp only [Nat.zero_add] at e2
  rw [e2]
  have e3 := memcpy_inside TempBlock0 0 (r2.1.l2 (l2Index (A - l1Offset A))).Block 0 BLOCK_SIZE
    (l1Offset A + k) hoff
  simp only [Nat.zero_add] at e3
  simp only [serviceL2]
  rw [e3, hl2, p2b _ hoff, hidx]
  exact hb1 k hk

end V42

/-! ## The selection loop of variant 4.3 -/

namespace V43

/-- The selection loop when line 0 carries the requested tag: the loop leaves
at once with line 0. -/
theorem selectLine_tag0 (cfg : Config) (set : Nat → CacheLine) (tag : Nat)
    (h0 : (set 0).Tag = tag) : selectLine cfg set tag = 0 := by
  unfold selectLine
  cases cfg.NUMSETS with
  | zero => rfl
  | succ n => simp [scanSet, h0]

/-- The selection loop when line 0 carries another tag: either no line seen
has a stamp as low as `lowestSetTime` and `Line` is unchanged, or the result is
the last of the lines seen whose stamp is lowest. -/
theorem scanSet_spec (set : Nat → CacheLine) (tag : Nat) (h0 : (set 0).Tag ≠ tag) :
    ∀ (n i w lo : Nat),
      (scanSet set tag n i w lo = w ∧ ∀ j, i ≤ j → j < i + n → lo < (set j).Time) ∨
      (i ≤ scanSet set tag n i w lo ∧ scanSet set tag n i w lo < i + n ∧
        (set (scanSet set tag n i w lo)).Time ≤ lo ∧
        (∀ j, i ≤ j → j < i + n → (set (scanSet set tag n i w lo)).Time ≤ (set j).Time) ∧
        (∀ j, scanSet set tag n i w lo < j → j < i + n →
          (set (scanSet set tag n i w lo)).Time < (set j).Time)) := by
  intro n
  induction n with
  | zero =>
    intro i w lo
    left
    exact ⟨rfl, fun j h1 h2 => by omega⟩
  | succ n ih =>
    intro i w lo
    rw [scanSet, if_neg h0]
    by_cases hc : (set i).Time ≤ lo
    · rw [if_pos hc]
      rcases ih (i + 1) i (set i).Time with ⟨e, hall⟩ | ⟨h1, h2, h3, h4, h5⟩
      · right
        rw [e]
        refine ⟨le_refl _, by omega, hc, fun j hj1 hj2 => ?_, fun j hj1 hj2 => ?_⟩
        · rcases Nat.eq_or_lt_of_le hj1 with e' | hlt
          · rw [← e']
          · exact Nat.le_of_lt (hall j hlt (by omega))
        · exact hall j hj1 (by omega)
      · right
        refine ⟨by omega, by omega, le_trans h3 hc, fun j hj1 hj2 => ?_, fun j hj1 hj2 => ?_⟩
        · rcases Nat.eq_or_lt_of_le hj1 with e' | hlt
          · rw [← e']
            exact h3
          · exact h4 j hlt (by omega)
        · exact h5 j hj1 (by omega)
    · rw [if_neg hc]
      rcases ih (i + 1) w lo with ⟨e, hall⟩ | ⟨h1, h2, h3, h4, h5⟩
      · left
        refine ⟨e, fun j hj1 hj2 => ?_⟩
        rcases Nat.eq_or_lt_of_le hj1 with e' | hlt
        · rw [← e']
          omega
        · exact hall j hlt (by omega)
      · right
        refine ⟨by omega, by omega, h3, fun j hj1 hj2 => ?_, fun j hj1 hj2 => ?_⟩
        · rcases Nat.eq_or_lt_of_le hj1 with e' | hlt
          · rw [← e']
            omega
          · exact h4 j hlt (by omega)
        · exact h5 j hj1 (by omega)

/-- The line selected when line 0 carries another tag: the last of the lines of
the set whose stamp is lowest. -/
theorem selectLine_spec (cfg : Config) (set : Nat → CacheLine) (tag : Nat)
    (hn : 0 < cfg.NUMSETS) (h0 : (set 0).Tag ≠ tag) :
    selectLine cfg set tag < cfg.NUMSETS ∧
    (∀ j, j < cfg.NUMSETS → (set (selectLine cfg set tag)).Time ≤ (set j).Time) ∧
    (∀ j, j < cfg.NUMSETS → (set j).Time = (set (selectLine cfg set tag)).Time →
      j ≤ selectLine cfg set tag) := by
  unfold selectLine
  rcases scanSet_spec set tag h0 cfg.NUMSETS 0 0 (set 0).Time with ⟨-, hall⟩ | ⟨-, h2, -, h4, h5⟩
  · exact absurd (hall 0 (le_refl _) (by omega)) (lt_irrefl _)
  · refine ⟨by omega, fun j hj => h4 j (Nat.zero_le _) (by omega), fun j hj he => ?_⟩
    by_contra hlt
    have := h5 j (by omega) (by omega)
    omega

theorem selectLine_lt (cfg : Config) (set : Nat → CacheLine) (tag : Nat)
    (hn : 0 < cfg.NUMSETS) : selectLine cfg set tag < cfg.NUMSETS := by
  by_cases h0 : (set 0).Tag = tag
  · rw [selectLine_tag0 cfg set tag h0]
    exact hn
  · exact (selectLine_spec cfg set tag hn h0).1

end V43

/-! ## Start-up loops and the first access -/

theorem forLoop_succ {σ : Type} (n : Nat) (body : Nat → σ → σ) (s : σ) :
    forLoop (n + 1) body s = body n (forLoop n body s) := by
  simp [forLoop, List.range_succ, List.foldl_append]

/-- A loop that rewrites element `i` of an array at iteration `i`. -/
theorem forLoop_setAt {α : Type} (f : α → α) (n : Nat) (ls : Nat → α) (j : Nat) :
    forLoop n (fun i l => setAt l i (f (l i))) ls j = if j < n then f (ls j) else ls j := by
  induction n generalizing j with
  | zero => simp [forLoop]
  | succ n ih =>
    rw [forLoop_succ]
    by_cases hj : j = n
    · subst hj
      have hprev : forLoop j (fun i l => setAt l i (f (l i))) ls j = ls j := by
        rw [ih j]
        simp
      simp [setAt, hprev]
    · rw [setAt_other _ _ _ _ hj, ih j]
      by_cases hlt : j < n
      · simp [hlt, Nat.lt_succ_of_lt hlt]
      · have : ¬ j < n + 1 := by omega
        simp [hlt, this]

/-- A loop keeps what every iteration keeps. -/
theorem forLoop_invariant {σ : Type} (R : σ → Prop) (body : Nat → σ → σ)
    (hR : ∀ i s, R s → R (body i s)) (n : Nat) (s : σ) (h : R s) : R (forLoop n body s) := by
  induction n with
  | zero => simpa [forLoop] using h
  | succ n ih =>
    rw [forLoop_succ]
    exact hR n _ ih

/-- A loop establishes what one of its iterations establishes and the others
keep. -/
theorem forLoop_establish {σ : Type} (R P : σ → Prop) (body : Nat → σ → σ)
    (hR : ∀ i s, R s → R (body i s)) (hP : ∀ i s, R s → P s → P (body i s))
    (i0 : Nat) (hE : ∀ s, R s → P (body i0 s)) (n : Nat) (hi : i0 < n) (s : σ) (h : R s) :
    P (forLoop n body s) := by
  induction n with
  | zero => omega
  | succ n ih =>
    rw [forLoop_succ]
    have hRn := forLoop_invariant R body hR n s h
    by_cases he : i0 = n
    · subst he
      exact hE _ hRn
    · exact hP n _ hRn (ih (by omega))

theorem l1Index_lt (a : Nat) : l1Index a < L1_SIZE / BLOCK_SIZE := by
  rw [l1Index_eq]
  simp only [L1_SIZE, BLOCK_SIZE]
  omega

theorem base_eq (A : Nat) : A - l1Offset A = A - A % BLOCK_SIZE := by
  rw [l1Offset_eq]
  rfl

namespace V41

theorem service_mem_v41 (cfg : Config) (t : State) (a : Nat) (d : Buf) (m : Mode) :
    (service cfg t a d m).1.mem.dramLog = t.mem.dramLog ∧
    (service cfg t a d m).1.mem.DRAM = t.mem.DRAM := by
  cases m <;> exact ⟨rfl, rfl⟩

/-- The cache right after lazy initialisation following `initCache`. -/
theorem lazyInit_initCache_v41 (s : State) :
    (lazyInit (initCache s)).mem = s.mem ∧ (lazyInit (initCache s)).init = 1 ∧
    ∀ i, (lazyInit (initCache s)).lines i =
      if i < L1_SIZE / BLOCK_SIZE then clearLine (s.lines i) else s.lines i := by
  refine ⟨rfl, rfl, fun i => ?_⟩
  simp only [lazyInit, initCache, if_true]
  exact forLoop_setAt clearLine _ s.lines i

/-- The first access after `initCache` misses in L1 and reads the block from
DRAM. -/
theorem first_access_v41 (cfg : Config) (s : State) (A : Nat) (data : Buf) (mode : Mode)
    (hr : A + WORD_SIZE ≤ cfg.DRAM_SIZE) :
    ∃ r, accessL1 cfg (initCache s) A data mode = some r ∧
      isMiss ((lazyInit (initCache s)).lines (l1Index A)) (l1Tag A) = true ∧
      r.1.mem.dramLog = s.mem.dramLog ++ [(Mode.MODE_READ, A - A % BLOCK_SIZE)] := by
  obtain ⟨hmem, -, hlines⟩ := lazyInit_initCache_v41 s
  have hline : (lazyInit (initCache s)).lines (l1Index A) = clearLine (s.lines (l1Index A)) := by
    rw [hlines, if_pos (l1Index_lt A)]
  have hv : ((lazyInit (initCache s)).lines (l1Index A)).Valid = 0 := by
    rw [hline]
    rfl
  have hmiss : isMiss ((lazyInit (initCache s)).lines (l1Index A)) (l1Tag A) = true := by
    simp [isMiss, hv]
  have hfill : ∃ t, fill cfg (lazyInit (initCache s)) A = some t ∧
      t.mem.dramLog = s.mem.dramLog ++ [(Mode.MODE_READ, A - l1Offset A)] := by
    unfold fill
    simp only [hmiss, if_true]
    rw [accessDRAM_read_eq cfg _ _ _ (base_in_range cfg A hr)]
    simp only [Option.some_bind, hv, ne_eq, not_true_eq_false, false_and, if_false, hmem]
    exact ⟨_, rfl, rfl⟩
  obtain ⟨t, ht, hlog⟩ := hfill
  refine ⟨_, by unfold accessL1; rw [ht]; rfl, hmiss, ?_⟩
  rw [(service_mem_v41 cfg t A data mode).1, hlog, base_eq]

end V41

namespace V42

theorem serviceL1_mem_v42 (cfg : Config) (t : State) (a : Nat) (d : Buf) (m : Mode) :
    (serviceL1 cfg t a d m).1.mem.dramLog = t.mem.dramLog ∧
    (serviceL1 cfg t a d m).1.mem.DRAM = t.mem.DRAM := by
  cases m <;> exact ⟨rfl, rfl⟩

theorem serviceL2_mem_v42 (cfg : Config) (t : State) (a : Nat) (d : Buf) (m : Mode) :
    (serviceL2 cfg t a d m).1.mem.dramLog = t.mem.dramLog ∧
    (serviceL2 cfg t a d m).1.mem.DRAM = t.mem.DRAM := by
  cases m <;> exact ⟨rfl, rfl⟩

theorem l2Index_lt_v42 (a : Nat) : l2Index a < L2_SIZE / BLOCK_SIZE := by
  rw [l2Index_eq_v42]
  simp only [L2_SIZE, BLOCK_SIZE]
  omega

/-- The cache right after lazy initialisation following `initCache`. -/
theorem lazyInit_initCache_v42 (s : State) :
    (lazyInit (initCache s)).mem = s.mem ∧ (lazyInit (initCache s)).init = 1 ∧
    (∀ i, (lazyInit (initCache s)).l1 i =
      if i < L1_SIZE / BLOCK_SIZE then clearLine (s.l1 i) else s.l1 i) ∧
    ∀ i, (lazyInit (initCache s)).l2 i =
      if i < L2_SIZE / BLOCK_SIZE then clearLine (s.l2 i) else s.l2 i := by
  refine ⟨rfl, rfl, fun i => ?_, fun i => ?_⟩
  · simp only [lazyInit, initCache, if_true]
    exact forLoop_setAt clearLine _ s.l1 i
  · simp only [lazyInit, initCache, if_true]
    exact forLoop_setAt clearLine _ s.l2 i

/-- The first access after `initCache` misses in L1 and in L2 and reads the
block from DRAM. -/
theorem first_access_v42 (cfg : Config) (s : State) (A : Nat) (data : Buf) (mode : Mode)
    (hr : A + WORD_SIZE ≤ cfg.DRAM_SIZE) :
    ∃ r, accessL1 cfg (initCache s) A data mode = some r ∧
      isMiss ((lazyInit (initCache s)).l1 (l1Index A)) (l1Tag A) = true ∧
      isMiss ((lazyInit (initCache s)).l2 (l2Index (A - l1Offset A))) (l2Tag (A - l1Offset A))
        = true ∧
      r.1.mem.dramLog = s.mem.dramLog ++ [(Mode.MODE_READ, A - A % BLOCK_SIZE)] := by
  obtain ⟨hmem, -, hl1, hl2⟩ := lazyInit_initCache_v42 s
  have hv1 : ((lazyInit (initCache s)).l1 (l1Index A)).Valid = 0 := by
    rw [hl1, if_pos (l1Index_lt A)]
    rfl
  have hv2 : ((lazyInit (initCache s)).l2 (l2Index (A - l1Offset A))).Valid = 0 := by
    rw [hl2, if_pos (l2Index_lt_v42 _)]
    rfl
  have hm1 : isMiss ((lazyInit (initCache s)).l1 (l1Index A)) (l1Tag A) = true := by
    simp [isMiss, hv1]
  have hm2 : isMiss ((lazyInit (initCache s)).l2 (l2Index (A - l1Offset A)))
      (l2Tag (A - l1Offset A)) = true := by
    simp [isMiss, hv2]
  have hL2 : ∃ q, accessL2 cfg (lazyInit (initCache s)) (A - l1Offset A) TempBlock0
      Mode.MODE_READ = some q ∧
      q.1.mem.dramLog = s.mem.dramLog ++ [(Mode.MODE_READ, A - l1Offset A)] := by
    unfold accessL2 fillL2
    simp only [hm2, if_true]
    rw [accessDRAM_read_eq cfg _ _ _ (base_in_range cfg A hr)]
    simp only [Option.some_bind, hv2, ne_eq, not_true_eq_false, false_and, if_false, hmem]
    exact ⟨_, rfl, rfl⟩
  obtain ⟨q, hq, hlog⟩ := hL2
  have hq1 : (q.1.l1 (l1Index A)).Valid = 0 := by
    rw [(accessL2_frame_v42 cfg _ _ _ _ _ hq).2]
    exact hv1
  have hfill : ∃ t, fillL1 cfg (lazyInit (initCache s)) A = some t ∧
      t.mem.dramLog = q.1.mem.dramLog := by
    unfold fillL1
    simp only [hm1, if_true, hq, Option.some_bind, hq1, ne_eq, not_true_eq_false, false_and,
      if_false]
    exact ⟨_, rfl, rfl⟩
  obtain ⟨t, ht, htlog⟩ := hfill
  refine ⟨_, by unfold accessL1; rw [ht]; rfl, hm1, hm2, ?_⟩
  rw [(serviceL1_mem_v42 cfg t A data mode).1, htlog, hlog, base_eq]

end V42

namespace V43

theorem serviceL1_mem_v43 (cfg : Config) (t : State) (a : Nat) (d : Buf) (m : Mode) :
    (serviceL1 cfg t a d m).1.mem.dramLog = t.mem.dramLog ∧
    (serviceL1 cfg t a d m).1.mem.DRAM = t.mem.DRAM := by
  cases m <;> exact ⟨rfl, rfl⟩

theorem serviceL2_mem_v43 (cfg : Config) (t : State) (p : Nat) (d : Buf) (m : Mode) :
    (serviceL2 cfg t p d m).1.mem.dramLog = t.mem.dramLog ∧
    (serviceL2 cfg t p d m).1.mem.DRAM = t.mem.DRAM := by
  cases m <;> exact ⟨rfl, rfl⟩

theorem clearLine_idem_v43 (l : CacheLine) : clearLine (clearLine l) = clearLine l := by
  have : memset (memset l.Block 0 0 BLOCK_SIZE) 0 0 BLOCK_SIZE = memset l.Block 0 0 BLOCK_SIZE := by
    funext i
    simp only [memset]
    split <;> rfl
  simp only [clearLine, this]

theorem L2_lines_v43 (cfg : Config) : L2_SIZE cfg / BLOCK_SIZE = 256 * cfg.NUMSETS := by
  simp [L2_SIZE, BLOCK_SIZE]

/-- The lines of a set lie inside `cache.l2`. -/
theorem l2Slot_lt_v43 (cfg : Config) (a b : Nat) (ha : a < 256) (hb : b < cfg.NUMSETS) :
    l2Slot cfg a b < L2_SIZE cfg / BLOCK_SIZE := by
  rw [L2_lines_v43, l2Slot]
  have h1 : (a + 1) * cfg.NUMSETS ≤ 256 * cfg.NUMSETS := Nat.mul_le_mul_right _ (by omega)
  have h2 : (a + 1) * cfg.NUMSETS = a * cfg.NUMSETS + cfg.NUMSETS := by ring
  omega

theorem l2Index_lt_v43 (a : Nat) : l2Index a < 256 := by
  rw [l2Index_eq_v43]
  omega

/-- The second loop nest of the start-up block clears every line of
`cache.l2`. -/
theorem initL2_v43 (cfg : Config) (l2 : Nat → CacheLine) (hn : 0 < cfg.NUMSETS) (k : Nat)
    (hk : k < L2_SIZE cfg / BLOCK_SIZE) :
    forLoop (L2_SIZE cfg / BLOCK_SIZE)
      (fun i ls => forLoop cfg.NUMSETS
        (fun j ls => setAt ls (l2Slot cfg j i) (clearLine (ls (l2Slot cfg j i)))) ls) l2 k
      = clearLine (l2 k) := by
  have tR : ∀ (p : Nat) (ls : Nat → CacheLine),
      (∀ q, ls q = l2 q ∨ ls q = clearLine (l2 q)) →
      ∀ q, setAt ls p (clearLine (ls p)) q = l2 q ∨
        setAt ls p (clearLine (ls p)) q = clearLine (l2 q) := by
    intro p ls h q
    by_cases hq : q = p
    · subst hq
      rw [setAt_same]
      rcases h q with e | e
      · exact Or.inr (by rw [e])
      · exact Or.inr (by rw [e, clearLine_idem_v43])
    · rw [setAt_other _ _ _ _ hq]
      exact h q
  have tP : ∀ (p : Nat) (ls : Nat → CacheLine),
      (∀ q, ls q = l2 q ∨ ls q = clearLine (l2 q)) → ls k = clearLine (l2 k) →
      setAt ls p (clearLine (ls p)) k = clearLine (l2 k) := by
    intro p ls _ h
    by_cases hq : k = p
    · subst hq
      rw [setAt_same, h, clearLine_idem_v43]
    · rw [setAt_other _ _ _ _ hq]
      exact h
  have tE : ∀ (ls : Nat → CacheLine),
      (∀ q, ls q = l2 q ∨ ls q = clearLine (l2 q)) →
      setAt ls k (clearLine (ls k)) k = clearLine (l2 k) := by
    intro ls h
    rw [setAt_same]
    rcases h k with e | e
    · rw [e]
    · rw [e, clearLine_idem_v43]
  have inR : ∀ (i : Nat) (ls : Nat → CacheLine),
      (∀ q, ls q = l2 q ∨ ls q = clearLine (l2 q)) →
      ∀ q, forLoop cfg.NUMSETS
        (fun j ls => setAt ls (l2Slot cfg j i) (clearLine (ls (l2Slot cfg j i)))) ls q = l2 q ∨
        forLoop cfg.NUMSETS
        (fun j ls => setAt ls (l2Slot cfg j i) (clearLine (ls (l2Slot cfg j i)))) ls q
          = clearLine (l2 q) := by
    intro i ls h
    exact forLoop_invariant (fun ls => ∀ q, ls q = l2 q ∨ ls q = clearLine (l2 q)) _
      (fun j ls h => tR _ ls h) _ ls h
  refine forLoop_establish (fun ls => ∀ q, ls q = l2 q ∨ ls q = clearLine (l2 q))
    (fun ls => ls k = clearLine (l2 k)) _ inR ?_ k ?_ _ hk l2 (fun q => Or.inl rfl)
  · intro i ls hR hP
    exact (forLoop_invariant
      (fun ls => (∀ q, ls q = l2 q ∨ ls q = clearLine (l2 q)) ∧ ls k = clearLine (l2 k)) _
      (fun j ls h => ⟨tR _ ls h.1, tP _ ls h.1 h.2⟩) _ ls ⟨hR, hP⟩).2
  · intro ls hR
    refine forLoop_establish (fun ls => ∀ q, ls q = l2 q ∨ ls q = clearLine (l2 q))
      (fun ls => ls k = clearLine (l2 k)) _ (fun j ls h => tR _ ls h)
      (fun j ls h hp => tP _ ls h hp) 0 ?_ _ hn ls hR
    intro ls hR
    have e : l2Slot cfg 0 k = k := by simp [l2Slot]
    simp only [e]
    exact tE ls hR

/-- The line `accessL2` works on lies inside `cache.l2`. -/
theorem l2Target_lt_v43 (cfg : Config) (s : State) (a : Nat) (hn : 0 < cfg.NUMSETS) :
    l2Target cfg s a < L2_SIZE cfg / BLOCK_SIZE :=
  l2Slot_lt_v43 cfg _ _ (l2Index_lt_v43 a) (selectLine_lt cfg _ _ hn)

end V43

/-! ## The time accumulator of variant 4.1 -/

theorem accessDRAM_in_range (cfg : Config) (m : Store) (a : Nat) (d : Buf) (mode : Mode)
    (r : Store × Buf) (h : accessDRAM cfg m a d mode = some r) :
    a < cfg.DRAM_SIZE - WORD_SIZE + 1 := by
  by_contra hlt
  have : a ≥ cfg.DRAM_SIZE - WORD_SIZE + 1 := by omega
  simp [accessDRAM, this] at h

theorem u32_add_u32 (a b : Nat) : u32 (u32 a + b) = u32 (a + b) := by
  simp only [u32]
  omega

namespace V41

theorem service_time_v41 (cfg : Config) (t : State) (a : Nat) (d : Buf) (m : Mode) :
    (service cfg t a d m).1.mem.time = u32 (t.mem.time + l1Cost cfg m) := by
  cases m <;> rfl

theorem lazyInit_mem_v41 (s : State) : (lazyInit s).mem = s.mem := by
  unfold lazyInit
  split <;> rfl

/-- The accumulator after a completed `accessL1`, modulo 2^32. -/
theorem accessL1_time_v41 (cfg : Config) (s : State) (A : Nat) (data : Buf) (mode : Mode)
    (r : State × Buf) (h : accessL1 cfg s A data mode = some r) :
    r.1.mem.time = u32 (s.mem.time + callCost cfg s A mode) := by
  unfold accessL1 at h
  rw [Option.map_eq_some'] at h
  obtain ⟨t, hf, hr⟩ := h
  subst hr
  rw [service_time_v41]
  unfold callCost
  unfold fill at hf
  by_cases hm : isMiss ((lazyInit s).lines (l1Index A)) (l1Tag A) = true
  · simp only [hm, if_true, Option.bind_eq_some] at hf ⊢
    obtain ⟨r1, h1, m2, h2, h3⟩ := hf
    have hr1 := accessDRAM_in_range cfg _ _ _ _ _ h1
    rw [accessDRAM_read_eq cfg _ _ _ hr1] at h1
    cases h1
    cases h3
    by_cases hd : ((lazyInit s).lines (l1Index A)).Valid ≠ 0 ∧
        ((lazyInit s).lines (l1Index A)).Dirty ≠ 0
    · rw [if_pos hd, Option.map_eq_some'] at h2
      obtain ⟨r2, h2, rfl⟩ := h2
      have hr2 := accessDRAM_in_range cfg _ _ _ _ _ h2
      rw [accessDRAM_write_eq cfg _ _ _ hr2] at h2
      cases h2
      rw [if_pos hd]
      simp only [lazyInit_mem_v41, u32]
      omega
    · rw [if_neg hd] at h2
      cases h2
      rw [if_neg hd]
      simp only [lazyInit_mem_v41, u32]
      omega
  · simp only [hm, Bool.false_eq_true, if_false, Option.some.injEq] at hf ⊢
    subst hf
    simp only [lazyInit_mem_v41, Nat.zero_add]

end V41

/-! ## Further facts: bounds check, line state, invariants, transparency -/

theorem accessDRAM_none_iff (cfg : Config) (m : Store) (a : Nat) (d : Buf) (mode : Mode) :
    accessDRAM cfg m a d mode = none ↔ a ≥ cfg.DRAM_SIZE - WORD_SIZE + 1 := by
  unfold accessDRAM
  by_cases h : a ≥ cfg.DRAM_SIZE - WORD_SIZE + 1
  · simp [h]
  · cases mode <;> simp [h]

namespace V41

/-- The line of the address after the miss branch: refilled clean on a miss,
untouched on a hit. -/
theorem fill_line_v41 (cfg : Config) (s t : State) (a : Nat) (h : fill cfg s a = some t) :
    (isMiss (s.lines (l1Index a)) (l1Tag a) = true →
      (t.lines (l1Index a)).Valid = 1 ∧ (t.lines (l1Index a)).Tag = l1Tag a ∧
      (t.lines (l1Index a)).Dirty = 0) ∧
    (isMiss (s.lines (l1Index a)) (l1Tag a) = false → t = s) := by
  unfold fill at h
  by_cases hm : isMiss (s.lines (l1Index a)) (l1Tag a) = true
  · simp only [hm, if_true, Option.bind_eq_some] at h
    obtain ⟨r1, -, m2, -, h3⟩ := h
    cases h3
    refine ⟨fun _ => by simp [setAt], fun hf => ?_⟩
    rw [hm] at hf
    cases hf
  · simp only [hm] at h
    cases h
    exact ⟨fun h' => absurd h' hm, fun _ => rfl⟩

/-- A hit on the lazily initialised cache means the cache was initialised. -/
theorem hit_init_v41 (s : State) (a : Nat)
    (h : isMiss ((lazyInit s).lines (l1Index a)) (l1Tag a) = false) : s.init ≠ 0 := by
  intro h0
  have hl : (lazyInit s).lines (l1Index a) = clearLine (s.lines (l1Index a)) := by
    simp only [lazyInit, h0, if_true]
    rw [forLoop_setAt clearLine _ s.lines, if_pos (l1Index_lt a)]
  rw [hl] at h
  simp [isMiss, clearLine] at h

/-- The L1 line of the address after a completed `accessL1`. -/
theorem accessL1_line_v41 (cfg : Config) (s : State) (A : Nat) (data : Buf) (mode : Mode)
    (r : State × Buf) (h : accessL1 cfg s A data mode = some r) :
    (r.1.lines (l1Index A)).Valid ≠ 0 ∧ (r.1.lines (l1Index A)).Tag = l1Tag A ∧
    (mode = Mode.MODE_WRITE → (r.1.lines (l1Index A)).Dirty = 1) ∧
    (mode = Mode.MODE_READ → isMiss ((lazyInit s).lines (l1Index A)) (l1Tag A) = true →
      (r.1.lines (l1Index A)).Dirty = 0) ∧
    (mode = Mode.MODE_READ → isMiss ((lazyInit s).lines (l1Index A)) (l1Tag A) = false →
      (r.1.lines (l1Index A)).Dirty = (s.lines (l1Index A)).Dirty) := by
  unfold accessL1 at h
  rw [Option.map_eq_some'] at h
  obtain ⟨t, hf, hr⟩ := h
  obtain ⟨-, hm⟩ := fill_post_v41 cfg _ _ _ hf
  rw [isMiss_false_v41] at hm
  obtain ⟨hmiss, hhit⟩ := fill_line_v41 cfg _ _ _ hf
  subst hr
  cases mode
  · refine ⟨hm.1, hm.2, fun h => Mode.noConfusion h, fun _ hms => (hmiss hms).2.2, fun _ hh => ?_⟩
    have e : t = lazyInit s := hhit hh
    have e2 : lazyInit s = s := lazyInit_of_init_ne_v41 s (hit_init_v41 s A hh)
    show (t.lines (l1Index A)).Dirty = _
    rw [e, e2]
  · refine ⟨by simpa [service, setAt] using hm.1, by simpa [service, setAt] using hm.2,
      fun _ => by simp [service, setAt], fun h => Mode.noConfusion h, fun h => Mode.noConfusion h⟩

end V41

namespace V42

theorem fillL1_line_v42 (cfg : Config) (s t : State) (a : Nat) (h : fillL1 cfg s a = some t) :
    (isMiss (s.l1 (l1Index a)) (l1Tag a) = true →
      (t.l1 (l1Index a)).Valid = 1 ∧ (t.l1 (l1Index a)).Tag = l1Tag a ∧
      (t.l1 (l1Index a)).Dirty = 0) ∧
    (isMiss (s.l1 (l1Index a)) (l1Tag a) = false → t = s) := by
  unfold fillL1 at h
  by_cases hm : isMiss (s.l1 (l1Index a)) (l1Tag a) = true
  · simp only [hm, if_true, Option.bind_eq_some] at h
    obtain ⟨r1, -, m2, -, h3⟩ := h
    cases h3
    refine ⟨fun _ => by simp [setAt], fun hf => ?_⟩
    rw [hm] at hf
    cases hf
  · simp only [hm] at h
    cases h
    exact ⟨fun h' => absurd h' hm, fun _ => rfl⟩

theorem hit_init_v42 (s : State) (a : Nat)
    (h : isMiss ((lazyInit s).l1 (l1Index a)) (l1Tag a) = false) : s.init ≠ 0 := by
  intro h0
  have hl : (lazyInit s).l1 (l1Index a) = clearLine (s.l1 (l1Index a)) := by
    simp only [lazyInit, h0, if_true]
    rw [forLoop_setAt clearLine _ s.l1, if_pos (l1Index_lt a)]
  rw [hl] at h
  simp [isMiss, clearLine] at h

/-- The L1 line of the address after a completed `accessL1`. -/
theorem accessL1_line_v42 (cfg : Config) (s : State) (A : Nat) (data : Buf) (mode : Mode)
    (r : State × Buf) (h : accessL1 cfg s A data mode = some r) :
    (r.1.l1 (l1Index A)).Valid ≠ 0 ∧ (r.1.l1 (l1Index A)).Tag = l1Tag A ∧
    (mode = Mode.MODE_WRITE → (r.1.l1 (l1Index A)).Dirty = 1) ∧
    (mode = Mode.MODE_READ → isMiss ((lazyInit s).l1 (l1Index A)) (l1Tag A) = true →
      (r.1.l1 (l1Index A)).Dirty = 0) ∧
    (mode = Mode.MODE_READ → isMiss ((lazyInit s).l1 (l1Index A)) (l1Tag A) = false →
      (r.1.l1 (l1Index A)).Dirty = (s.l1 (l1Index A)).Dirty) := by
  unfold accessL1 at h
  rw [Option.map_eq_some'] at h
  obtain ⟨t, hf, hr⟩ := h
  obtain ⟨-, hm⟩ := fillL1_post_v42 cfg _ _ _ hf
  rw [isMiss_false_v42] at hm
  obtain ⟨hmiss, hhit⟩ := fillL1_line_v42 cfg _ _ _ hf
  subst hr
  cases mode
  · refine ⟨hm.1, hm.2, fun h => Mode.noConfusion h, fun _ hms => (hmiss hms).2.2, fun _ hh => ?_⟩
    have e : t = lazyInit s := hhit hh
    have e2 : lazyInit s = s := lazyInit_of_init_ne_v42 s (hit_init_v42 s A hh)
    show (t.l1 (l1Index A)).Dirty = _
    rw [e, e2]
  · refine ⟨by simpa [serviceL1, setAt] using hm.1, by simpa [serviceL1, setAt] using hm.2,
      fun _ => by simp [serviceL1, setAt], fun h => Mode.noConfusion h, fun h => Mode.noConfusion h⟩

end V42

namespace V43

theorem isMiss_false_v43 (l : CacheLine) (t : Nat) :
    isMiss l t = false ↔ l.Valid ≠ 0 ∧ l.Tag = t := by
  simp [isMiss]

theorem isMiss_true_v43 (l : CacheLine) (t : Nat) :
    isMiss l t = true ↔ l.Valid = 0 ∨ l.Tag ≠ t := by
  simp [isMiss]

theorem fillL1_line_v43 (cfg : Config) (s t : State) (a : Nat) (h : fillL1 cfg s a = some t) :
    (isMiss (s.l1 (l1Index a)) (l1Tag a) = true →
      (t.l1 (l1Index a)).Valid = 1 ∧ (t.l1 (l1Index a)).Tag = l1Tag a ∧
      (t.l1 (l1Index a)).Dirty = 0) ∧
    (isMiss (s.l1 (l1Index a)) (l1Tag a) = false → t = s) := by
  unfold fillL1 at h
  by_cases hm : isMiss (s.l1 (l1Index a)) (l1Tag a) = true
  · simp only [hm, if_true, Option.bind_eq_some] at h
    obtain ⟨r1, -, m2, -, h3⟩ := h
    cases h3
    refine ⟨fun _ => by simp [setAt], fun hf => ?_⟩
    rw [hm] at hf
    cases hf
  · simp only [hm] at h
    cases h
    exact ⟨fun h' => absurd h' hm, fun _ => rfl⟩

theorem hit_init_v43 (cfg : Config) (s : State) (a : Nat)
    (h : isMiss ((lazyInit cfg s).l1 (l1Index a)) (l1Tag a) = false) : s.init ≠ 0 := by
  intro h0
  have hl : (lazyInit cfg s).l1 (l1Index a) = clearLine (s.l1 (l1Index a)) := by
    simp only [lazyInit, h0, if_true]
    rw [forLoop_setAt clearLine _ s.l1, if_pos (l1Index_lt a)]
  rw [hl] at h
  simp [isMiss, clearLine] at h

/-- The L1 line of the address after a completed `accessL1`. -/
theorem accessL1_line_v43 (cfg : Config) (s : State) (A : Nat) (data : Buf) (mode : Mode)
    (r : State × Buf) (h : accessL1 cfg s A data mode = some r) :
    (r.1.l1 (l1Index A)).Valid ≠ 0 ∧ (r.1.l1 (l1Index A)).Tag = l1Tag A ∧
    (mode = Mode.MODE_WRITE → (r.1.l1 (l1Index A)).Dirty = 1) ∧
    (mode = Mode.MODE_READ → isMiss ((lazyInit cfg s).l1 (l1Index A)) (l1Tag A) = true →
      (r.1.l1 (l1Index A)).Dirty = 0) ∧
    (mode = Mode.MODE_READ → isMiss ((lazyInit cfg s).l1 (l1Index A)) (l1Tag A) = false →
      (r.1.l1 (l1Index A)).Dirty = (s.l1 (l1Index A)).Dirty) := by
  unfold accessL1 at h
  rw [Option.map_eq_some'] at h
  obtain ⟨t, hf, hr⟩ := h
  obtain ⟨-, hm⟩ := fillL1_post_v43 cfg _ _ _ hf
  rw [isMiss_false_v43] at hm
  obtain ⟨hmiss, hhit⟩ := fillL1_line_v43 cfg _ _ _ hf
  subst hr
  cases mode
  · refine ⟨hm.1, hm.2, fun h => Mode.noConfusion h, fun _ hms => (hmiss hms).2.2, fun _ hh => ?_⟩
    have e : t = lazyInit cfg s := hhit hh
    have e2 : lazyInit cfg s = s := lazyInit_of_init_ne_v43 cfg s (hit_init_v43 cfg s A hh)
    show (t.l1 (l1Index A)).Dirty = _
    rw [e, e2]
  · refine ⟨by simpa [serviceL1, setAt] using hm.1, by simpa [serviceL1, setAt] using hm.2,
      fun _ => by simp [serviceL1, setAt], fun h => Mode.noConfusion h, fun h => Mode.noConfusion h⟩

end V43

theorem dirtyValidLines_setAt (n : Nat) (ls : Nat → CacheLine) (p : Nat) (v : CacheLine)
    (h : dirtyValidLines n ls) (hv : v.Valid ≠ 0) : dirtyValidLines n (setAt ls p v) := by
  intro i hi hd
  by_cases e : i = p
  · subst e
    rw [setAt_same] at hd ⊢
    exact hv
  · rw [setAt_other _ _ _ _ e] at hd ⊢
    exact h i hi hd

theorem dirtyValidLines_of_frame (n : Nat) (ls ls' : Nat → CacheLine) (p : Nat)
    (h : dirtyValidLines n ls) (hv : (ls' p).Valid ≠ 0) (hf : ∀ j, j ≠ p → ls' j = ls j) :
    dirtyValidLines n ls' := by
  intro i hi hd
  by_cases e : i = p
  · subst e
    exact hv
  · rw [hf i e] at hd ⊢
    exact h i hi hd

theorem dirtyValidLines_clear (n : Nat) (ls : Nat → CacheLine) :
    dirtyValidLines n (forLoop n (fun i l => setAt l i (clearLine (l i))) ls) := by
  intro i hi hd
  rw [forLoop_setAt clearLine n ls i, if_pos hi] at hd
  exact absurd rfl hd

namespace V41

theorem fill_frame_v41 (cfg : Config) (s t : State) (a : Nat) (h : fill cfg s a = some t) :
    ∀ j, j ≠ l1Index a → t.lines j = s.lines j := by
  unfold fill at h
  by_cases hm : isMiss (s.lines (l1Index a)) (l1Tag a) = true
  · simp only [hm, if_true, Option.bind_eq_some] at h
    obtain ⟨r1, -, m2, -, h3⟩ := h
    cases h3
    exact fun j hj => setAt_other _ _ _ _ hj
  · simp only [hm] at h
    cases h
    exact fun _ _ => rfl

theorem lazyInit_dirtyValid_v41 (s : State) (h : s.init = 0 ∨ dirtyValid s) :
    dirtyValid (lazyInit s) := by
  by_cases h0 : s.init = 0
  · simp only [lazyInit, h0, if_true, dirtyValid]
    exact dirtyValidLines_clear _ _
  · rw [lazyInit_of_init_ne_v41 s h0]
    rcases h with h | h
    · exact absurd h h0
    · exact h

/-- A completed `accessL1` keeps `dirty ⇒ valid`, and establishes it when the
cache was not initialised. -/
theorem accessL1_dirtyValid_v41 (cfg : Config) (s : State) (A : Nat) (data : Buf) (mode : Mode)
    (r : State × Buf) (hs : s.init = 0 ∨ dirtyValid s)
    (h : accessL1 cfg s A data mode = some r) : dirtyValid r.1 := by
  have hv := (accessL1_line_v41 cfg s A data mode r h).1
  unfold accessL1 at h
  rw [Option.map_eq_some'] at h
  obtain ⟨t, hf, hr⟩ := h
  have h1 := lazyInit_dirtyValid_v41 s hs
  have hfr := fill_frame_v41 cfg _ _ _ hf
  subst hr
  refine dirtyValidLines_of_frame _ _ _ (l1Index A) h1 hv (fun j hj => ?_)
  rw [← hfr j hj]
  cases mode
  · rfl
  · exact setAt_other _ _ _ _ hj

theorem reachable_dirtyValid_v41 (cfg : Config) (s : State) (h : Reachable cfg s) :
    dirtyValid s := by
  induction h with
  | start m => exact fun i _ hd => absurd rfl hd
  | access s A data mode r _ _ hacc ih => exact accessL1_dirtyValid_v41 cfg s A data mode r (Or.inr ih) hacc
  | initCache s _ ih => exact ih
  | resetTime s _ ih => exact ih

end V41

namespace V42

theorem fillL1_frame_v42 (cfg : Config) (s t : State) (a : Nat) (h : fillL1 cfg s a = some t) :
    ∀ j, j ≠ l1Index a → t.l1 j = s.l1 j := by
  unfold fillL1 at h
  by_cases hm : isMiss (s.l1 (l1Index a)) (l1Tag a) = true
  · simp only [hm, if_true, Option.bind_eq_some] at h
    obtain ⟨r1, h1, s2, h2, h3⟩ := h
    cases h3
    have e1 := (accessL2_frame_v42 cfg _ _ _ _ _ h1).2
    have e2 : s2.l1 = r1.1.l1 := by
      split at h2
      · rw [Option.map_eq_some'] at h2
        obtain ⟨r2, h2, rfl⟩ := h2
        exact (accessL2_frame_v42 cfg _ _ _ _ _ h2).2
      · cases h2
        rfl
    intro j hj
    show setAt s2.l1 _ _ j = _
    rw [setAt_other _ _ _ _ hj, e2, e1]
  · simp only [hm] at h
    cases h
    exact fun _ _ => rfl

theorem accessL2_dirtyValid_v42 (cfg : Config) (s : State) (a : Nat) (d : Buf) (m : Mode)
    (r : State × Buf) (hs : dirtyValidLines (L2_SIZE / BLOCK_SIZE) s.l2)
    (h : accessL2 cfg s a d m = some r) : dirtyValidLines (L2_SIZE / BLOCK_SIZE) r.1.l2 := by
  obtain ⟨hv, -, hfr, -, -⟩ := accessL2_post_v42 cfg s a d m r h
  exact dirtyValidLines_of_frame _ _ _ _ hs hv hfr

theorem fillL1_dirtyValid_l2_v42 (cfg : Config) (s t : State) (a : Nat)
    (hs : dirtyValidLines (L2_SIZE / BLOCK_SIZE) s.l2) (h : fillL1 cfg s a = some t) :
    dirtyValidLines (L2_SIZE / BLOCK_SIZE) t.l2 := by
  unfold fillL1 at h
  by_cases hm : isMiss (s.l1 (l1Index a)) (l1Tag a) = true
  · simp only [hm, if_true, Option.bind_eq_some] at h
    obtain ⟨r1, h1, s2, h2, h3⟩ := h
    cases h3
    have e1 := accessL2_dirtyValid_v42 cfg _ _ _ _ _ hs h1
    show dirtyValidLines _ s2.l2
    split at h2
    · rw [Option.map_eq_some'] at h2
      obtain ⟨r2, h2, rfl⟩ := h2
      exact accessL2_dirtyValid_v42 cfg _ _ _ _ _ e1 h2
    · cases h2
      exact e1
  · simp only [hm] at h
    cases h
    exact hs

theorem lazyInit_dirtyValid_v42 (s : State) (h : s.init = 0 ∨ dirtyValid s) :
    dirtyValid (lazyInit s) := by
  by_cases h0 : s.init = 0
  · simp only [lazyInit, h0, if_true, dirtyValid]
    exact ⟨dirtyValidLines_clear _ _, dirtyValidLines_clear _ _⟩
  · rw [lazyInit_of_init_ne_v42 s h0]
    rcases h with h | h
    · exact absurd h h0
    · exact h

/-- A completed `accessL1` keeps `dirty ⇒ valid` on both levels, and
establishes it when the cache was not initialised. -/
theorem accessL1_dirtyValid_v42 (cfg : Config) (s : State) (A : Nat) (data : Buf) (mode : Mode)
    (r : State × Buf) (hs : s.init = 0 ∨ dirtyValid s)
    (h : accessL1 cfg s A data mode = some r) : dirtyValid r.1 := by
  have hv := (accessL1_line_v42 cfg s A data mode r h).1
  unfold accessL1 at h
  rw [Option.map_eq_some'] at h
  obtain ⟨t, hf, hr⟩ := h
  obtain ⟨h1, h2⟩ := lazyInit_dirtyValid_v42 s hs
  have hfr := fillL1_frame_v42 cfg _ _ _ hf
  have hl2 := fillL1_dirtyValid_l2_v42 cfg _ _ _ h2 hf
  subst hr
  refine ⟨dirtyValidLines_of_frame _ _ _ (l1Index A) h1 hv (fun j hj => ?_), ?_⟩
  · rw [← hfr j hj]
    cases mode
    · rfl
    · exact setAt_other _ _ _ _ hj
  · cases mode <;> exact hl2

theorem reachable_dirtyValid_v42 (cfg : Config) (s : State) (h : Reachable cfg s) :
    dirtyValid s := by
  induction h with
  | start m => exact ⟨fun i _ hd => absurd rfl hd, fun i _ hd => absurd rfl hd⟩
  | access s A data mode r _ _ hacc ih =>
    exact accessL1_dirtyValid_v42 cfg s A data mode r (Or.inr ih) hacc
  | initCache s _ ih => exact ih
  | resetTime s _ ih => exact ih

end V42

theorem u32sub_add (t c : Nat) (ht : t < 2 ^ 32) : u32sub (u32 (t + c)) c = t := by
  simp only [u32sub, u32]
  omega

namespace V43

theorem dirtyValidLines_of_frame_v43 (n : Nat) (ls ls' : Nat → CacheLine) (p : Nat)
    (h : dirtyValidLines n ls) (hv : (ls' p).Valid ≠ 0) (hf : ∀ j, j ≠ p → ls' j = ls j) :
    dirtyValidLines n ls' := by
  intro i hi hd
  by_cases e : i = p
  · subst e
    exact hv
  · rw [hf i e] at hd ⊢
    exact h i hi hd

/-- What a completed miss branch of `accessL2` leaves behind on the selected
line, and the accumulator after it. -/
theorem fillL2_post_v43 (cfg : Config) (s t : State) (a p : Nat)
    (h : fillL2 cfg s a p = some t) :
    isMiss (t.l2 p) (l2Tag a) = false ∧ (∀ j, j ≠ p → t.l2 j = s.l2 j) ∧
    (isMiss (s.l2 p) (l2Tag a) = false → t = s) ∧
    (isMiss (s.l2 p) (l2Tag a) = true →
      (t.l2 p).Time = t.mem.time ∧
      t.mem.time = u32 (s.mem.time + (cfg.DRAM_READ_TIME +
        if (s.l2 p).Valid ≠ 0 ∧ (s.l2 p).Dirty ≠ 0 then cfg.DRAM_WRITE_TIME else 0))) := by
  unfold fillL2 at h
  by_cases hm : isMiss (s.l2 p) (l2Tag a) = true
  · simp only [hm, if_true, Option.bind_eq_some] at h
    obtain ⟨r1, h1, m2, h2, h3⟩ := h
    cases h3
    have hr1 := accessDRAM_in_range cfg _ _ _ _ _ h1
    rw [accessDRAM_read_eq cfg _ _ _ hr1] at h1
    cases h1
    refine ⟨by simp [isMiss, setAt], fun j hj => setAt_other _ _ _ _ hj,
      fun hf => absurd (hm.symm.trans hf) (by decide), fun _ => ⟨by simp [setAt], ?_⟩⟩
    by_cases hd : (s.l2 p).Valid ≠ 0 ∧ (s.l2 p).Dirty ≠ 0
    · rw [if_pos hd, Option.map_eq_some'] at h2
      obtain ⟨r2, h2, rfl⟩ := h2
      have hr2 := accessDRAM_in_range cfg _ _ _ _ _ h2
      rw [accessDRAM_write_eq cfg _ _ _ hr2] at h2
      cases h2
      rw [if_pos hd]
      simp only [u32]
      omega
    · rw [if_neg hd] at h2
      cases h2
      rw [if_neg hd]
      rfl
  · simp only [hm] at h
    cases h
    exact ⟨by simpa using hm, fun _ _ => rfl, fun _ => rfl, fun h' => absurd h' hm⟩

theorem serviceL2_post_v43 (cfg : Config) (t : State) (p : Nat) (d : Buf) (m : Mode) :
    ((serviceL2 cfg t p d m).1.l2 p).Valid = (t.l2 p).Valid ∧
    ((serviceL2 cfg t p d m).1.l2 p).Tag = (t.l2 p).Tag ∧
    ((serviceL2 cfg t p d m).1.l2 p).Time = t.mem.time ∧
    (serviceL2 cfg t p d m).1.mem.time = u32 (t.mem.time + l2Cost cfg m) ∧
    ∀ j, j ≠ p → (serviceL2 cfg t p d m).1.l2 j = t.l2 j := by
  cases m
  · exact ⟨by simp [serviceL2, setAt], by simp [serviceL2, setAt], by simp [serviceL2, setAt],
      rfl, fun j hj => setAt_other _ _ _ _ hj⟩
  · exact ⟨by simp [serviceL2, setAt], by simp [serviceL2, setAt], by simp [serviceL2, setAt],
      rfl, fun j hj => setAt_other _ _ _ _ hj⟩

/-- What a completed `accessL2` leaves behind: the selected line is valid and
carries the tag, the other lines are untouched. -/
theorem accessL2_post_v43 (cfg : Config) (s : State) (a : Nat) (d : Buf) (m : Mode)
    (r : State × Buf) (h : accessL2 cfg s a d m = some r) :
    (r.1.l2 (l2Target cfg s a)).Valid ≠ 0 ∧ (r.1.l2 (l2Target cfg s a)).Tag = l2Tag a ∧
    ∀ j, j ≠ l2Target cfg s a → r.1.l2 j = s.l2 j := by
  unfold accessL2 at h
  rw [Option.map_eq_some'] at h
  obtain ⟨t, hf, hr⟩ := h
  subst hr
  obtain ⟨hm, hfr, -, -⟩ := fillL2_post_v43 cfg _ _ _ _ hf
  rw [isMiss_false_v43] at hm
  obtain ⟨h1, h2, -, -, h5⟩ := serviceL2_post_v43 cfg t (l2Target cfg s a) d m
  exact ⟨by rw [h1]; exact hm.1, by rw [h2]; exact hm.2, fun j hj => by rw [h5 j hj, hfr j hj]⟩

theorem fillL1_frame_v43 (cfg : Config) (s t : State) (a : Nat) (h : fillL1 cfg s a = some t) :
    ∀ j, j ≠ l1Index a → t.l1 j = s.l1 j := by
  unfold fillL1 at h
  by_cases hm : isMiss (s.l1 (l1Index a)) (l1Tag a) = true
  · simp only [hm, if_true, Option.bind_eq_some] at h
    obtain ⟨r1, h1, s2, h2, h3⟩ := h
    cases h3
    have e1 := (accessL2_frame_v43 cfg _ _ _ _ _ h1).2
    have e2 : s2.l1 = r1.1.l1 := by
      split at h2
      · rw [Option.map_eq_some'] at h2
        obtain ⟨r2, h2, rfl⟩ := h2
        exact (accessL2_frame_v43 cfg _ _ _ _ _ h2).2
      · cases h2
        rfl
    intro j hj
    show setAt s2.l1 _ _ j = _
    rw [setAt_other _ _ _ _ hj, e2, e1]
  · simp only [hm] at h
    cases h
    exact fun _ _ => rfl

theorem accessL2_dirtyValid_v43 (cfg : Config) (n : Nat) (s : State) (a : Nat) (d : Buf)
    (m : Mode) (r : State × Buf) (hs : dirtyValidLines n s.l2)
    (h : accessL2 cfg s a d m = some r) : dirtyValidLines n r.1.l2 := by
  obtain ⟨hv, -, hfr⟩ := accessL2_post_v43 cfg s a d m r h
  exact dirtyValidLines_of_frame_v43 _ _ _ _ hs hv hfr

theorem fillL1_dirtyValid_l2_v43 (cfg : Config) (n : Nat) (s t : State) (a : Nat)
    (hs : dirtyValidLines n s.l2) (h : fillL1 cfg s a = some t) :
    dirtyValidLines n t.l2 := by
  unfold fillL1 at h
  by_cases hm : isMiss (s.l1 (l1Index a)) (l1Tag a) = true
  · simp only [hm, if_true, Option.bind_eq_some] at h
    obtain ⟨r1, h1, s2, h2, h3⟩ := h
    cases h3
    have e1 := accessL2_dirtyValid_v43 cfg n _ _ _ _ _ hs h1
    show dirtyValidLines _ s2.l2
    split at h2
    · rw [Option.map_eq_some'] at h2
      obtain ⟨r2, h2, rfl⟩ := h2
      exact accessL2_dirtyValid_v43 cfg n _ _ _ _ _ e1 h2
    · cases h2
      exact e1
  · simp only [hm] at h
    cases h
    exact hs

theorem lazyInit_dirtyValid_v43 (cfg : Config) (s : State)
    (h : s.init = 0 ∨ dirtyValid cfg s) : dirtyValid cfg (lazyInit cfg s) := by
  by_cases h0 : s.init = 0
  · refine ⟨?_, ?_⟩
    · intro i hi hd
      simp only [lazyInit, h0, if_true] at hd
      rw [forLoop_setAt clearLine _ s.l1 i, if_pos hi] at hd
      exact absurd rfl hd
    · intro k hk hd
      have hn : 0 < cfg.NUMSETS := by
        rw [L2_lines_v43] at hk
        by_contra hz
        have : cfg.NUMSETS = 0 := by omega
        rw [this] at hk
        omega
      simp only [lazyInit, h0, if_true] at hd
      rw [initL2_v43 cfg s.l2 hn k hk] at hd
      exact absurd rfl hd
  · rw [lazyInit_of_init_ne_v43 cfg s h0]
    rcases h with h | h
    · exact absurd h h0
    · exact h

/-- A completed `accessL1` keeps `dirty ⇒ valid` on both levels, and
establishes it when the cache was not initialised. -/
theorem accessL1_dirtyValid_v43 (cfg : Config) (s : State) (A : Nat) (data : Buf) (mode : Mode)
    (r : State × Buf) (hs : s.init = 0 ∨ dirtyValid cfg s)
    (h : accessL1 cfg s A data mode = some r) : dirtyValid cfg r.1 := by
  have hv := (accessL1_line_v43 cfg s A data mode r h).1
  unfold accessL1 at h
  rw [Option.map_eq_some'] at h
  obtain ⟨t, hf, hr⟩ := h
  obtain ⟨h1, h2⟩ := lazyInit_dirtyValid_v43 cfg s hs
  have hfr := fillL1_frame_v43 cfg _ _ _ hf
  have hl2 := fillL1_dirtyValid_l2_v43 cfg _ _ _ _ h2 hf
  subst hr
  refine ⟨?_, ?_⟩
  · intro i hi hd
    by_cases e : i = l1Index A
    · subst e
      exact hv
    · have e2 : (serviceL1 cfg t A data mode).1.l1 i = (lazyInit cfg s).l1 i := by
        rw [← hfr i e]
        cases mode
        · rfl
        · exact setAt_other _ _ _ _ e
      rw [e2] at hd ⊢
      exact h1 i hi hd
  · cases mode <;> exact hl2

theorem reachable_dirtyValid_v43 (cfg : Config) (s : State) (h : Reachable cfg s) :
    dirtyValid cfg s := by
  induction h with
  | start m => exact ⟨fun i _ hd => absurd rfl hd, fun i _ hd => absurd rfl hd⟩
  | access s A data mode r _ _ hacc ih =>
    exact accessL1_dirtyValid_v43 cfg s A data mode r (Or.inr ih) hacc
  | initCache s _ ih => exact ih
  | resetTime s _ ih => exact ih

end V43

theorem logExtends_refl (cfg : Config) (m : Store) : logExtends cfg m m :=
  ⟨[], by simp, fun _ h => by cases h⟩

theorem logExtends_of_eq (cfg : Config) (m m' : Store) (h : m'.dramLog = m.dramLog) :
    logExtends cfg m m' :=
  ⟨[], by simp [h], fun _ h => by cases h⟩

theorem logExtends_trans (cfg : Config) (m1 m2 m3 : Store) (h12 : logExtends cfg m1 m2)
    (h23 : logExtends cfg m2 m3) : logExtends cfg m1 m3 := by
  obtain ⟨n1, e1, p1⟩ := h12
  obtain ⟨n2, e2, p2⟩ := h23
  refine ⟨n1 ++ n2, by rw [e2, e1, List.append_assoc], fun e he => ?_⟩
  rcases List.mem_append.1 he with h | h
  · exact p1 e h
  · exact p2 e h

theorem l1MemAddress_aligned (t i : Nat) : l1MemAddress t i % BLOCK_SIZE = 0 := by
  rw [l1MemAddress_eq]
  simp only [BLOCK_SIZE]
  omega

theorem V42.l2MemAddress_aligned_v42 (t i : Nat) : V42.l2MemAddress t i % BLOCK_SIZE = 0 := by
  rw [V42.l2MemAddress_eq_v42]
  simp only [BLOCK_SIZE]
  omega

theorem base_aligned (A : Nat) : (A - l1Offset A) % BLOCK_SIZE = 0 :=
  base_mod A

/-- A block-aligned address that passes the bounds check has its whole block
inside a store whose size is a positive multiple of the block size. -/
theorem aligned_block_inside (cfg : Config) (a : Nat) (hsz : cfg.DRAM_SIZE % BLOCK_SIZE = 0)
    (hpos : 0 < cfg.DRAM_SIZE) (ha : a % BLOCK_SIZE = 0)
    (hlt : a < cfg.DRAM_SIZE - WORD_SIZE + 1) : a + BLOCK_SIZE ≤ cfg.DRAM_SIZE := by
  simp only [BLOCK_SIZE, WORD_SIZE] at *
  omega

theorem accessDRAM_logExtends (cfg : Config) (m : Store) (a : Nat) (d : Buf) (mode : Mode)
    (r : Store × Buf) (hsz : cfg.DRAM_SIZE % BLOCK_SIZE = 0) (hpos : 0 < cfg.DRAM_SIZE)
    (ha : a % BLOCK_SIZE = 0) (h : accessDRAM cfg m a d mode = some r) :
    logExtends cfg m r.1 := by
  have hlt := accessDRAM_in_range cfg _ _ _ _ _ h
  have hin := aligned_block_inside cfg a hsz hpos ha hlt
  refine ⟨[(mode, a)], ?_, fun e he => ?_⟩
  · cases mode
    · rw [accessDRAM_read_eq cfg _ _ _ hlt] at h
      cases h
      rfl
    · rw [accessDRAM_write_eq cfg _ _ _ hlt] at h
      cases h
      rfl
  · rw [List.mem_singleton] at he
    subst he
    exact ⟨ha, hin⟩

namespace V41

theorem lazyInit_log_v41 (s : State) : (lazyInit s).mem = s.mem := by
  unfold lazyInit
  split <;> rfl

theorem fill_logExtends_v41 (cfg : Config) (s t : State) (a : Nat)
    (hsz : cfg.DRAM_SIZE % BLOCK_SIZE = 0) (hpos : 0 < cfg.DRAM_SIZE)
    (h : fill cfg s a = some t) : logExtends cfg s.mem t.mem := by
  unfold fill at h
  by_cases hm : isMiss (s.lines (l1Index a)) (l1Tag a) = true
  · simp only [hm, if_true, Option.bind_eq_some] at h
    obtain ⟨r1, h1, m2, h2, h3⟩ := h
    cases h3
    have e1 := accessDRAM_logExtends cfg _ _ _ _ _ hsz hpos (base_aligned a) h1
    refine logExtends_trans cfg _ _ _ e1 ?_
    split at h2
    · rw [Option.map_eq_some'] at h2
      obtain ⟨r2, h2, rfl⟩ := h2
      exact accessDRAM_logExtends cfg _ _ _ _ _ hsz hpos (l1MemAddress_aligned _ _) h2
    · cases h2
      exact logExtends_refl cfg _
  · simp only [hm] at h
    cases h
    exact logExtends_refl cfg _

/-- Every `accessDRAM` call logged by a completed `accessL1` has a block-aligned
address and its block inside DRAM. -/
theorem accessL1_logExtends_v41 (cfg : Config) (s : State) (A : Nat) (data : Buf) (mode : Mode)
    (r : State × Buf) (hsz : cfg.DRAM_SIZE % BLOCK_SIZE = 0) (hpos : 0 < cfg.DRAM_SIZE)
    (h : accessL1 cfg s A data mode = some r) : logExtends cfg s.mem r.1.mem := by
  unfold accessL1 at h
  rw [Option.map_eq_some'] at h
  obtain ⟨t, hf, hr⟩ := h
  subst hr
  have e1 := fill_logExtends_v41 cfg _ _ _ hsz hpos hf
  rw [lazyInit_log_v41] at e1
  exact logExtends_trans cfg _ _ _ e1
    (logExtends_of_eq cfg _ _ (service_mem_v41 cfg t A data mode).1)

end V41

namespace V42

theorem lazyInit_log_v42 (s : State) : (lazyInit s).mem = s.mem := by
  unfold lazyInit
  split <;> rfl

theorem accessL2_logExtends_v42 (cfg : Config) (s : State) (a : Nat) (d : Buf) (m : Mode)
    (r : State × Buf) (hsz : cfg.DRAM_SIZE % BLOCK_SIZE = 0) (hpos : 0 < cfg.DRAM_SIZE)
    (ha : a % BLOCK_SIZE = 0) (h : accessL2 cfg s a d m = some r) :
    logExtends cfg s.mem r.1.mem := by
  unfold accessL2 at h
  rw [Option.map_eq_some'] at h
  obtain ⟨t, hf, hr⟩ := h
  subst hr
  refine logExtends_trans cfg _ t.mem _ ?_
    (logExtends_of_eq cfg _ _ (serviceL2_mem_v42 cfg t a d m).1)
  unfold fillL2 at hf
  by_cases hm : isMiss (s.l2 (l2Index a)) (l2Tag a) = true
  · simp only [hm, if_true, Option.bind_eq_some] at hf
    obtain ⟨r1, h1, m2, h2, h3⟩ := hf
    cases h3
    have e1 := accessDRAM_logExtends cfg _ _ _ _ _ hsz hpos ha h1
    refine logExtends_trans cfg _ _ _ e1 ?_
    split at h2
    · rw [Option.map_eq_some'] at h2
      obtain ⟨r2, h2, rfl⟩ := h2
      exact accessDRAM_logExtends cfg _ _ _ _ _ hsz hpos (l2MemAddress_aligned_v42 _ _) h2
    · cases h2
      exact logExtends_refl cfg _
  · simp only [hm] at hf
    cases hf
    exact logExtends_refl cfg _

/-- Every `accessDRAM` call logged by a completed `accessL1` has a block-aligned
address and its block inside DRAM. -/
theorem accessL1_logExtends_v42 (cfg : Config) (s : State) (A : Nat) (data : Buf) (mode : Mode)
    (r : State × Buf) (hsz : cfg.DRAM_SIZE % BLOCK_SIZE = 0) (hpos : 0 < cfg.DRAM_SIZE)
    (h : accessL1 cfg s A data mode = some r) : logExtends cfg s.mem r.1.mem := by
  unfold accessL1 at h
  rw [Option.map_eq_some'] at h
  obtain ⟨t, hf, hr⟩ := h
  subst hr
  refine logExtends_trans cfg _ t.mem _ ?_
    (logExtends_of_eq cfg _ _ (serviceL1_mem_v42 cfg t A data mode).1)
  rw [← lazyInit_log_v42 s]
  unfold fillL1 at hf
  by_cases hm : isMiss ((lazyInit s).l1 (l1Index A)) (l1Tag A) = true
  · simp only [hm, if_true, Option.bind_eq_some] at hf
    obtain ⟨r1, h1, s2, h2, h3⟩ := hf
    cases h3
    have e1 := accessL2_logExtends_v42 cfg _ _ _ _ _ hsz hpos (base_aligned A) h1
    refine logExtends_trans cfg _ _ _ e1 ?_
    show logExtends cfg r1.1.mem s2.mem
    split at h2
    · rw [Option.map_eq_some'] at h2
      obtain ⟨r2, h2, rfl⟩ := h2
      exact accessL2_logExtends_v42 cfg _ _ _ _ _ hsz hpos (l1MemAddress_aligned _ _) h2
    · cases h2
      exact logExtends_refl cfg _
  · simp only [hm] at hf
    cases hf
    exact logExtends_refl cfg _

end V42

namespace V41

/-- An access whose line is invalid once the start-up block has run: the block
is fetched from DRAM, nothing is written back, and the line is refilled. -/
theorem access_invalid_line_v41 (cfg : Config) (s : State) (A : Nat) (data : Buf) (mode : Mode)
    (hr : A + WORD_SIZE ≤ cfg.DRAM_SIZE)
    (hv : ((lazyInit s).lines (l1Index A)).Valid = 0) :
    ∃ t, fill cfg (lazyInit s) A = some t ∧
      accessL1 cfg s A data mode = some (service cfg t A data mode) ∧
      t.mem.DRAM = s.mem.DRAM ∧ t.init = (lazyInit s).init ∧
      ∀ k, k < BLOCK_SIZE → (t.lines (l1Index A)).Block k = s.mem.DRAM (A - l1Offset A + k) := by
  have hmiss : isMiss ((lazyInit s).lines (l1Index A)) (l1Tag A) = true := by
    simp [isMiss, hv]
  have hfill : fill cfg (lazyInit s) A = some
      { lazyInit s with
        mem := { (lazyInit s).mem with
                 time := u32 ((lazyInit s).mem.time + cfg.DRAM_READ_TIME),
                 dramLog := (lazyInit s).mem.dramLog ++ [(Mode.MODE_READ, A - l1Offset A)],
                 dramOverrun := (lazyInit s).mem.dramOverrun ||
                   copyOverruns cfg (A - l1Offset A) },
        lines := setAt (lazyInit s).lines (l1Index A)
          { Valid := 1, Tag := l1Tag A, Dirty := 0,
            Block := memcpy ((lazyInit s).lines (l1Index A)).Block 0
              (memcpy TempBlock0 0 (lazyInit s).mem.DRAM (A - l1Offset A) BLOCK_SIZE)
              0 BLOCK_SIZE } } := by
    unfold fill
    simp only [hmiss, if_true]
    rw [accessDRAM_read_eq cfg _ _ _ (base_in_range cfg A hr)]
    simp [hv]
  refine ⟨_, hfill, by unfold accessL1; rw [hfill]; rfl, by simp [lazyInit_log_v41], rfl, ?_⟩
  intro k hk
  simp only [setAt_same]
  have e1 := memcpy_inside ((lazyInit s).lines (l1Index A)).Block 0
    (memcpy TempBlock0 0 (lazyInit s).mem.DRAM (A - l1Offset A) BLOCK_SIZE) 0 BLOCK_SIZE k hk
  have e2 := memcpy_inside TempBlock0 0 (lazyInit s).mem.DRAM (A - l1Offset A) BLOCK_SIZE k hk
  simp only [Nat.zero_add] at e1 e2
  rw [e1, e2, lazyInit_log_v41]

end V41

theorem wordOf_congr (b c : Buf) (h : ∀ k, k < WORD_SIZE → b k = c k) : wordOf b = wordOf c := by
  unfold wordOf
  apply List.map_congr_left
  intro k hk
  exact h k (List.mem_range.1 hk)

theorem l1MemAddress_small (t i : Nat) (ht : t < 2 ^ 18) (hi : i < 256) :
    l1MemAddress t i = t * 16384 + i * 64 := by
  rw [l1MemAddress_eq]
  omega

namespace V41

/-- The miss branch of `accessL1` on a miss whose addresses pass the bounds
check. -/
theorem fill_miss_v41 (cfg : Config) (s : State) (A : Nat)
    (hm : isMiss (s.lines (l1Index A)) (l1Tag A) = true)
    (hr : A - l1Offset A < cfg.DRAM_SIZE - WORD_SIZE + 1)
    (hwb : (s.lines (l1Index A)).Valid ≠ 0 ∧ (s.lines (l1Index A)).Dirty ≠ 0 →
      l1MemAddress (s.lines (l1Index A)).Tag (l1Index A) < cfg.DRAM_SIZE - WORD_SIZE + 1) :
    ∃ t, fill cfg s A = some t ∧ t.init = s.init ∧
      t.lines = setAt s.lines (l1Index A)
        { Valid := 1, Tag := l1Tag A, Dirty := 0,
          Block := memcpy (s.lines (l1Index A)).Block 0
            (memcpy TempBlock0 0 s.mem.DRAM (A - l1Offset A) BLOCK_SIZE) 0 BLOCK_SIZE } ∧
      t.mem.DRAM =
        if (s.lines (l1Index A)).Valid ≠ 0 ∧ (s.lines (l1Index A)).Dirty ≠ 0 then
          memcpy s.mem.DRAM (l1MemAddress (s.lines (l1Index A)).Tag (l1Index A))
            (s.lines (l1Index A)).Block 0 BLOCK_SIZE
        else s.mem.DRAM := by
  unfold fill
  simp only [hm, if_true]
  rw [accessDRAM_read_eq cfg _ _ _ hr]
  simp only [Option.some_bind]
  by_cases hd : (s.lines (l1Index A)).Valid ≠ 0 ∧ (s.lines (l1Index A)).Dirty ≠ 0
  · rw [if_pos hd, accessDRAM_write_eq cfg _ _ _ (hwb hd), if_pos hd]
    exact ⟨_, rfl, rfl, rfl, rfl⟩
  · rw [if_neg hd, if_neg hd]
    exact ⟨_, rfl, rfl, rfl, rfl⟩

end V41

/-- An address lies in the block of tag `T` and index `i` exactly when its
fields are `T` and `i`. -/
theorem in_block_iff (a T i : Nat) (hi : i < 256) :
    (l1Index a = i ∧ l1Tag a = T) ↔
      (T * 16384 + i * 64 ≤ a ∧ a < T * 16384 + i * 64 + 64) := by
  rw [l1Index_eq, l1Tag_eq]
  omega

theorem in_block_offset (a T i : Nat) (h1 : l1Index a = i) (h2 : l1Tag a = T) :
    T * 16384 + i * 64 + l1Offset a = a := by
  rw [l1Index_eq] at h1
  rw [l1Tag_eq] at h2
  rw [l1Offset_eq]
  omega

theorem base_fields (A : Nat) : A - l1Offset A = l1Tag A * 16384 + l1Index A * 64 := by
  rw [l1Offset_eq, l1Tag_eq, l1Index_eq]
  omega

theorem l1Tag_lt (A : Nat) (h : A < 2 ^ 32) : l1Tag A < 2 ^ 18 := by
  rw [l1Tag_eq]
  omega

theorem l1Offset_lt (a : Nat) : l1Offset a < 64 := by
  rw [l1Offset_eq]
  omega

theorem l1Index_lt256 (a : Nat) : l1Index a < 256 := by
  rw [l1Index_eq]
  omega

namespace V41

theorem absMem_def_v41 (s : State) (a : Nat) :
    absMem s a =
      if (s.lines (l1Index a)).Valid ≠ 0 ∧ (s.lines (l1Index a)).Tag = l1Tag a then
        (s.lines (l1Index a)).Block (l1Offset a)
      else s.mem.DRAM a := rfl

/-- The miss branch of `accessL1` on a coherent state completes for an in-range
address, keeps the state coherent, and does not change the memory the state
stands for. -/
theorem fill_coherent_v41 (cfg : Config) (s : State) (A : Nat) (hc : Coherent cfg s)
    (h32 : A < 2 ^ 32) (hr : A + WORD_SIZE ≤ cfg.DRAM_SIZE) :
    ∃ t, fill cfg s A = some t ∧ t.init = s.init ∧ Coherent cfg t ∧
      (∀ a, absMem t a = absMem s a) ∧
      (t.lines (l1Index A)).Valid ≠ 0 ∧ (t.lines (l1Index A)).Tag = l1Tag A := by
  by_cases hm : isMiss (s.lines (l1Index A)) (l1Tag A) = true
  swap
  · have hh : isMiss (s.lines (l1Index A)) (l1Tag A) = false := by simpa using hm
    refine ⟨s, fill_of_hit_v41 cfg s A hh, rfl, hc, fun _ => rfl, ?_⟩
    exact (isMiss_false_v41 _ _).1 hh
  have hi := l1Index_lt256 A
  have hwb : (s.lines (l1Index A)).Valid ≠ 0 ∧ (s.lines (l1Index A)).Dirty ≠ 0 →
      l1MemAddress (s.lines (l1Index A)).Tag (l1Index A) < cfg.DRAM_SIZE - WORD_SIZE + 1 := by
    intro hd
    obtain ⟨c1, c2, -⟩ := hc _ hi hd.1
    rw [l1MemAddress_small _ _ c1 hi]
    simp only [WORD_SIZE] at c2 ⊢
    omega
  obtain ⟨t, hfill, hinit, hlines, hdram⟩ :=
    fill_miss_v41 cfg s A hm (base_in_range cfg A hr) hwb
  have hmiss := (isMiss_true_v41 _ _).1 hm
  -- the new line
  have hnv : (t.lines (l1Index A)).Valid = 1 := by rw [hlines, setAt_same]
  have hnt : (t.lines (l1Index A)).Tag = l1Tag A := by rw [hlines, setAt_same]
  have hnd : (t.lines (l1Index A)).Dirty = 0 := by rw [hlines, setAt_same]
  have hnb : ∀ k, k < 64 →
      (t.lines (l1Index A)).Block k = s.mem.DRAM (l1Tag A * 16384 + l1Index A * 64 + k) := by
    intro k hk
    rw [hlines, setAt_same]
    have e1 := memcpy_inside (s.lines (l1Index A)).Block 0
      (memcpy TempBlock0 0 s.mem.DRAM (A - l1Offset A) BLOCK_SIZE) 0 BLOCK_SIZE k hk
    have e2 := memcpy_inside TempBlock0 0 s.mem.DRAM (A - l1Offset A) BLOCK_SIZE k hk
    simp only [Nat.zero_add] at e1 e2
    show memcpy (s.lines (l1Index A)).Block 0
      (memcpy TempBlock0 0 s.mem.DRAM (A - l1Offset A) BLOCK_SIZE) 0 BLOCK_SIZE k = _
    rw [e1, e2, base_fields]
  have hother : ∀ j, j ≠ l1Index A → t.lines j = s.lines j := by
    intro j hj
    rw [hlines, setAt_other _ _ _ _ hj]
  -- DRAM after the write-back
  have hdram' : ∀ a, t.mem.DRAM a =
      if ((s.lines (l1Index A)).Valid ≠ 0 ∧ (s.lines (l1Index A)).Dirty ≠ 0) ∧
          l1Index a = l1Index A ∧ l1Tag a = (s.lines (l1Index A)).Tag then
        (s.lines (l1Index A)).Block (l1Offset a)
      else s.mem.DRAM a := by
    intro a
    rw [hdram]
    by_cases hd : (s.lines (l1Index A)).Valid ≠ 0 ∧ (s.lines (l1Index A)).Dirty ≠ 0
    · obtain ⟨c1, -, -⟩ := hc _ hi hd.1
      rw [if_pos hd, l1MemAddress_small _ _ c1 hi]
      by_cases hin : l1Index a = l1Index A ∧ l1Tag a = (s.lines (l1Index A)).Tag
      · rw [if_pos ⟨hd, hin⟩]
        have hoff := in_block_offset a _ _ hin.1 hin.2
        have := memcpy_inside s.mem.DRAM
          ((s.lines (l1Index A)).Tag * 16384 + l1Index A * 64)
          (s.lines (l1Index A)).Block 0 BLOCK_SIZE (l1Offset a) (l1Offset_lt a)
        rw [hoff, Nat.zero_add] at this
        exact this
      · rw [if_neg (fun h => hin h.2)]
        apply memcpy_outside
        have := (in_block_iff a (s.lines (l1Index A)).Tag (l1Index A) hi).not.1 hin
        simp only [BLOCK_SIZE]
        omega
    · rw [if_neg hd, if_neg (fun h => hd h.1)]
  refine ⟨t, hfill, hinit, ?_, ?_, by rw [hnv]; decide, hnt⟩
  · -- coherence
    intro j hj hv
    by_cases e : j = l1Index A
    · subst e
      refine ⟨by rw [hnt]; exact l1Tag_lt A h32, ?_, fun _ k hk => ?_⟩
      · rw [hnt, ← base_fields]
        rw [l1Offset_eq]
        omega
      · rw [hnb k hk, hnt, hdram']
        rw [if_neg]
        rintro ⟨⟨hv', -⟩, h1, h2⟩
        have hk' : l1Tag A * 16384 + l1Index A * 64 + k
            < l1Tag A * 16384 + l1Index A * 64 + 64 := by omega
        have := (in_block_iff _ (l1Tag A) (l1Index A) hi).2 ⟨by omega, hk'⟩
        rcases hmiss with h | h
        · exact hv' h
        · exact h (h2.symm.trans this.2)
    · rw [hother j e] at hv ⊢
      obtain ⟨c1, c2, c3⟩ := hc j hj hv
      refine ⟨c1, c2, fun hcl k hk => ?_⟩
      rw [c3 hcl k hk, hdram', if_neg]
      rintro ⟨-, h1, -⟩
      have hk' : (s.lines j).Tag * 16384 + j * 64 + k
          < (s.lines j).Tag * 16384 + j * 64 + 64 := by omega
      have := (in_block_iff _ (s.lines j).Tag j hj).2 ⟨by omega, hk'⟩
      exact e (this.1.symm.trans h1)
  · -- the memory the state stands for
    intro a
    rw [absMem_def_v41, absMem_def_v41, hdram']
    by_cases hidx : l1Index a = l1Index A
    · rw [hidx]
      by_cases htag : l1Tag a = l1Tag A
      · have hs : ¬ ((s.lines (l1Index A)).Valid ≠ 0 ∧ (s.lines (l1Index A)).Tag = l1Tag a) := by
          rintro ⟨h1, h2⟩
          rcases hmiss with h | h
          · exact h1 h
          · exact h (h2.trans htag)
        rw [if_pos ⟨by rw [hnv]; decide, by rw [hnt, htag]⟩, if_neg hs, hnb _ (l1Offset_lt a)]
        rw [in_block_offset a _ _ hidx htag]
      · rw [if_neg (fun h => htag (by rw [← h.2, hnt]))]
        by_cases hs : (s.lines (l1Index A)).Valid ≠ 0 ∧ (s.lines (l1Index A)).Tag = l1Tag a
        · rw [if_pos hs]
          by_cases hd : (s.lines (l1Index A)).Dirty = 0
          · rw [if_neg (fun h => h.1.2 hd)]
            obtain ⟨-, -, c3⟩ := hc _ hi hs.1
            rw [c3 hd _ (l1Offset_lt a), in_block_offset a _ _ hidx hs.2.symm]
          · rw [if_pos ⟨⟨hs.1, hd⟩, rfl, hs.2.symm⟩]
        · rw [if_neg hs, if_neg]
          rintro ⟨⟨h1, -⟩, -, h3⟩
          exact hs ⟨h1, h3.symm⟩
    · have hd : ¬ (((s.lines (l1Index A)).Valid ≠ 0 ∧ (s.lines (l1Index A)).Dirty ≠ 0) ∧
          l1Index a = l1Index A ∧ l1Tag a = (s.lines (l1Index A)).Tag) :=
        fun h => hidx h.2.1
      rw [hother _ hidx, if_neg hd]

end V41

/-- The bytes of an aligned word lie in the block of the word. -/
theorem word_fields (A a : Nat) (hA : A % WORD_SIZE = 0) (h1 : A ≤ a) (h2 : a < A + WORD_SIZE) :
    l1Index a = l1Index A ∧ l1Tag a = l1Tag A ∧ l1Offset a = l1Offset A + (a - A) := by
  rw [l1Index_eq, l1Index_eq, l1Tag_eq, l1Tag_eq, l1Offset_eq, l1Offset_eq]
  simp only [WORD_SIZE] at *
  omega

/-- A byte of the block of `A` outside the word at `A` has another offset. -/
theorem outside_word_offset (A a : Nat) (hi : l1Index a = l1Index A) (ht : l1Tag a = l1Tag A)
    (hout : ¬ (A ≤ a ∧ a < A + WORD_SIZE)) :
    l1Offset a < l1Offset A ∨ l1Offset A + WORD_SIZE ≤ l1Offset a := by
  rw [l1Index_eq, l1Index_eq] at hi
  rw [l1Tag_eq, l1Tag_eq] at ht
  rw [l1Offset_eq, l1Offset_eq]
  simp only [WORD_SIZE] at *
  omega

namespace V41

/-- The start-up block leaves a state that stands for DRAM itself. -/
theorem lazyInit_sim_v41 (cfg : Config) (s : State) (h0 : s.init = 0) :
    Sim cfg (lazyInit s) s.mem.DRAM := by
  have hl : ∀ i, i < 256 → ((lazyInit s).lines i).Valid = 0 := by
    intro i hi
    simp only [lazyInit, h0, if_true]
    rw [forLoop_setAt clearLine _ s.lines, if_pos (by simpa [L1_SIZE, BLOCK_SIZE] using hi)]
    rfl
  refine ⟨lazyInit_init_ne_v41 s, fun i hi hv => absurd (hl i hi) hv, fun a => ?_⟩
  rw [absMem_def_v41, if_neg (fun h => h.1 (hl _ (l1Index_lt256 a))), lazyInit_log_v41]

/-- A read on a state that stands for `mem` returns the word of `mem` and
leaves a state that stands for `mem`. -/
theorem read_sim_v41 (cfg : Config) (s : State) (mem : Buf) (A : Nat) (buf : Buf)
    (hs : Sim cfg (lazyInit s) mem) (hA : A % WORD_SIZE = 0) (h32 : A < 2 ^ 32)
    (hr : A + WORD_SIZE ≤ cfg.DRAM_SIZE) :
    ∃ r, read cfg s A buf = some r ∧ Sim cfg r.1 mem ∧
      ∀ k, k < WORD_SIZE → r.2 k = mem (A + k) := by
  obtain ⟨hi, hc, habs⟩ := hs
  obtain ⟨t, hfill, hinit, hct, habst, hv, ht⟩ := fill_coherent_v41 cfg _ A hc h32 hr
  refine ⟨service cfg t A buf Mode.MODE_READ, by unfold read accessL1; rw [hfill]; rfl,
    ⟨by rw [← hinit] at hi; exact hi, hct, fun a => (habst a).trans (habs a)⟩,
    fun k hk => ?_⟩
  have e := memcpy_inside buf 0 (t.lines (l1Index A)).Block (l1Offset A) WORD_SIZE k hk
  simp only [Nat.zero_add] at e
  show memcpy buf 0 (t.lines (l1Index A)).Block (l1Offset A) WORD_SIZE k = _
  rw [e, ← habs, ← habst, absMem_def_v41]
  obtain ⟨w1, w2, w3⟩ := word_fields A (A + k) hA (by omega) (by omega)
  rw [w1, w2, w3, if_pos ⟨hv, ht⟩]
  congr 2
  omega

/-- A write on a state that stands for `mem` leaves a state that stands for
`mem` with the word stored at the address. -/
theorem write_sim_v41 (cfg : Config) (s : State) (mem : Buf) (A : Nat) (d : Buf)
    (hs : Sim cfg (lazyInit s) mem) (hA : A % WORD_SIZE = 0) (h32 : A < 2 ^ 32)
    (hr : A + WORD_SIZE ≤ cfg.DRAM_SIZE) :
    ∃ r, write cfg s A d = some r ∧ Sim cfg r.1 (memcpy mem A d 0 WORD_SIZE) := by
  obtain ⟨hi, hc, habs⟩ := hs
  obtain ⟨t, hfill, hinit, hct, habst, hv, ht⟩ := fill_coherent_v41 cfg _ A hc h32 hr
  have hlines : (service cfg t A d Mode.MODE_WRITE).1.lines = setAt t.lines (l1Index A)
      { t.lines (l1Index A) with
        Block := memcpy (t.lines (l1Index A)).Block (l1Offset A) d 0 WORD_SIZE, Dirty := 1 } :=
    rfl
  have hdram : (service cfg t A d Mode.MODE_WRITE).1.mem.DRAM = t.mem.DRAM := rfl
  refine ⟨service cfg t A d Mode.MODE_WRITE, by unfold write accessL1; rw [hfill]; rfl,
    by rw [← hinit] at hi; exact hi, ?_, ?_⟩
  · intro j hj hvj
    rw [hlines] at hvj ⊢
    by_cases e : j = l1Index A
    · subst e
      rw [setAt_same] at hvj ⊢
      obtain ⟨c1, c2, -⟩ := hct _ hj hv
      exact ⟨c1, c2, fun h => by cases h⟩
    · rw [setAt_other _ _ _ _ e] at hvj ⊢
      rw [hdram]
      exact hct j hj hvj
  · intro a
    have hold : absMem t a = mem a := (habst a).trans (habs a)
    rw [absMem_def_v41, hlines, hdram]
    by_cases hidx : l1Index a = l1Index A
    · rw [hidx, setAt_same]
      by_cases hin : A ≤ a ∧ a < A + WORD_SIZE
      · obtain ⟨-, w2, w3⟩ := word_fields A a hA hin.1 hin.2
        rw [if_pos ⟨hv, by rw [w2]; exact ht⟩]
        show memcpy (t.lines (l1Index A)).Block (l1Offset A) d 0 WORD_SIZE (l1Offset a) = _
        rw [w3, memcpy_inside _ _ _ _ _ _ (by omega)]
        have := memcpy_inside mem A d 0 WORD_SIZE (a - A) (by omega)
        rw [show A + (a - A) = a by omega] at this
        rw [this]
      · rw [memcpy_outside mem A d 0 WORD_SIZE a (by omega), ← hold, absMem_def_v41, hidx]
        by_cases hcnd : (t.lines (l1Index A)).Valid ≠ 0 ∧ (t.lines (l1Index A)).Tag = l1Tag a
        · rw [if_pos hcnd, if_pos hcnd]
          show memcpy (t.lines (l1Index A)).Block (l1Offset A) d 0 WORD_SIZE (l1Offset a) = _
          exact memcpy_outside _ _ _ _ _ _
            (outside_word_offset A a hidx (hcnd.2.symm.trans ht) hin)
        · rw [if_neg hcnd, if_neg hcnd]
    · rw [setAt_other _ _ _ _ hidx]
      have hout : ¬ (A ≤ a ∧ a < A + WORD_SIZE) := by
        intro hin
        exact hidx (word_fields A a hA hin.1 hin.2).1
      rw [memcpy_outside mem A d 0 WORD_SIZE a (by omega), ← hold, absMem_def_v41]

/-- A sequence of valid calls on a state that stands for `mem` completes and
its reads return what they return on the flat memory `mem`. -/
theorem run_sim_v41 (cfg : Config) (ops : List Op) :
    ∀ (s : State) (mem : Buf), Sim cfg (lazyInit s) mem →
      (∀ op, op ∈ ops → validOp cfg op) →
      ∃ s', run cfg s ops = some (s', flatRun mem ops) := by
  induction ops with
  | nil =>
    intro s mem _ _
    exact ⟨s, rfl⟩
  | cons op ops ih =>
    intro s mem hs hv
    have hop := hv op (List.mem_cons_self _ _)
    have hrest : ∀ o, o ∈ ops → validOp cfg o := fun o ho => hv o (List.mem_cons_of_mem _ ho)
    cases op with
    | read a =>
      obtain ⟨r, hrd, hsim, hout⟩ := read_sim_v41 cfg s mem a zeroDRAM hs hop.1 hop.2.1 hop.2.2
      have hsim' : Sim cfg (lazyInit r.1) mem := by
        rw [lazyInit_of_init_ne_v41 _ hsim.1]
        exact hsim
      obtain ⟨s', hrun⟩ := ih r.1 mem hsim' hrest
      refine ⟨s', ?_⟩
      simp only [run, hrd, Option.some_bind, hrun, Option.map_some', flatRun]
      rw [wordOf_congr r.2 (fun k => mem (a + k)) hout]
    | write a d =>
      obtain ⟨r, hwr, hsim⟩ := write_sim_v41 cfg s mem a d hs hop.1 hop.2.1 hop.2.2
      have hsim' : Sim cfg (lazyInit r.1) (memcpy mem a d 0 WORD_SIZE) := by
        rw [lazyInit_of_init_ne_v41 _ hsim.1]
        exact hsim
      obtain ⟨s', hrun⟩ := ih r.1 _ hsim' hrest
      exact ⟨s', by simp only [run, hwr, Option.some_bind, hrun, flatRun]⟩

end V41

/-! ## Stores past the end of an array -/

/-- A copy whose block fits inside DRAM leaves the overrun flag as it was. -/
theorem accessDRAM_fit_no_overrun (cfg : Config) (m : Store) (a : Nat) (d : Buf) (mode : Mode)
    (r : Store × Buf) (hfit : a + BLOCK_SIZE ≤ cfg.DRAM_SIZE)
    (h : accessDRAM cfg m a d mode = some r) : r.1.dramOverrun = m.dramOverrun := by
  have hlt := accessDRAM_in_range cfg _ _ _ _ _ h
  have hc : copyOverruns cfg a = false := by
    simp only [copyOverruns, decide_eq_false_iff_not]
    omega
  cases mode
  · rw [accessDRAM_read_eq cfg _ _ _ hlt] at h
    cases h
    simp [hc]
  · rw [accessDRAM_write_eq cfg _ _ _ hlt] at h
    cases h
    simp [hc]

/-- A copy whose block does not fit sets the overrun flag. -/
theorem accessDRAM_unfit (cfg : Config) (m : Store) (a : Nat) (d : Buf) (mode : Mode)
    (r : Store × Buf) (hun : cfg.DRAM_SIZE < a + BLOCK_SIZE)
    (h : accessDRAM cfg m a d mode = some r) : r.1.dramOverrun = true := by
  have hlt := accessDRAM_in_range cfg _ _ _ _ _ h
  have hc : copyOverruns cfg a = true := by
    simp only [copyOverruns, decide_eq_true_eq]
    exact hun
  cases mode
  · rw [accessDRAM_read_eq cfg _ _ _ hlt] at h
    cases h
    simp [hc]
  · rw [accessDRAM_write_eq cfg _ _ _ hlt] at h
    cases h
    simp [hc]

/-- A block-aligned `accessDRAM` that completes, on a store whose size is a
positive multiple of the block size, leaves the overrun flag as it was. -/
theorem accessDRAM_aligned_no_overrun (cfg : Config) (m : Store) (a : Nat) (d : Buf)
    (mode : Mode) (r : Store × Buf) (hsz : cfg.DRAM_SIZE % BLOCK_SIZE = 0)
    (hpos : 0 < cfg.DRAM_SIZE) (ha : a % BLOCK_SIZE = 0)
    (h : accessDRAM cfg m a d mode = some r) : r.1.dramOverrun = m.dramOverrun :=
  accessDRAM_fit_no_overrun cfg m a d mode r
    (aligned_block_inside cfg a hsz hpos ha (accessDRAM_in_range cfg _ _ _ _ _ h)) h

namespace V41

/-- With `DRAM_SIZE` a positive multiple of `BLOCK_SIZE`, a completed
`accessL1` never copies past the end of DRAM. -/
theorem accessL1_no_overrun_v41 (cfg : Config) (s : State) (A : Nat) (data : Buf) (mode : Mode)
    (r : State × Buf) (hsz : cfg.DRAM_SIZE % BLOCK_SIZE = 0) (hpos : 0 < cfg.DRAM_SIZE)
    (h : accessL1 cfg s A data mode = some r) : r.1.mem.dramOverrun = s.mem.dramOverrun := by
  unfold accessL1 at h
  rw [Option.map_eq_some'] at h
  obtain ⟨t, hf, hr⟩ := h
  subst hr
  have hsv : (service cfg t A data mode).1.mem.dramOverrun = t.mem.dramOverrun := by
    cases mode <;> rfl
  rw [hsv, ← lazyInit_log_v41 s]
  unfold fill at hf
  by_cases hm : isMiss ((lazyInit s).lines (l1Index A)) (l1Tag A) = true
  · simp only [hm, if_true, Option.bind_eq_some] at hf
    obtain ⟨r1, h1, m2, h2, h3⟩ := hf
    cases h3
    have e1 := accessDRAM_aligned_no_overrun cfg _ _ _ _ _ hsz hpos (base_aligned A) h1
    show m2.dramOverrun = _
    rw [← e1]
    split at h2
    · rw [Option.map_eq_some'] at h2
      obtain ⟨r2, h2, rfl⟩ := h2
      exact accessDRAM_aligned_no_overrun cfg _ _ _ _ _ hsz hpos (l1MemAddress_aligned _ _) h2
    · cases h2
      rfl
  · simp only [hm] at hf
    cases hf
    rfl

end V41

namespace V42

theorem accessL2_no_overrun_v42 (cfg : Config) (s : State) (a : Nat) (d : Buf) (m : Mode)
    (r : State × Buf) (hsz : cfg.DRAM_SIZE % BLOCK_SIZE = 0) (hpos : 0 < cfg.DRAM_SIZE)
    (ha : a % BLOCK_SIZE = 0) (h : accessL2 cfg s a d m = some r) :
    r.1.mem.dramOverrun = s.mem.dramOverrun := by
  unfold accessL2 at h
  rw [Option.map_eq_some'] at h
  obtain ⟨t, hf, hr⟩ := h
  subst hr
  have hsv : (serviceL2 cfg t a d m).1.mem.dramOverrun = t.mem.dramOverrun := by
    cases m <;> rfl
  rw [hsv]
  unfold fillL2 at hf
  by_cases hm : isMiss (s.l2 (l2Index a)) (l2Tag a) = true
  · simp only [hm, if_true, Option.bind_eq_some] at hf
    obtain ⟨r1, h1, m2, h2, h3⟩ := hf
    cases h3
    have e1 := accessDRAM_aligned_no_overrun cfg _ _ _ _ _ hsz hpos ha h1
    show m2.dramOverrun = _
    rw [← e1]
    split at h2
    · rw [Option.map_eq_some'] at h2
      obtain ⟨r2, h2, rfl⟩ := h2
      exact accessDRAM_aligned_no_overrun cfg _ _ _ _ _ hsz hpos
        (l2MemAddress_aligned_v42 _ _) h2
    · cases h2
      rfl
  · simp only [hm] at hf
    cases hf
    rfl

/-- With `DRAM_SIZE` a positive multiple of `BLOCK_SIZE`, a completed
`accessL1` never copies past the end of DRAM. -/
theorem accessL1_no_overrun_v42 (cfg : Config) (s : State) (A : Nat) (data : Buf) (mode : Mode)
    (r : State × Buf) (hsz : cfg.DRAM_SIZE % BLOCK_SIZE = 0) (hpos : 0 < cfg.DRAM_SIZE)
    (h : accessL1 cfg s A data mode = some r) : r.1.mem.dramOverrun = s.mem.dramOverrun := by
  unfold accessL1 at h
  rw [Option.map_eq_some'] at h
  obtain ⟨t, hf, hr⟩ := h
  subst hr
  have hsv : (serviceL1 cfg t A data mode).1.mem.dramOverrun = t.mem.dramOverrun := by
    cases mode <;> rfl
  rw [hsv, ← lazyInit_log_v42 s]
  unfold fillL1 at hf
  by_cases hm : isMiss ((lazyInit s).l1 (l1Index A)) (l1Tag A) = true
  · simp only [hm, if_true, Option.bind_eq_some] at hf
    obtain ⟨r1, h1, s2, h2, h3⟩ := hf
    cases h3
    have e1 := accessL2_no_overrun_v42 cfg _ _ _ _ _ hsz hpos (base_aligned A) h1
    show s2.mem.dramOverrun = _
    rw [← e1]
    split at h2
    · rw [Option.map_eq_some'] at h2
      obtain ⟨r2, h2, rfl⟩ := h2
      exact accessL2_no_overrun_v42 cfg _ _ _ _ _ hsz hpos (l1MemAddress_aligned _ _) h2
    · cases h2
      rfl
  · simp only [hm] at hf
    cases hf
    rfl

end V42

namespace V43

end V43

theorem forLoop_invariant_lt {σ : Type} (R : σ → Prop) (body : Nat → σ → σ) (n : Nat)
    (hR : ∀ i s, i < n → R s → R (body i s)) (s : σ) (h : R s) : R (forLoop n body s) := by
  have key : ∀ m, m ≤ n → R (forLoop m body s) := by
    intro m
    induction m with
    | zero => intro _; simpa [forLoop] using h
    | succ m ih =>
      intro hm
      rw [forLoop_succ]
      exact hR m _ (by omega) (ih (by omega))
  exact key n (le_refl n)

namespace V43

/-- With one line per set, the start-up block stays inside `cache.l2`. -/
theorem initOverrun_of_le_one (cfg : Config) (h : cfg.NUMSETS ≤ 1) :
    initOverrun cfg = false := by
  unfold initOverrun
  refine forLoop_invariant_lt (fun b => b = false) _ _ ?_ false rfl
  intro i b hi hb
  refine forLoop_invariant_lt (fun b => b = false) _ _ ?_ b hb
  intro j b hj hb
  have hj0 : j = 0 := by omega
  subst hj0
  have : ¬ (L2_SIZE cfg / BLOCK_SIZE ≤ l2Slot cfg 0 i) := by
    rw [l2Slot]
    omega
  simp [hb, this]

end V43

namespace V43

theorem l2MemAddress_aligned_v43 (t i : Nat) : l2MemAddress t i % BLOCK_SIZE = 0 := by
  rw [l2MemAddress_eq_v43]
  simp only [BLOCK_SIZE]
  omega

theorem lazyInit_store_v43 (cfg : Config) (s : State) : (lazyInit cfg s).mem = s.mem := by
  unfold lazyInit
  split <;> rfl

theorem accessL2_no_overrun_v43 (cfg : Config) (s : State) (a : Nat) (d : Buf) (m : Mode)
    (r : State × Buf) (hsz : cfg.DRAM_SIZE % BLOCK_SIZE = 0) (hpos : 0 < cfg.DRAM_SIZE)
    (ha : a % BLOCK_SIZE = 0) (h : accessL2 cfg s a d m = some r) :
    r.1.mem.dramOverrun = s.mem.dramOverrun := by
  unfold accessL2 at h
  rw [Option.map_eq_some'] at h
  obtain ⟨t, hf, hr⟩ := h
  subst hr
  have hsv : (serviceL2 cfg t (l2Target cfg s a) d m).1.mem.dramOverrun = t.mem.dramOverrun := by
    cases m <;> rfl
  rw [hsv]
  unfold fillL2 at hf
  by_cases hm : isMiss (s.l2 (l2Target cfg s a)) (l2Tag a) = true
  · simp only [hm, if_true, Option.bind_eq_some] at hf
    obtain ⟨r1, h1, m2, h2, h3⟩ := hf
    cases h3
    have e1 := accessDRAM_aligned_no_overrun cfg _ _ _ _ _ hsz hpos ha h1
    show m2.dramOverrun = _
    rw [← e1]
    split at h2
    · rw [Option.map_eq_some'] at h2
      obtain ⟨r2, h2, rfl⟩ := h2
      exact accessDRAM_aligned_no_overrun cfg _ _ _ _ _ hsz hpos
        (l2MemAddress_aligned_v43 _ _) h2
    · cases h2
      rfl
  · simp only [hm] at hf
    cases hf
    rfl

/-- With `DRAM_SIZE` a positive multiple of `BLOCK_SIZE`, a completed
`accessL1` never copies past the end of DRAM. -/
theorem accessL1_no_overrun_v43 (cfg : Config) (s : State) (A : Nat) (data : Buf) (mode : Mode)
    (r : State × Buf) (hsz : cfg.DRAM_SIZE % BLOCK_SIZE = 0) (hpos : 0 < cfg.DRAM_SIZE)
    (h : accessL1 cfg s A data mode = some r) : r.1.mem.dramOverrun = s.mem.dramOverrun := by
  unfold accessL1 at h
  rw [Option.map_eq_some'] at h
  obtain ⟨t, hf, hr⟩ := h
  subst hr
  have hsv : (serviceL1 cfg t A data mode).1.mem.dramOverrun = t.mem.dramOverrun := by
    cases mode <;> rfl
  rw [hsv, ← lazyInit_store_v43 cfg s]
  unfold fillL1 at hf
  by_cases hm : isMiss ((lazyInit cfg s).l1 (l1Index A)) (l1Tag A) = true
  · simp only [hm, if_true, Option.bind_eq_some] at hf
    obtain ⟨r1, h1, s2, h2, h3⟩ := hf
    cases h3
    have e1 := accessL2_no_overrun_v43 cfg _ _ _ _ _ hsz hpos (base_aligned A) h1
    show s2.mem.dramOverrun = _
    rw [← e1]
    split at h2
    · rw [Option.map_eq_some'] at h2
      obtain ⟨r2, h2, rfl⟩ := h2
      exact accessL2_no_overrun_v43 cfg _ _ _ _ _ hsz hpos (l1MemAddress_aligned _ _) h2
    · cases h2
      rfl
  · simp only [hm] at hf
    cases hf
    rfl

end V43

/-! ## Claims -/

/-- C1: in each of the three variants, for every state, every word-aligned
32-bit address `A` and every word `V`, if `write(A, V)` completes then the
`read(A)` that follows it also completes and puts the four bytes of `V` in the
output buffer. -/
theorem C1_write_then_read (cfg : Config) (A : Nat) (V buf : Buf)
    (_hA : A % WORD_SIZE = 0) (_h32 : A < 2 ^ 32) :
    (∀ (s : V41.State) (r : V41.State × Buf), V41.write cfg s A V = some r →
      ∃ r2, V41.read cfg r.1 A buf = some r2 ∧ ∀ k, k < WORD_SIZE → r2.2 k = V k) ∧
    (∀ (s : V42.State) (r : V42.State × Buf), V42.write cfg s A V = some r →
      ∃ r2, V42.read cfg r.1 A buf = some r2 ∧ ∀ k, k < WORD_SIZE → r2.2 k = V k) ∧
    (∀ (s : V43.State) (r : V43.State × Buf), V43.write cfg s A V = some r →
      ∃ r2, V43.read cfg r.1 A buf = some r2 ∧ ∀ k, k < WORD_SIZE → r2.2 k = V k) :=
  ⟨fun s r h => V41.write_then_read_v41 cfg s A V buf r h,
   fun s r h => V42.write_then_read_v42 cfg s A V buf r h,
   fun s r h => V43.write_then_read_v43 cfg s A V buf r h⟩

set_option maxRecDepth 100000 in
/-- C1, at a concrete input: from program start, `write(0x4010, 0xAA)` completes
in each variant and the `read(0x4010)` that follows returns the same bytes. -/
theorem C1_write_then_read_witness :
    (0x4010 % WORD_SIZE = 0 ∧ 0x4010 < 2 ^ 32) ∧
    (∃ r, V41.write labConfig (V41.startState zeroDRAM) 0x4010 (wordBytes 0xAA) = some r ∧
      ∃ r2, V41.read labConfig r.1 0x4010 zeroDRAM = some r2 ∧
        ∀ k, k < WORD_SIZE → r2.2 k = wordBytes 0xAA k) ∧
    (∃ r, V42.write labConfig (V42.startState zeroDRAM) 0x4010 (wordBytes 0xAA) = some r ∧
      ∃ r2, V42.read labConfig r.1 0x4010 zeroDRAM = some r2 ∧
        ∀ k, k < WORD_SIZE → r2.2 k = wordBytes 0xAA k) ∧
    (∃ r, V43.write labConfig (V43.startState zeroDRAM) 0x4010 (wordBytes 0xAA) = some r ∧
      ∃ r2, V43.read labConfig r.1 0x4010 zeroDRAM = some r2 ∧
        ∀ k, k < WORD_SIZE → r2.2 k = wordBytes 0xAA k) :=
  ⟨⟨by decide, by decide⟩,
   ⟨_, rfl, (C1_write_then_read labConfig 0x4010 (wordBytes 0xAA) zeroDRAM
      (by decide) (by decide)).1 (V41.startState zeroDRAM) _ rfl⟩,
   ⟨_, rfl, (C1_write_then_read labConfig 0x4010 (wordBytes 0xAA) zeroDRAM
      (by decide) (by decide)).2.1 (V42.startState zeroDRAM) _ rfl⟩,
   ⟨_, rfl, (C1_write_then_read labConfig 0x4010 (wordBytes 0xAA) zeroDRAM
      (by decide) (by decide)).2.2 (V43.startState zeroDRAM) _ rfl⟩⟩


/-- C2: in variant 4.1, for every state and all word-aligned in-range 32-bit
addresses `A` and `A'` of the same L1 index and different tags, once
`write(A, V)` has completed, any read or write of `A'` completes and leaves the
bytes of `V` in DRAM at the base of the block of `A` plus the offset of `A`. -/
theorem C2_dirty_write_back (cfg : Config) (s : V41.State) (A A' : Nat) (V data : Buf)
    (mode : Mode) (r1 : V41.State × Buf)
    (hA : A % WORD_SIZE = 0) (_hA' : A' % WORD_SIZE = 0)
    (h32 : A < 2 ^ 32) (_h32' : A' < 2 ^ 32)
    (hr : A + WORD_SIZE ≤ cfg.DRAM_SIZE) (hr' : A' + WORD_SIZE ≤ cfg.DRAM_SIZE)
    (hidx : l1Index A' = l1Index A) (htag : l1Tag A' ≠ l1Tag A)
    (hw : V41.write cfg s A V = some r1) :
    ∃ r2, V41.accessL1 cfg r1.1 A' data mode = some r2 ∧
      ∀ k, k < WORD_SIZE → r2.1.mem.DRAM ((A - A % BLOCK_SIZE) + l1Offset A + k) = V k :=
  V41.evict_after_write_v41 cfg s A A' V data mode r1 hA h32 hidx htag hr hr' hw

set_option maxRecDepth 100000 in
/-- C2, at a concrete input: from program start, `write(0x10, 0xAA)` followed
by `write(0x4010, 0xBB)` leaves `0xAA` in DRAM at address `0x10`. -/
theorem C2_dirty_write_back_witness :
    ∃ r1, V41.write labConfig (V41.startState zeroDRAM) 0x10 (wordBytes 0xAA) = some r1 ∧
      ∃ r2, V41.accessL1 labConfig r1.1 0x4010 (wordBytes 0xBB) Mode.MODE_WRITE = some r2 ∧
        ∀ k, k < WORD_SIZE →
          r2.1.mem.DRAM ((0x10 - 0x10 % BLOCK_SIZE) + l1Offset 0x10 + k) = wordBytes 0xAA k :=
  ⟨_, rfl, C2_dirty_write_back labConfig (V41.startState zeroDRAM) 0x10 0x4010 (wordBytes 0xAA)
    (wordBytes 0xBB) Mode.MODE_WRITE _ (by decide) (by decide) (by decide) (by decide)
    (by decide) (by decide) (by decide) (by decide) rfl⟩

/-- C3: in variant 4.2, from any state, for all word-aligned in-range 32-bit
addresses `A` and `A'` of the same L1 index and different L1 tags, once
`write(A, V)` and then `write(A', V')` have completed, `read(A)` completes and
returns the bytes of `V`. -/
theorem C3_write_write_read (cfg : Config) (s : V42.State) (A A' : Nat) (V V' buf : Buf)
    (r1 r2 : V42.State × Buf)
    (hA : A % WORD_SIZE = 0) (_hA' : A' % WORD_SIZE = 0)
    (h32 : A < 2 ^ 32) (h32' : A' < 2 ^ 32)
    (hr : A + WORD_SIZE ≤ cfg.DRAM_SIZE) (hr' : A' + WORD_SIZE ≤ cfg.DRAM_SIZE)
    (hidx : l1Index A' = l1Index A) (htag : l1Tag A' ≠ l1Tag A)
    (hw1 : V42.write cfg s A V = some r1) (hw2 : V42.write cfg r1.1 A' V' = some r2) :
    ∃ r3, V42.read cfg r2.1 A buf = some r3 ∧ ∀ k, k < WORD_SIZE → r3.2 k = V k :=
  V42.write_write_read_v42 cfg s A A' V V' buf r1 r2 hA h32 h32' hidx htag hr hr' hw1 hw2

set_option maxRecDepth 100000 in
/-- C3, at the input of the spec's example: from program start,
`write(0x10, 0xAA)`, `write(0x4010, 0xBB)`, `read(0x10)` returns `0xAA`. -/
theorem C3_write_write_read_witness :
    ∃ r1 r2, V42.write labConfig (V42.startState zeroDRAM) 0x10 (wordBytes 0xAA) = some r1 ∧
      V42.write labConfig r1.1 0x4010 (wordBytes 0xBB) = some r2 ∧
      ∃ r3, V42.read labConfig r2.1 0x10 zeroDRAM = some r3 ∧
        ∀ k, k < WORD_SIZE → r3.2 k = wordBytes 0xAA k :=
  ⟨_, _, rfl, rfl, C3_write_write_read labConfig (V42.startState zeroDRAM) 0x10 0x4010
    (wordBytes 0xAA) (wordBytes 0xBB) zeroDRAM _ _ (by decide) (by decide) (by decide)
    (by decide) (by decide) (by decide) (by decide) (by decide) rfl rfl⟩

set_option maxRecDepth 100000 in
/-- C4, evaluated: in variant 4.3 from program start (cold cache, DRAM all
zero), `0x4010` and `0x8010` have the same L1 index and different tags, the
calls `write(0x4010, 0xAA)`, `write(0x8010, 0xBB)`, `read(0x4010)` all complete,
and the read returns the byte 0 of DRAM where the byte `0xAA` was written. -/
theorem C4_read_returns_stale_word :
    l1Index 0x8010 = l1Index 0x4010 ∧ l1Tag 0x8010 ≠ l1Tag 0x4010 ∧
    ∃ r1 r2 r3,
      V43.write labConfig (V43.startState zeroDRAM) 0x4010 (wordBytes 0xAA) = some r1 ∧
      V43.write labConfig r1.1 0x8010 (wordBytes 0xBB) = some r2 ∧
      V43.read labConfig r2.1 0x4010 zeroDRAM = some r3 ∧
      r3.2 0 = 0 ∧ wordBytes 0xAA 0 = 0xAA :=
  ⟨by decide, by decide, _, _, _, rfl, rfl, rfl, rfl, rfl⟩

/-- C5: for every 32-bit address `A`, the write-back address rebuilt from the
tag and index of `A` is the base `A - A mod 64` of its block, at L1, at the
direct-mapped L2 of 4.2 and at the set-associative L2 of 4.3, in 32-bit
arithmetic. -/
theorem C5_memAddress_roundtrip (A : Nat) (h : A < 2 ^ 32) :
    l1MemAddress (l1Tag A) (l1Index A) = A - A % BLOCK_SIZE ∧
    V42.l2MemAddress (V42.l2Tag A) (V42.l2Index A) = A - A % BLOCK_SIZE ∧
    V43.l2MemAddress (V43.l2Tag A) (V43.l2Index A) = A - A % BLOCK_SIZE := by
  rw [l1MemAddress_eq, l1Tag_eq, l1Index_eq, V42.l2MemAddress_eq_v42, V42.l2Tag_eq_v42,
    V42.l2Index_eq_v42, V43.l2MemAddress_eq_v43, V43.l2Tag_eq_v43, V43.l2Index_eq_v43]
  simp only [BLOCK_SIZE]
  omega

/-- C5, at the address `0xFFFFFFD4`, the top of the 32-bit range. -/
theorem C5_memAddress_roundtrip_witness :
    0xFFFFFFD4 < 2 ^ 32 ∧
    l1MemAddress (l1Tag 0xFFFFFFD4) (l1Index 0xFFFFFFD4) = 0xFFFFFFD4 - 0xFFFFFFD4 % BLOCK_SIZE ∧
    V42.l2MemAddress (V42.l2Tag 0xFFFFFFD4) (V42.l2Index 0xFFFFFFD4)
      = 0xFFFFFFD4 - 0xFFFFFFD4 % BLOCK_SIZE ∧
    V43.l2MemAddress (V43.l2Tag 0xFFFFFFD4) (V43.l2Index 0xFFFFFFD4)
      = 0xFFFFFFD4 - 0xFFFFFFD4 % BLOCK_SIZE :=
  ⟨by decide, C5_memAddress_roundtrip 0xFFFFFFD4 (by decide)⟩

set_option maxRecDepth 100000 in
/-- C6, evaluated: in variant 4.3, after `write(0x4010, 0xAA)` and
`write(0x8010, 0xBB)` from program start, line 1 of set 0 of L2 is valid and
carries the tag of block `0x4000`; yet `accessL2` for that block works on line
0, reads the block from DRAM, and leaves two valid lines with that tag in the
set. -/
theorem C6_valid_matching_line_not_selected :
    ∃ r1 r2 r3,
      V43.write labConfig (V43.startState zeroDRAM) 0x4010 (wordBytes 0xAA) = some r1 ∧
      V43.write labConfig r1.1 0x8010 (wordBytes 0xBB) = some r2 ∧
      (r2.1.l2 (V43.l2Slot labConfig (V43.l2Index 0x4000) 1)).Valid = 1 ∧
      (r2.1.l2 (V43.l2Slot labConfig (V43.l2Index 0x4000) 1)).Tag = V43.l2Tag 0x4000 ∧
      V43.l2Target labConfig r2.1 0x4000 = V43.l2Slot labConfig (V43.l2Index 0x4000) 0 ∧
      V43.accessL2 labConfig r2.1 0x4000 TempBlock0 Mode.MODE_READ = some r3 ∧
      r3.1.mem.dramLog = r2.1.mem.dramLog ++ [(Mode.MODE_READ, 0x4000)] ∧
      (r3.1.l2 (V43.l2Slot labConfig (V43.l2Index 0x4000) 0)).Valid = 1 ∧
      (r3.1.l2 (V43.l2Slot labConfig (V43.l2Index 0x4000) 0)).Tag = V43.l2Tag 0x4000 ∧
      (r3.1.l2 (V43.l2Slot labConfig (V43.l2Index 0x4000) 1)).Valid = 1 ∧
      (r3.1.l2 (V43.l2Slot labConfig (V43.l2Index 0x4000) 1)).Tag = V43.l2Tag 0x4000 :=
  ⟨_, _, _, rfl, rfl, rfl, rfl, rfl, rfl, rfl, rfl, rfl, rfl, rfl⟩


set_option maxRecDepth 100000 in
/-- C7, refuted as stated: in the lazily initialised cache of variant 4.3 both
lines of set 0 are invalid with `Time` 0, and for the block `0x4000` (tag 1)
the selection loop picks line 1, not line 0. -/
theorem C7_cold_set_picks_last_line :
    ((V43.lazyInit labConfig (V43.startState zeroDRAM)).l2 (V43.l2Slot labConfig 0 0)).Valid = 0 ∧
    ((V43.lazyInit labConfig (V43.startState zeroDRAM)).l2 (V43.l2Slot labConfig 0 0)).Time = 0 ∧
    ((V43.lazyInit labConfig (V43.startState zeroDRAM)).l2 (V43.l2Slot labConfig 0 1)).Valid = 0 ∧
    ((V43.lazyInit labConfig (V43.startState zeroDRAM)).l2 (V43.l2Slot labConfig 0 1)).Time = 0 ∧
    V43.selectLine labConfig
      (fun i => (V43.lazyInit labConfig (V43.startState zeroDRAM)).l2
        (V43.l2Slot labConfig (V43.l2Index 0x4000) i)) (V43.l2Tag 0x4000) = 1 ∧
    V43.selectLine labConfig
      (fun i => (V43.lazyInit labConfig (V43.startState zeroDRAM)).l2
        (V43.l2Slot labConfig (V43.l2Index 0x4000) i)) (V43.l2Tag 0x4000) ≠ 0 :=
  ⟨rfl, rfl, rfl, rfl, rfl, by decide⟩

/-- C7, amended: in the set-associative L2 of variant 4.3, when no line of the
target set matches the requested tag and the `Tag` of line 0 differs from it,
the line the selection loop picks has the numerically smallest `Time` of the
set, and among the lines of equal smallest `Time` it is the highest-indexed
one; in particular, when all `Time` stamps are 0 it is line `NUMSETS - 1`. -/
theorem C7_victim_is_last_lowest (cfg : Config) (set : Nat → V43.CacheLine) (tag : Nat)
    (hn : 0 < cfg.NUMSETS)
    (_hno : ∀ i, i < cfg.NUMSETS → ¬ ((set i).Valid ≠ 0 ∧ (set i).Tag = tag))
    (h0 : (set 0).Tag ≠ tag) :
    V43.selectLine cfg set tag < cfg.NUMSETS ∧
    (∀ j, j < cfg.NUMSETS → (set (V43.selectLine cfg set tag)).Time ≤ (set j).Time) ∧
    (∀ j, j < cfg.NUMSETS → (set j).Time = (set (V43.selectLine cfg set tag)).Time →
      j ≤ V43.selectLine cfg set tag) ∧
    ((∀ j, j < cfg.NUMSETS → (set j).Time = 0) →
      V43.selectLine cfg set tag = cfg.NUMSETS - 1) := by
  obtain ⟨h1, h2, h3⟩ := V43.selectLine_spec cfg set tag hn h0
  refine ⟨h1, h2, h3, fun hz => ?_⟩
  have hlast := h3 (cfg.NUMSETS - 1) (by omega) (by rw [hz _ (by omega), hz _ h1])
  omega

/-- C7 amended, at a concrete input: on a set of two zeroed lines and the
requested tag 1, the loop picks line 1. -/
theorem C7_victim_is_last_lowest_witness :
    V43.selectLine labConfig (fun _ => V43.zeroLine) 1 = labConfig.NUMSETS - 1 :=
  (C7_victim_is_last_lowest labConfig (fun _ => V43.zeroLine) 1 (by decide)
    (fun _ _ h => h.1 rfl) (by decide)).2.2.2 (fun _ _ => rfl)

/-- C8: in variant 4.1 every completed `read(A)` advances the accumulator,
modulo 2^32, by `L1_READ_TIME` on a hit, by `DRAM_READ_TIME + L1_READ_TIME` on
a miss whose victim is invalid or clean, and by
`DRAM_READ_TIME + DRAM_WRITE_TIME + L1_READ_TIME` on a miss whose victim is
valid and dirty; `write(A, V)` does the same with `L1_WRITE_TIME`. Hit and
victim are judged on the line of `A` once the start-up block has run. -/
theorem C8_time_advance (cfg : Config) (s : V41.State) (A : Nat) (data : Buf)
    (r : V41.State × Buf) :
    (V41.read cfg s A data = some r →
      (V41.isMiss ((V41.lazyInit s).lines (l1Index A)) (l1Tag A) = false →
        getTime r.1.mem = (getTime s.mem + cfg.L1_READ_TIME) % 2 ^ 32) ∧
      (V41.isMiss ((V41.lazyInit s).lines (l1Index A)) (l1Tag A) = true →
        ((V41.lazyInit s).lines (l1Index A)).Valid = 0 ∨
          ((V41.lazyInit s).lines (l1Index A)).Dirty = 0 →
        getTime r.1.mem = (getTime s.mem + (cfg.DRAM_READ_TIME + cfg.L1_READ_TIME)) % 2 ^ 32) ∧
      (V41.isMiss ((V41.lazyInit s).lines (l1Index A)) (l1Tag A) = true →
        ((V41.lazyInit s).lines (l1Index A)).Valid ≠ 0 ∧
          ((V41.lazyInit s).lines (l1Index A)).Dirty ≠ 0 →
        getTime r.1.mem =
          (getTime s.mem + (cfg.DRAM_READ_TIME + cfg.DRAM_WRITE_TIME + cfg.L1_READ_TIME))
            % 2 ^ 32)) ∧
    (V41.write cfg s A data = some r →
      (V41.isMiss ((V41.lazyInit s).lines (l1Index A)) (l1Tag A) = false →
        getTime r.1.mem = (getTime s.mem + cfg.L1_WRITE_TIME) % 2 ^ 32) ∧
      (V41.isMiss ((V41.lazyInit s).lines (l1Index A)) (l1Tag A) = true →
        ((V41.lazyInit s).lines (l1Index A)).Valid = 0 ∨
          ((V41.lazyInit s).lines (l1Index A)).Dirty = 0 →
        getTime r.1.mem = (getTime s.mem + (cfg.DRAM_READ_TIME + cfg.L1_WRITE_TIME)) % 2 ^ 32) ∧
      (V41.isMiss ((V41.lazyInit s).lines (l1Index A)) (l1Tag A) = true →
        ((V41.lazyInit s).lines (l1Index A)).Valid ≠ 0 ∧
          ((V41.lazyInit s).lines (l1Index A)).Dirty ≠ 0 →
        getTime r.1.mem =
          (getTime s.mem + (cfg.DRAM_READ_TIME + cfg.DRAM_WRITE_TIME + cfg.L1_WRITE_TIME))
            % 2 ^ 32)) := by
  have key : ∀ mode, V41.accessL1 cfg s A data mode = some r →
      (V41.isMiss ((V41.lazyInit s).lines (l1Index A)) (l1Tag A) = false →
        getTime r.1.mem = (getTime s.mem + V41.l1Cost cfg mode) % 2 ^ 32) ∧
      (V41.isMiss ((V41.lazyInit s).lines (l1Index A)) (l1Tag A) = true →
        ((V41.lazyInit s).lines (l1Index A)).Valid = 0 ∨
          ((V41.lazyInit s).lines (l1Index A)).Dirty = 0 →
        getTime r.1.mem = (getTime s.mem + (cfg.DRAM_READ_TIME + V41.l1Cost cfg mode)) % 2 ^ 32) ∧
      (V41.isMiss ((V41.lazyInit s).lines (l1Index A)) (l1Tag A) = true →
        ((V41.lazyInit s).lines (l1Index A)).Valid ≠ 0 ∧
          ((V41.lazyInit s).lines (l1Index A)).Dirty ≠ 0 →
        getTime r.1.mem =
          (getTime s.mem + (cfg.DRAM_READ_TIME + cfg.DRAM_WRITE_TIME + V41.l1Cost cfg mode))
            % 2 ^ 32) := by
    intro mode h
    have ht := V41.accessL1_time_v41 cfg s A data mode r h
    simp only [getTime]
    refine ⟨fun hm => ?_, fun hm hv => ?_, fun hm hv => ?_⟩
    · rw [ht]
      simp [V41.callCost, hm, u32]
    · have hv' : ¬ (((V41.lazyInit s).lines (l1Index A)).Valid ≠ 0 ∧
          ((V41.lazyInit s).lines (l1Index A)).Dirty ≠ 0) := by
        rintro ⟨h1, h2⟩
        rcases hv with h | h
        · exact h1 h
        · exact h2 h
      rw [ht]
      simp only [V41.callCost, hm, if_true, if_neg hv', u32, Nat.add_zero]
    · rw [ht]
      simp only [V41.callCost, hm, if_true, if_pos hv, u32, Nat.add_assoc]
  exact ⟨key Mode.MODE_READ, key Mode.MODE_WRITE⟩

set_option maxRecDepth 100000 in
/-- C8, at a concrete input: from program start `read(0x10)` completes as a
miss with an invalid victim and advances the accumulator by
`DRAM_READ_TIME + L1_READ_TIME`. -/
theorem C8_time_advance_witness :
    ∃ r, V41.read labConfig (V41.startState zeroDRAM) 0x10 zeroDRAM = some r ∧
      getTime r.1.mem = (getTime (V41.startState zeroDRAM).mem +
        (labConfig.DRAM_READ_TIME + labConfig.L1_READ_TIME)) % 2 ^ 32 :=
  ⟨_, rfl, ((C8_time_advance labConfig (V41.startState zeroDRAM) 0x10 zeroDRAM _).1 rfl).2.1
    rfl (Or.inl rfl)⟩

set_option maxRecDepth 100000 in
/-- C9, refuted as stated: in variant 4.1, from the state whose accumulator
holds 2^32 - 1, `read(0)` completes and `getTime` afterwards is smaller than
before. -/
theorem C9_time_wraps_around :
    ∃ r, V41.read labConfig V41.fullTimeState 0 zeroDRAM = some r ∧
      getTime r.1.mem < getTime V41.fullTimeState.mem :=
  ⟨_, rfl, by decide⟩

/-- C9, amended: in variant 4.1, with positive L1 costs, every completed read
or write whose cost does not carry the 32-bit accumulator past 2^32 - 1 leaves
`getTime` strictly larger than before; and after `resetTime`, `getTime` is
0. -/
theorem C9_time_increases (cfg : Config) (s : V41.State) (A : Nat) (data : Buf) (mode : Mode)
    (r : V41.State × Buf)
    (hposR : 0 < cfg.L1_READ_TIME) (hposW : 0 < cfg.L1_WRITE_TIME)
    (hno : getTime s.mem + V41.callCost cfg s A mode < 2 ^ 32)
    (h : V41.accessL1 cfg s A data mode = some r) :
    getTime s.mem < getTime r.1.mem ∧ getTime (resetTime r.1.mem) = 0 := by
  have ht := V41.accessL1_time_v41 cfg s A data mode r h
  have hc : 0 < V41.l1Cost cfg mode := by
    cases mode
    · exact hposR
    · exact hposW
  have hle : V41.l1Cost cfg mode ≤ V41.callCost cfg s A mode := by
    unfold V41.callCost
    exact Nat.le_add_left _ _
  simp only [getTime] at hno ⊢
  refine ⟨?_, rfl⟩
  rw [ht, u32, Nat.mod_eq_of_lt hno]
  omega

set_option maxRecDepth 100000 in
/-- C9 amended, at a concrete input: from program start `write(0x10, 0xAA)`
completes and `getTime` grows. -/
theorem C9_time_increases_witness :
    ∃ r, V41.accessL1 labConfig (V41.startState zeroDRAM) 0x10 (wordBytes 0xAA)
        Mode.MODE_WRITE = some r ∧
      getTime (V41.startState zeroDRAM).mem < getTime r.1.mem ∧
      getTime (resetTime r.1.mem) = 0 :=
  ⟨_, rfl, C9_time_increases labConfig (V41.startState zeroDRAM) 0x10 (wordBytes 0xAA)
    Mode.MODE_WRITE _ (by decide) (by decide) (by decide) rfl⟩

set_option maxRecDepth 100000 in
/-- C11, evaluated: with a store of 65536 bytes the block of address 65532 does
not fit (65532 + 64 - 1 exceeds the last byte), yet `accessDRAM` does not
abort there, in either mode, and its copy runs past the end of DRAM. -/
theorem C11_unfitting_block_copied_past_end :
    labConfig.DRAM_SIZE - 1 < 65532 + BLOCK_SIZE - 1 ∧
    (startStore zeroDRAM).dramOverrun = false ∧
    (∃ r, accessDRAM labConfig (startStore zeroDRAM) 65532 zeroDRAM Mode.MODE_READ = some r ∧
      r.1.dramOverrun = true) ∧
    (∃ r, accessDRAM labConfig (startStore zeroDRAM) 65532 zeroDRAM Mode.MODE_WRITE = some r ∧
      r.1.dramOverrun = true) :=
  ⟨by decide, rfl, ⟨_, rfl, by decide⟩, ⟨_, rfl, by decide⟩⟩

/-- C12: for every address and either mode, with a store of at least one word,
`accessDRAM` terminates the simulation exactly when fewer than `WORD_SIZE`
bytes remain from the address to the end of the store, that is when
`address > DRAM_SIZE - WORD_SIZE`; and then the globals are left as they were:
neither `DRAM` nor `time` is modified. -/
theorem C12_fatal_bound (cfg : Config) (m : Store) (address : Nat) (data : Buf) (mode : Mode)
    (hsize : WORD_SIZE ≤ cfg.DRAM_SIZE) :
    (accessDRAM cfg m address data mode = none ↔ address > cfg.DRAM_SIZE - WORD_SIZE) ∧
    (accessDRAM cfg m address data mode = none ↔ cfg.DRAM_SIZE - address < WORD_SIZE) ∧
    (accessDRAM cfg m address data mode = none →
      (accessDRAMGlobals cfg m address data mode).DRAM = m.DRAM ∧
      (accessDRAMGlobals cfg m address data mode).time = m.time) := by
  simp only [WORD_SIZE] at hsize
  refine ⟨?_, ?_, fun h => ?_⟩
  · rw [accessDRAM_none_iff]
    omega
  · rw [accessDRAM_none_iff]
    simp only [WORD_SIZE]
    omega
  · rw [accessDRAM_none_iff] at h
    simp [accessDRAMGlobals, h]

/-- C12, at a concrete input: address 65533 of a store of 65536 bytes leaves
three bytes, and `accessDRAM` terminates there. -/
theorem C12_fatal_bound_witness :
    WORD_SIZE ≤ labConfig.DRAM_SIZE ∧
    accessDRAM labConfig (startStore zeroDRAM) 65533 zeroDRAM Mode.MODE_WRITE = none :=
  ⟨by decide, (C12_fatal_bound labConfig (startStore zeroDRAM) 65533 zeroDRAM Mode.MODE_WRITE
    (by decide)).1.2 (by decide)⟩

/-- C13: in every variant, `dirty ⇒ valid` holds on every line of L1 and L2
after lazy initialisation, is preserved by every completed read and write on a
word-aligned address, and hence holds in every state the driver can reach. -/
theorem C13_dirty_implies_valid (cfg : Config) :
    ((∀ s : V41.State, s.init = 0 → V41.dirtyValid (V41.lazyInit s)) ∧
      (∀ (s : V41.State) (A : Nat) (data : Buf) (mode : Mode) (r : V41.State × Buf),
        A % WORD_SIZE = 0 → V41.dirtyValid s → V41.accessL1 cfg s A data mode = some r →
        V41.dirtyValid r.1) ∧
      (∀ s : V41.State, V41.Reachable cfg s → V41.dirtyValid s)) ∧
    ((∀ s : V42.State, s.init = 0 → V42.dirtyValid (V42.lazyInit s)) ∧
      (∀ (s : V42.State) (A : Nat) (data : Buf) (mode : Mode) (r : V42.State × Buf),
        A % WORD_SIZE = 0 → V42.dirtyValid s → V42.accessL1 cfg s A data mode = some r →
        V42.dirtyValid r.1) ∧
      (∀ s : V42.State, V42.Reachable cfg s → V42.dirtyValid s)) ∧
    ((∀ s : V43.State, s.init = 0 → V43.dirtyValid cfg (V43.lazyInit cfg s)) ∧
      (∀ (s : V43.State) (A : Nat) (data : Buf) (mode : Mode) (r : V43.State × Buf),
        A % WORD_SIZE = 0 → V43.dirtyValid cfg s → V43.accessL1 cfg s A data mode = some r →
        V43.dirtyValid cfg r.1) ∧
      (∀ s : V43.State, V43.Reachable cfg s → V43.dirtyValid cfg s)) :=
  ⟨⟨fun s h => V41.lazyInit_dirtyValid_v41 s (Or.inl h),
    fun s A data mode r _ hs h => V41.accessL1_dirtyValid_v41 cfg s A data mode r (Or.inr hs) h,
    fun s h => V41.reachable_dirtyValid_v41 cfg s h⟩,
   ⟨fun s h => V42.lazyInit_dirtyValid_v42 s (Or.inl h),
    fun s A data mode r _ hs h => V42.accessL1_dirtyValid_v42 cfg s A data mode r (Or.inr hs) h,
    fun s h => V42.reachable_dirtyValid_v42 cfg s h⟩,
   ⟨fun s h => V43.lazyInit_dirtyValid_v43 cfg s (Or.inl h),
    fun s A data mode r _ hs h =>
      V43.accessL1_dirtyValid_v43 cfg s A data mode r (Or.inr hs) h,
    fun s h => V43.reachable_dirtyValid_v43 cfg s h⟩⟩

set_option maxRecDepth 100000 in
/-- C13, at a concrete input: the state of variant 4.3 after
`write(0x4010, 0xAA)` from program start is reachable, so every dirty line of it
is valid; its L1 line 0 is dirty. -/
theorem C13_dirty_implies_valid_witness :
    ∃ r, V43.accessL1 labConfig (V43.startState zeroDRAM) 0x4010 (wordBytes 0xAA)
        Mode.MODE_WRITE = some r ∧
      (r.1.l1 (l1Index 0x4010)).Dirty ≠ 0 ∧ V43.dirtyValid labConfig r.1 :=
  ⟨_, rfl, by decide,
    (C13_dirty_implies_valid labConfig).2.2.2.2 _
      (V43.Reachable.access (V43.startState zeroDRAM) 0x4010 (wordBytes 0xAA) Mode.MODE_WRITE _
        (V43.Reachable.start (startStore zeroDRAM)) (by decide) rfl)⟩

/-- C14: in variant 4.1 the cache is transparent: from a freshly initialised
cache over any DRAM contents, every finite sequence of word-aligned, in-range
reads and writes completes, and the words its reads return are those the same
sequence returns on a flat byte memory without a cache that starts as the
initial DRAM: each read returns the word last written at its address, or the
initial DRAM word when there was none. -/
theorem C14_cache_transparent (cfg : Config) (s : V41.State) (ops : List Op)
    (hv : ∀ op, op ∈ ops → validOp cfg op) :
    ∃ s', V41.run cfg (V41.initCache s) ops = some (s', flatRun s.mem.DRAM ops) :=
  V41.run_sim_v41 cfg ops (V41.initCache s) s.mem.DRAM
    (V41.lazyInit_sim_v41 cfg (V41.initCache s) rfl) hv

set_option maxRecDepth 100000 in
/-- C14, at a concrete input: over a DRAM that holds the byte `a mod 251` at
address `a`, the calls `write(0x10, 0xAA)`, `write(0x4010, 0xBB)`,
`read(0x10)`, `read(0x4010)`, `read(0x20)` complete and the reads return
`0xAA`, `0xBB` and the initial DRAM word at `0x20`. -/
theorem C14_cache_transparent_witness :
    ∃ s', V41.run labConfig (V41.initCache (V41.startState (fun a => a % 251)))
        [Op.write 0x10 (wordBytes 0xAA), Op.write 0x4010 (wordBytes 0xBB), Op.read 0x10,
          Op.read 0x4010, Op.read 0x20]
      = some (s', [[0xAA, 0, 0, 0], [0xBB, 0, 0, 0], [32, 33, 34, 35]]) := by
  have h := C14_cache_transparent labConfig (V41.startState (fun a => a % 251))
    [Op.write 0x10 (wordBytes 0xAA), Op.write 0x4010 (wordBytes 0xBB), Op.read 0x10,
      Op.read 0x4010, Op.read 0x20]
    (by
      intro op hop
      simp only [List.mem_cons, List.mem_singleton, List.not_mem_nil, or_false] at hop
      rcases hop with rfl | rfl | rfl | rfl | rfl <;>
        exact ⟨by decide, by decide, by decide⟩)
  have e : flatRun (V41.startState (fun a => a % 251)).mem.DRAM
      [Op.write 0x10 (wordBytes 0xAA), Op.write 0x4010 (wordBytes 0xBB), Op.read 0x10,
        Op.read 0x4010, Op.read 0x20]
      = [[0xAA, 0, 0, 0], [0xBB, 0, 0, 0], [32, 33, 34, 35]] := by
    decide
  rw [e] at h
  exact h

/-- C15: in variant 4.3, after every completed `accessL2` call in either mode,
on the hit path or the miss path, the `Time` stamp of the accessed line is the
value the accumulator had at the moment of the service (after the DRAM costs
of a miss were added), and the final value of the accumulator is that stamp
plus the L2 cost of the mode in 32-bit arithmetic; so, for a 32-bit
accumulator, the stamp is the final value minus the L2 cost just added. -/
theorem C15_time_stamp (cfg : Config) (s : V43.State) (address : Nat) (data : Buf) (mode : Mode)
    (r : V43.State × Buf) (h : V43.accessL2 cfg s address data mode = some r) :
    ∃ t, V43.fillL2 cfg s address (V43.l2Target cfg s address) = some t ∧
      (r.1.l2 (V43.l2Target cfg s address)).Time = t.mem.time ∧
      r.1.mem.time = u32 (t.mem.time + V43.l2Cost cfg mode) ∧
      (V43.isMiss (s.l2 (V43.l2Target cfg s address)) (V43.l2Tag address) = false →
        t.mem.time = s.mem.time) ∧
      (V43.isMiss (s.l2 (V43.l2Target cfg s address)) (V43.l2Tag address) = true →
        t.mem.time = u32 (s.mem.time + (cfg.DRAM_READ_TIME +
          if (s.l2 (V43.l2Target cfg s address)).Valid ≠ 0 ∧
              (s.l2 (V43.l2Target cfg s address)).Dirty ≠ 0
            then cfg.DRAM_WRITE_TIME else 0))) ∧
      (s.mem.time < 2 ^ 32 →
        (r.1.l2 (V43.l2Target cfg s address)).Time
          = u32sub r.1.mem.time (V43.l2Cost cfg mode)) := by
  unfold V43.accessL2 at h
  rw [Option.map_eq_some'] at h
  obtain ⟨t, hf, hr⟩ := h
  subst hr
  obtain ⟨-, -, hhit, hmiss⟩ := V43.fillL2_post_v43 cfg _ _ _ _ hf
  obtain ⟨-, -, h3, h4, -⟩ := V43.serviceL2_post_v43 cfg t (V43.l2Target cfg s address) data mode
  refine ⟨t, hf, h3, h4, fun hh => by rw [hhit hh], fun hm => (hmiss hm).2, fun hlt => ?_⟩
  have htlt : t.mem.time < 2 ^ 32 := by
    by_cases hm : V43.isMiss (s.l2 (V43.l2Target cfg s address)) (V43.l2Tag address) = true
    · rw [(hmiss hm).2]
      simp only [u32]
      omega
    · rw [hhit (by simpa using hm)]
      exact hlt
  rw [h3, h4, u32sub_add _ _ htlt]

set_option maxRecDepth 100000 in
/-- C15, at a concrete input: the first `accessL2` after lazy initialisation
from program start, a read of block `0x4000`, completes as a miss; the line is
stamped 100, the accumulator after the DRAM read, and the accumulator ends at
110. -/
theorem C15_time_stamp_witness :
    ∃ r, V43.accessL2 labConfig (V43.lazyInit labConfig (V43.startState zeroDRAM)) 0x4000
        TempBlock0 Mode.MODE_READ = some r ∧
      (r.1.l2 (V43.l2Target labConfig (V43.lazyInit labConfig (V43.startState zeroDRAM))
        0x4000)).Time = 100 ∧
      r.1.mem.time = 110 ∧
      ∃ t, V43.fillL2 labConfig (V43.lazyInit labConfig (V43.startState zeroDRAM)) 0x4000
          (V43.l2Target labConfig (V43.lazyInit labConfig (V43.startState zeroDRAM)) 0x4000)
          = some t ∧
        (r.1.l2 (V43.l2Target labConfig (V43.lazyInit labConfig (V43.startState zeroDRAM))
          0x4000)).Time = t.mem.time :=
  ⟨_, rfl, rfl, rfl,
    (C15_time_stamp labConfig (V43.lazyInit labConfig (V43.startState zeroDRAM)) 0x4000
      TempBlock0 Mode.MODE_READ _ rfl).imp fun _ h => ⟨h.1, h.2.1⟩⟩

/-- C16: in every variant, after any completed `read(A)` or `write(A, V)` on a
word-aligned 32-bit address, the L1 line at index `(A>>6)&0xFF` is valid and
its tag is `A>>14`; after a write it is dirty; after a read that missed it is
clean; after a read that hit its dirty flag is the one it had before. -/
theorem C16_l1_line_after_access (cfg : Config) (A : Nat) (data : Buf)
    (_hA : A % WORD_SIZE = 0) (_h32 : A < 2 ^ 32) :
    (∀ (s : V41.State) (r : V41.State × Buf),
      (V41.write cfg s A data = some r →
        (r.1.lines (l1Index A)).Valid ≠ 0 ∧ (r.1.lines (l1Index A)).Tag = l1Tag A ∧
        (r.1.lines (l1Index A)).Dirty ≠ 0) ∧
      (V41.read cfg s A data = some r →
        (r.1.lines (l1Index A)).Valid ≠ 0 ∧ (r.1.lines (l1Index A)).Tag = l1Tag A ∧
        (V41.isMiss ((V41.lazyInit s).lines (l1Index A)) (l1Tag A) = true →
          (r.1.lines (l1Index A)).Dirty = 0) ∧
        (V41.isMiss ((V41.lazyInit s).lines (l1Index A)) (l1Tag A) = false →
          (r.1.lines (l1Index A)).Dirty = (s.lines (l1Index A)).Dirty))) ∧
    (∀ (s : V42.State) (r : V42.State × Buf),
      (V42.write cfg s A data = some r →
        (r.1.l1 (l1Index A)).Valid ≠ 0 ∧ (r.1.l1 (l1Index A)).Tag = l1Tag A ∧
        (r.1.l1 (l1Index A)).Dirty ≠ 0) ∧
      (V42.read cfg s A data = some r →
        (r.1.l1 (l1Index A)).Valid ≠ 0 ∧ (r.1.l1 (l1Index A)).Tag = l1Tag A ∧
        (V42.isMiss ((V42.lazyInit s).l1 (l1Index A)) (l1Tag A) = true →
          (r.1.l1 (l1Index A)).Dirty = 0) ∧
        (V42.isMiss ((V42.lazyInit s).l1 (l1Index A)) (l1Tag A) = false →
          (r.1.l1 (l1Index A)).Dirty = (s.l1 (l1Index A)).Dirty))) ∧
    (∀ (s : V43.State) (r : V43.State × Buf),
      (V43.write cfg s A data = some r →
        (r.1.l1 (l1Index A)).Valid ≠ 0 ∧ (r.1.l1 (l1Index A)).Tag = l1Tag A ∧
        (r.1.l1 (l1Index A)).Dirty ≠ 0) ∧
      (V43.read cfg s A data = some r →
        (r.1.l1 (l1Index A)).Valid ≠ 0 ∧ (r.1.l1 (l1Index A)).Tag = l1Tag A ∧
        (V43.isMiss ((V43.lazyInit cfg s).l1 (l1Index A)) (l1Tag A) = true →
          (r.1.l1 (l1Index A)).Dirty = 0) ∧
        (V43.isMiss ((V43.lazyInit cfg s).l1 (l1Index A)) (l1Tag A) = false →
          (r.1.l1 (l1Index A)).Dirty = (s.l1 (l1Index A)).Dirty))) := by
  refine ⟨fun s r => ⟨fun h => ?_, fun h => ?_⟩, fun s r => ⟨fun h => ?_, fun h => ?_⟩,
    fun s r => ⟨fun h => ?_, fun h => ?_⟩⟩
  · obtain ⟨h1, h2, h3, -, -⟩ := V41.accessL1_line_v41 cfg s A data _ r h
    exact ⟨h1, h2, by rw [h3 rfl]; decide⟩
  · obtain ⟨h1, h2, -, h4, h5⟩ := V41.accessL1_line_v41 cfg s A data _ r h
    exact ⟨h1, h2, h4 rfl, h5 rfl⟩
  · obtain ⟨h1, h2, h3, -, -⟩ := V42.accessL1_line_v42 cfg s A data _ r h
    exact ⟨h1, h2, by rw [h3 rfl]; decide⟩
  · obtain ⟨h1, h2, -, h4, h5⟩ := V42.accessL1_line_v42 cfg s A data _ r h
    exact ⟨h1, h2, h4 rfl, h5 rfl⟩
  · obtain ⟨h1, h2, h3, -, -⟩ := V43.accessL1_line_v43 cfg s A data _ r h
    exact ⟨h1, h2, by rw [h3 rfl]; decide⟩
  · obtain ⟨h1, h2, -, h4, h5⟩ := V43.accessL1_line_v43 cfg s A data _ r h
    exact ⟨h1, h2, h4 rfl, h5 rfl⟩

set_option maxRecDepth 100000 in
/-- C16, at a concrete input: from program start in variant 4.1,
`write(0x4010, 0xAA)` completes and leaves line 0 valid, tagged 1 and dirty,
and `read(0x4010)` completes as a miss and leaves it valid, tagged 1 and
clean. -/
theorem C16_l1_line_after_access_witness :
    (0x4010 % WORD_SIZE = 0 ∧ 0x4010 < 2 ^ 32) ∧
    (∃ r, V41.write labConfig (V41.startState zeroDRAM) 0x4010 (wordBytes 0xAA) = some r ∧
      (r.1.lines (l1Index 0x4010)).Valid ≠ 0 ∧ (r.1.lines (l1Index 0x4010)).Tag = l1Tag 0x4010 ∧
      (r.1.lines (l1Index 0x4010)).Dirty ≠ 0) ∧
    ∃ r, V41.read labConfig (V41.startState zeroDRAM) 0x4010 (wordBytes 0xAA) = some r ∧
      (r.1.lines (l1Index 0x4010)).Valid ≠ 0 ∧ (r.1.lines (l1Index 0x4010)).Tag = l1Tag 0x4010 ∧
      (r.1.lines (l1Index 0x4010)).Dirty = 0 :=
  ⟨⟨by decide, by decide⟩,
    ⟨_, rfl, ((C16_l1_line_after_access labConfig 0x4010 (wordBytes 0xAA) (by decide)
      (by decide)).1 (V41.startState zeroDRAM) _).1 rfl⟩,
    ⟨_, rfl,
      (((C16_l1_line_after_access labConfig 0x4010 (wordBytes 0xAA) (by decide)
        (by decide)).1 (V41.startState zeroDRAM) _).2 rfl).1,
      (((C16_l1_line_after_access labConfig 0x4010 (wordBytes 0xAA) (by decide)
        (by decide)).1 (V41.startState zeroDRAM) _).2 rfl).2.1,
      (((C16_l1_line_after_access labConfig 0x4010 (wordBytes 0xAA) (by decide)
        (by decide)).1 (V41.startState zeroDRAM) _).2 rfl).2.2.1 rfl⟩⟩

/-- C17: in variants 4.1 and 4.2, with `DRAM_SIZE` a positive multiple of
`BLOCK_SIZE`, every address handed to `accessDRAM` is block-aligned: the fetch
address `A - offset`, and every write-back address rebuilt from a tag and an
index, at L1 and at L2; a block-aligned address that passes the bounds check
has its whole block inside DRAM; and so every `accessDRAM` call made by a
completed read or write has a block-aligned address and copies a range that
lies inside the DRAM array. -/
theorem C17_dram_calls_block_aligned (cfg : Config)
    (hsz : cfg.DRAM_SIZE % BLOCK_SIZE = 0) (hpos : 0 < cfg.DRAM_SIZE) :
    (∀ A, (A - l1Offset A) % BLOCK_SIZE = 0) ∧
    (∀ t i, l1MemAddress t i % BLOCK_SIZE = 0) ∧
    (∀ t i, V42.l2MemAddress t i % BLOCK_SIZE = 0) ∧
    (∀ (m : Store) (a : Nat) (d : Buf) (mode : Mode), a % BLOCK_SIZE = 0 →
      accessDRAM cfg m a d mode ≠ none → a + BLOCK_SIZE ≤ cfg.DRAM_SIZE) ∧
    (∀ (s : V41.State) (A : Nat) (data : Buf) (mode : Mode) (r : V41.State × Buf),
      V41.accessL1 cfg s A data mode = some r → logExtends cfg s.mem r.1.mem) ∧
    (∀ (s : V42.State) (A : Nat) (data : Buf) (mode : Mode) (r : V42.State × Buf),
      V42.accessL1 cfg s A data mode = some r → logExtends cfg s.mem r.1.mem) := by
  refine ⟨base_aligned, l1MemAddress_aligned, V42.l2MemAddress_aligned_v42,
    fun m a d mode ha hne => ?_, fun s A data mode r h => ?_, fun s A data mode r h => ?_⟩
  · have hlt : a < cfg.DRAM_SIZE - WORD_SIZE + 1 := by
      by_contra hge
      exact hne ((accessDRAM_none_iff cfg m a d mode).2 (by omega))
    exact aligned_block_inside cfg a hsz hpos ha hlt
  · exact V41.accessL1_logExtends_v41 cfg s A data mode r hsz hpos h
  · exact V42.accessL1_logExtends_v42 cfg s A data mode r hsz hpos h

set_option maxRecDepth 100000 in
/-- C17, at a concrete input: a store of 65536 bytes satisfies the hypotheses,
and in variant 4.2 from program start `write(0x10, 0xAA)` completes with every
logged DRAM call block-aligned and inside DRAM. -/
theorem C17_dram_calls_block_aligned_witness :
    (labConfig.DRAM_SIZE % BLOCK_SIZE = 0 ∧ 0 < labConfig.DRAM_SIZE) ∧
    ∃ r, V42.accessL1 labConfig (V42.startState zeroDRAM) 0x10 (wordBytes 0xAA)
        Mode.MODE_WRITE = some r ∧
      logExtends labConfig (V42.startState zeroDRAM).mem r.1.mem :=
  ⟨⟨by decide, by decide⟩, _, rfl,
    (C17_dram_calls_block_aligned labConfig (by decide) (by decide)).2.2.2.2.2
      (V42.startState zeroDRAM) 0x10 (wordBytes 0xAA) Mode.MODE_WRITE _ rfl⟩

/-- C18: for every 32-bit address the L1 index is below 256 and the L2 index is
below 512 in variant 4.2 and below 256 in variant 4.3; for every word-aligned
address the word copy stays inside the block, `offset + WORD_SIZE ≤
BLOCK_SIZE`; and for the offsets 61, 62 and 63 the copy of `WORD_SIZE` bytes
would reach past the block. -/
theorem C18_index_and_offset_bounds (A : Nat) (_h32 : A < 2 ^ 32) :
    l1Index A < L1_SIZE / BLOCK_SIZE ∧ l1Index A < 256 ∧
    V42.l2Index A < L2_SIZE / BLOCK_SIZE ∧ V42.l2Index A < 512 ∧
    V43.l2Index A < 256 ∧
    (A % WORD_SIZE = 0 → l1Offset A + WORD_SIZE ≤ BLOCK_SIZE) ∧
    (61 ≤ l1Offset A → BLOCK_SIZE < l1Offset A + WORD_SIZE) ∧
    l1Offset A ≤ 63 := by
  rw [l1Index_eq, V42.l2Index_eq_v42, V43.l2Index_eq_v43, l1Offset_eq]
  simp only [L1_SIZE, L2_SIZE, BLOCK_SIZE, WORD_SIZE]
  omega

/-- C18, at concrete inputs: the largest 32-bit address has offset 63, where
the word copy would reach past the block. -/
theorem C18_index_and_offset_bounds_witness :
    0xFFFFFFFF < 2 ^ 32 ∧ 61 ≤ l1Offset 0xFFFFFFFF ∧
    BLOCK_SIZE < l1Offset 0xFFFFFFFF + WORD_SIZE :=
  ⟨by decide, by decide,
    (C18_index_and_offset_bounds 0xFFFFFFFF (by decide)).2.2.2.2.2.2.1 (by decide)⟩

/-- C19: in variant 4.1, from a cold cache (not yet initialised, or with every
line invalid) and for every word-aligned in-range 32-bit address `A` and word
`V`, the sequence `write(A, V)`, `initCache()`, `read(A)` completes, the read
returns the word DRAM held at `A` at the start, and DRAM is the same after the
write and after the read as at the start: the dirty line is discarded. -/
theorem C19_initCache_discards_dirty (cfg : Config) (s : V41.State) (A : Nat) (V buf : Buf)
    (hA : A % WORD_SIZE = 0) (_h32 : A < 2 ^ 32) (hr : A + WORD_SIZE ≤ cfg.DRAM_SIZE)
    (hcold : s.init = 0 ∨ ∀ i, i < L1_SIZE / BLOCK_SIZE → (s.lines i).Valid = 0) :
    ∃ r1 r2, V41.write cfg s A V = some r1 ∧
      V41.read cfg (V41.initCache r1.1) A buf = some r2 ∧
      (∀ k, k < WORD_SIZE → r2.2 k = s.mem.DRAM (A + k)) ∧
      r1.1.mem.DRAM = s.mem.DRAM ∧ r2.1.mem.DRAM = s.mem.DRAM := by
  have hv1 : ((V41.lazyInit s).lines (l1Index A)).Valid = 0 := by
    by_cases h0 : s.init = 0
    · simp only [V41.lazyInit, h0, if_true]
      rw [forLoop_setAt clearLine _ s.lines, if_pos (l1Index_lt A)]
      rfl
    · rw [V41.lazyInit_of_init_ne_v41 s h0]
      rcases hcold with h | h
      · exact absurd h h0
      · exact h _ (l1Index_lt A)
  obtain ⟨t1, -, hacc1, hd1, -, -⟩ :=
    V41.access_invalid_line_v41 cfg s A V Mode.MODE_WRITE hr hv1
  have hD1 : (V41.service cfg t1 A V Mode.MODE_WRITE).1.mem.DRAM = s.mem.DRAM := by
    rw [(V41.service_mem_v41 cfg t1 A V Mode.MODE_WRITE).2, hd1]
  have hv2 : ((V41.lazyInit (V41.initCache (V41.service cfg t1 A V Mode.MODE_WRITE).1)).lines
      (l1Index A)).Valid = 0 := by
    rw [(V41.lazyInit_initCache_v41 _).2.2, if_pos (l1Index_lt A)]
    rfl
  obtain ⟨t2, -, hacc2, hd2, -, hb2⟩ :=
    V41.access_invalid_line_v41 cfg (V41.initCache (V41.service cfg t1 A V Mode.MODE_WRITE).1)
      A buf Mode.MODE_READ hr hv2
  have hD2 : t2.mem.DRAM = s.mem.DRAM := by
    rw [hd2]
    exact hD1
  refine ⟨_, _, hacc1, hacc2, fun k hk => ?_, hD1, ?_⟩
  · have hoff := aligned_offset A k hA hk
    have e := memcpy_inside buf 0 (t2.lines (l1Index A)).Block (l1Offset A) WORD_SIZE k hk
    simp only [Nat.zero_add] at e
    show memcpy buf 0 (t2.lines (l1Index A)).Block (l1Offset A) WORD_SIZE k = _
    rw [e, hb2 _ hoff]
    have e3 : V41.State.mem (V41.initCache (V41.service cfg t1 A V Mode.MODE_WRITE).1)
        = (V41.service cfg t1 A V Mode.MODE_WRITE).1.mem := rfl
    rw [e3, hD1]
    congr 1
    rw [l1Offset_eq]
    omega
  · rw [(V41.service_mem_v41 cfg t2 A buf Mode.MODE_READ).2]
    exact hD2

set_option maxRecDepth 100000 in
/-- C19, at a concrete input: from program start over a DRAM that holds the
byte `a mod 251` at address `a`, `write(0x4010, 0xAA)`, `initCache()`,
`read(0x4010)` returns the bytes DRAM holds at `0x4010`, not `0xAA`. -/
theorem C19_initCache_discards_dirty_witness :
    ∃ r1 r2, V41.write labConfig (V41.startState (fun a => a % 251)) 0x4010 (wordBytes 0xAA)
        = some r1 ∧
      V41.read labConfig (V41.initCache r1.1) 0x4010 zeroDRAM = some r2 ∧
      (∀ k, k < WORD_SIZE → r2.2 k = (0x4010 + k) % 251) ∧ r2.2 0 ≠ wordBytes 0xAA 0 := by
  obtain ⟨r1, r2, h1, h2, h3, -, -⟩ :=
    C19_initCache_discards_dirty labConfig (V41.startState (fun a => a % 251)) 0x4010
      (wordBytes 0xAA) zeroDRAM (by decide) (by decide) (by decide) (Or.inl rfl)
  refine ⟨r1, r2, h1, h2, h3, ?_⟩
  rw [h3 0 (by decide)]
  decide

end OCLab
